import Mathlib

/-!
# Gradient descent, k-means and mean shift: a shallow embedding

The Go sources compute on `float64`.  The embedding is in exact arithmetic: every
definition is generic over a linearly ordered field `F` (run it at `ℚ`, reason at `ℝ`).
Library functions of Go's `math` package that are not field operations
(`math.Sqrt`, `math.Hypot`, `math.Exp`, `math.Log`) are parameters `sqrt`, `exp`, `log`
of the definitions that call them (`Real.sqrt`, `Real.exp`, `Real.log` at `ℝ`);
`math.Pow(x, 2)` is `x ^ 2`, and `math.MaxFloat64` is its value `2^1024 - 2^971`.
A slice `[x, y]` of a regression sample is a pair; Go `int` is `Int`; a Go run-time
panic (index out of range, `make` with a negative length, `rand.Intn(0)`) is the
result `none`.  Where float64 departs from exact arithmetic in a way a property turns on,
it is modelled explicitly: `StepFloat` is `Step` of main10.go with the underflow of
`bandwidth * bandwidth` to 0 and the NaN weights that follow, and the tie-break of the
k-means assignment is stated for sums of squares that do not exceed `math.MaxFloat64`.

The definitions come first, file by file, each followed by the specification-side
definitions used to state its properties; the theorems follow.
-/

/-! ## main.go : linear regression by batch gradient descent -/

namespace Main

variable {F : Type} [LinearOrderedField F]

/-- Loop body of `Mse`: `totalError += (y - (w*x + b)) * (y - (w*x + b))`. -/
def mseLoop (b w : F) : List (F × F) → F → F
  | [], totalError => totalError
  | point :: rest, totalError =>
      let x := point.1
      let y := point.2
      mseLoop b w rest (totalError + (y - (w * x + b)) * (y - (w * x + b)))

/-- Go `Mse(b, w, points)`: mean squared error. -/
def Mse (b w : F) (points : List (F × F)) : F :=
  mseLoop b w points 0 / (points.length : F)

/-- Loop of `StepGradient`, carrying `(bGradient, wGradient)`. -/
def gradLoop (bCurrent wCurrent M : F) : List (F × F) → F × F → F × F
  | [], acc => acc
  | point :: rest, (bGradient, wGradient) =>
      let x := point.1
      let y := point.2
      gradLoop bCurrent wCurrent M rest
        (bGradient + (2 / M) * ((wCurrent * x + bCurrent) - y),
         wGradient + (2 / M) * x * ((wCurrent * x + bCurrent) - y))

/-- Go `StepGradient(bCurrent, wCurrent, points, lr)` of main.go: returns `(newB, newW)`. -/
def StepGradient (bCurrent wCurrent : F) (points : List (F × F)) (lr : F) : F × F :=
  let M : F := (points.length : F)
  let g := gradLoop bCurrent wCurrent M points (0, 0)
  let newB := bCurrent - lr * g.1
  let newW := wCurrent - lr * g.2
  (newB, newW)

/-- Go `GradientDescent(points, startingB, startingW, lr, numIterations)`: the loop
`b, w = StepGradient(b, w, points, lr)` run `numIterations` times (the printing of the
loss is dropped).  The recursion is on the number of iterations already run. -/
def GradientDescent (points : List (F × F)) (startingB startingW lr : F) : Nat → F × F
  | 0 => (startingB, startingW)
  | numIterations + 1 =>
      let bw := GradientDescent points startingB startingW lr numIterations
      StepGradient bw.1 bw.2 points lr

end Main

/-! ## main1.go : the animated variant of the same regression -/

namespace Main1

variable {F : Type} [LinearOrderedField F]

/-- Go `Mse` of main1.go: `totalError += math.Pow(y-(w*x+b), 2)`. -/
def mseLoop (b w : F) : List (F × F) → F → F
  | [], totalError => totalError
  | p :: rest, totalError =>
      let x := p.1
      let y := p.2
      mseLoop b w rest (totalError + (y - (w * x + b)) ^ 2)

/-- Go `Mse(b, w, points)` of main1.go. -/
def Mse (b w : F) (points : List (F × F)) : F :=
  mseLoop b w points 0 / (points.length : F)

/-- Loop of `StepGradient` of main1.go, carrying `(bGrad, wGrad)`; `err := w*x + b - y`. -/
def gradLoop (b w M : F) : List (F × F) → F × F → F × F
  | [], acc => acc
  | p :: rest, (bGrad, wGrad) =>
      let x := p.1
      let y := p.2
      let err := w * x + b - y
      gradLoop b w M rest (bGrad + (2 / M) * err, wGrad + (2 / M) * x * err)

/-- Go `StepGradient(b, w, points, lr)` of main1.go. -/
def StepGradient (b w : F) (points : List (F × F)) (lr : F) : F × F :=
  let M : F := (points.length : F)
  let g := gradLoop b w M points (0, 0)
  (b - lr * g.1, w - lr * g.2)

end Main1

/-! ## main4.go : logistic regression, loss and gradients -/

namespace Main4

variable {F : Type} [LinearOrderedField F]

/-- Go `logistic(a, b, c, x, y)`: `g := a + b*x + c*y; 1.0 / (1.0 + math.Exp(-g))`. -/
def logistic (exp : F → F) (a b c x y : F) : F :=
  let g := a + b * x + c * y
  1 / (1 + exp (-g))

/-- Loop of `crossEntropyLoss`: `for i := range yTrue`, carrying `sumLoss`; the fourth
argument is the index `i`. -/
def lossLoop (exp log : F → F) (xData yData : List F) (a b c : F) :
    List Int → Nat → F → Option F
  | [], _, sumLoss => some sumLoss
  | yTrue_i :: rest, i, sumLoss =>
      match xData[i]?, yData[i]? with
      | some x, some y =>
          let p := logistic exp a b c x y
          if yTrue_i = 1 then lossLoop exp log xData yData a b c rest (i + 1) (sumLoss - log p)
          else lossLoop exp log xData yData a b c rest (i + 1) (sumLoss - log (1 - p))
      | _, _ => none

/-- Go `crossEntropyLoss(yTrue, xData, yData, a, b, c)`. -/
def crossEntropyLoss (exp log : F → F) (yTrue : List Int) (xData yData : List F)
    (a b c : F) : Option F :=
  let m := yTrue.length
  (lossLoop exp log xData yData a b c yTrue 0 0).map (fun sumLoss => sumLoss / (m : F))

/-- Loop of `gradientA`: `sum += (p - float64(yTrue[i]))`. -/
def gradALoop (exp : F → F) (xData yData : List F) (a b c : F) :
    List Int → Nat → F → Option F
  | [], _, sum => some sum
  | yTrue_i :: rest, i, sum =>
      match xData[i]?, yData[i]? with
      | some x, some y =>
          let p := logistic exp a b c x y
          gradALoop exp xData yData a b c rest (i + 1) (sum + (p - (yTrue_i : F)))
      | _, _ => none

/-- Go `gradientA(yTrue, xData, yData, a, b, c)`. -/
def gradientA (exp : F → F) (yTrue : List Int) (xData yData : List F) (a b c : F) :
    Option F :=
  let m := yTrue.length
  (gradALoop exp xData yData a b c yTrue 0 0).map (fun sum => sum / (m : F))

/-- Loop of `gradientB`: `sum += (p - float64(yTrue[i])) * xData[i]`. -/
def gradBLoop (exp : F → F) (xData yData : List F) (a b c : F) :
    List Int → Nat → F → Option F
  | [], _, sum => some sum
  | yTrue_i :: rest, i, sum =>
      match xData[i]?, yData[i]? with
      | some x, some y =>
          let p := logistic exp a b c x y
          gradBLoop exp xData yData a b c rest (i + 1) (sum + (p - (yTrue_i : F)) * x)
      | _, _ => none

/-- Go `gradientB(yTrue, xData, yData, a, b, c)`. -/
def gradientB (exp : F → F) (yTrue : List Int) (xData yData : List F) (a b c : F) :
    Option F :=
  let m := yTrue.length
  (gradBLoop exp xData yData a b c yTrue 0 0).map (fun sum => sum / (m : F))

/-- Loop of `gradientC`: `sum += (p - float64(yTrue[i])) * yData[i]`. -/
def gradCLoop (exp : F → F) (xData yData : List F) (a b c : F) :
    List Int → Nat → F → Option F
  | [], _, sum => some sum
  | yTrue_i :: rest, i, sum =>
      match xData[i]?, yData[i]? with
      | some x, some y =>
          let p := logistic exp a b c x y
          gradCLoop exp xData yData a b c rest (i + 1) (sum + (p - (yTrue_i : F)) * y)
      | _, _ => none

/-- Go `gradientC(yTrue, xData, yData, a, b, c)`. -/
def gradientC (exp : F → F) (yTrue : List Int) (xData yData : List F) (a b c : F) :
    Option F :=
  let m := yTrue.length
  (gradCLoop exp xData yData a b c yTrue 0 0).map (fun sum => sum / (m : F))

/-- The samples `(label_i, x_i, y_i)` of a dataset given as three parallel slices. -/
def samples (yTrue : List Int) (xData yData : List F) : List (Int × F × F) :=
  yTrue.zip (xData.zip yData)

end Main4

/-! ## main9.go : k-means (Lloyd iteration) -/

namespace Main9

/-- Go `type Point struct { X, Y float64 }`. -/
structure Point (F : Type) where
  X : F
  Y : F
deriving DecidableEq

/-- Go `type Game struct` of main9.go. -/
structure Game (F : Type) where
  points : List (Point F)
  clusters : List Int
  centroids : List (Point F)
  prevCentroids : List (Point F)
  k : Int
  width : Int
  height : Int
  iteration : Int
  animProgress : F
  animSpeed : F
  converged : Bool

variable {F : Type} [LinearOrderedField F]

/-- Value of Go's `math.MaxFloat64`, `2^1023 * (2 - 2^-52)`. -/
def MaxFloat64 : F := 2 ^ 1024 - 2 ^ 971

/-- Go `distance(p1, p2)`: `math.Sqrt(math.Pow(p1.X-p2.X, 2) + math.Pow(p1.Y-p2.Y, 2))`. -/
def distance (sqrt : F → F) (p1 p2 : Point F) : F :=
  sqrt ((p1.X - p2.X) ^ 2 + (p1.Y - p2.Y) ^ 2)

/-- Go built-in `copy(dst, src)`: overwrites the first `min(len(dst), len(src))`
elements of `dst`. -/
def copySlice {α : Type} (dst src : List α) : List α :=
  src.take dst.length ++ dst.drop src.length

/-- Centroid sampling loop of `NewGame`: `centroids[i] = points[rand.Intn(len(points))]`
for `i` up to `k`.  The `i`-th call of `rand.Intn(n)` returns `src i % n` for an arbitrary
stream `src`, and panics when `n = 0`.  The second argument is the loop index, the third
the number of iterations left. -/
def sampleCentroids (src : Nat → Nat) (points : List (Point F)) :
    Nat → Nat → Option (List (Point F))
  | _, 0 => some []
  | i, n + 1 =>
      if points.length = 0 then none
      else
        match points[src i % points.length]?, sampleCentroids src points (i + 1) n with
        | some p, some rest => some (p :: rest)
        | _, _ => none

/-- Go `NewGame(points, k)`; `make([]Point, k)` panics for a negative `k`. -/
def NewGame (src : Nat → Nat) (points : List (Point F)) (k : Int) : Option (Game F) :=
  if k < 0 then none
  else
    match sampleCentroids src points 0 k.toNat with
    | none => none
    | some centroids =>
        some
          { points := points
            clusters := List.replicate points.length 0
            centroids := centroids
            prevCentroids := List.replicate k.toNat ⟨0, 0⟩
            k := k
            width := 800
            height := 600
            iteration := 0
            animProgress := 0
            animSpeed := 1 / 100
            converged := false }

/-- Inner loop of the assignment phase: `for j, c := range g.centroids`, carrying
`(minDist, closest)`. -/
def closestLoop (sqrt : F → F) (p : Point F) : List (Point F) → Nat → F × Int → F × Int
  | [], _, acc => acc
  | c :: rest, j, (minDist, closest) =>
      let dist := distance sqrt p c
      if dist < minDist then closestLoop sqrt p rest (j + 1) (dist, (j : Int))
      else closestLoop sqrt p rest (j + 1) (minDist, closest)

/-- The value of `closest` after the inner loop for a point `p` whose current cluster is
`ci`: `minDist := math.MaxFloat64; closest := g.clusters[i]; for j, c := ...`. -/
def closestOf (sqrt : F → F) (centroids : List (Point F)) (p : Point F) (ci : Int) : Int :=
  (closestLoop sqrt p centroids 0 (MaxFloat64, ci)).2

/-- Outer loop of the assignment phase: `for i, p := range g.points`, carrying
`g.clusters` and `changed`; the second argument is the index `i`. -/
def assignLoop (sqrt : F → F) (centroids : List (Point F)) :
    List (Point F) → Nat → List Int → Bool → Option (List Int × Bool)
  | [], _, clusters, changed => some (clusters, changed)
  | p :: rest, i, clusters, changed =>
      match clusters[i]? with
      | none => none
      | some ci =>
          let closest := closestOf sqrt centroids p ci
          if closest ≠ ci then
            assignLoop sqrt centroids rest (i + 1) (clusters.set i closest) true
          else assignLoop sqrt centroids rest (i + 1) clusters changed

/-- Accumulation loop of the update phase: `for i, c := range g.clusters`, carrying
`(newCentroids, counts)`; the second argument is the index `i`. -/
def sumLoop (points : List (Point F)) :
    List Int → Nat → List (Point F) × List Int → Option (List (Point F) × List Int)
  | [], _, acc => some acc
  | c :: rest, i, (newCentroids, counts) =>
      if c < 0 then none
      else
        match newCentroids[c.toNat]?, points[i]?, counts[c.toNat]? with
        | some q, some p, some n =>
            sumLoop points rest (i + 1)
              (newCentroids.set c.toNat ⟨q.X + p.X, q.Y + p.Y⟩, counts.set c.toNat (n + 1))
        | _, _, _ => none

/-- Body of the division loop `for j := 0; j < g.k; j++` at one index. -/
def divideOne (q : Point F) (n : Int) : Point F :=
  if n > 0 then ⟨q.X / (n : F), q.Y / (n : F)⟩ else q

/-- Division loop of the update phase; `newCentroids` and `counts` both have length `g.k`,
so the index loop is a walk along the two slices. -/
def divideLoop (newCentroids : List (Point F)) (counts : List Int) : List (Point F) :=
  List.zipWith divideOne newCentroids counts

/-- Go `(g *Game) stepKmeans()`: the state after the call and the returned `changed`. -/
def stepKmeans (sqrt : F → F) (g : Game F) : Option (Game F × Bool) :=
  let prevCentroids := copySlice g.prevCentroids g.centroids
  match assignLoop sqrt g.centroids g.points 0 g.clusters false with
  | none => none
  | some (clusters, changed) =>
      if g.k < 0 then none
      else
        match sumLoop g.points clusters 0
            (List.replicate g.k.toNat ⟨0, 0⟩, List.replicate g.k.toNat 0) with
        | none => none
        | some (newCentroids, counts) =>
            some
              ({ g with
                  prevCentroids := prevCentroids
                  clusters := clusters
                  centroids := divideLoop newCentroids counts
                  iteration := g.iteration + 1 },
               changed)

/-- The state after `n` calls of `stepKmeans`, `none` if one of them panics. -/
def stepN (sqrt : F → F) : Nat → Game F → Option (Game F)
  | 0, g => some g
  | n + 1, g =>
      match stepN sqrt n g with
      | none => none
      | some g1 => (stepKmeans sqrt g1).map Prod.fst

end Main9

/-! ## Specification-side definitions: k-means -/

namespace Main9

variable {F : Type} [LinearOrderedField F]

/-- The points whose entry in `clusters` is `j`, in index order. -/
def members (points : List (Point F)) (clusters : List Int) (j : Nat) : List (Point F) :=
  ((clusters.zip points).filter (fun cp => decide (cp.1 = (j : Int)))).map Prod.snd

/-- Coordinate-wise mean of a list of points. -/
def mean (ps : List (Point F)) : Point F :=
  ⟨(ps.map Point.X).sum / (ps.length : F), (ps.map Point.Y).sum / (ps.length : F)⟩

/-- Shape of a k-means state: `k` centroids, one cluster index in `[0, k)` per point. -/
def Game.WF (g : Game F) : Prop :=
  0 ≤ g.k ∧ g.centroids.length = g.k.toNat ∧ g.clusters.length = g.points.length ∧
    ∀ c ∈ g.clusters, 0 ≤ c ∧ c < g.k

/-- A state with the given points, cluster indices and centroids and `k = len(centroids)`;
the remaining fields are as `NewGame` sets them. -/
def mkGame (points : List (Point F)) (clusters : List Int) (centroids : List (Point F)) :
    Game F :=
  { points := points
    clusters := clusters
    centroids := centroids
    prevCentroids := List.replicate centroids.length ⟨0, 0⟩
    k := (centroids.length : Int)
    width := 800
    height := 600
    iteration := 0
    animProgress := 0
    animSpeed := 1 / 100
    converged := false }

end Main9

/-! ## Specification-side definitions: the k-means objective -/

namespace Main9

variable {F : Type} [LinearOrderedField F]

/-- Squared Euclidean distance between two points. -/
def distSq (p q : Point F) : F :=
  (p.X - q.X) ^ 2 + (p.Y - q.Y) ^ 2

/-- Squared distance from `p` to the centroid with index `j`; 0 when there is no such
centroid (the Go code would panic on reading it). -/
def costAt (centroids : List (Point F)) (j : Nat) (p : Point F) : F :=
  match centroids[j]? with
  | some c => distSq p c
  | none => 0

/-- Within-cluster sum of squares `Σ_i ‖points[i] − centroids[clusters[i]]‖²`. -/
def wcss (points : List (Point F)) (clusters : List Int) (centroids : List (Point F)) : F :=
  ((clusters.zip points).map (fun cp => costAt centroids cp.1.toNat cp.2)).sum

end Main9

/-! ## main10.go : mean shift -/

namespace Main10

/-- Go `type Point struct { X, Y float64 }` of main10.go. -/
structure Point (F : Type) where
  X : F
  Y : F
deriving DecidableEq

/-- Go `type MeanShift struct`. -/
structure MeanShift (F : Type) where
  points : List (Point F)
  modes : List (Point F)
  currentModes : List (Point F)
  labels : List Int
  bandwidth : F
  iterations : Int
  currentStep : Int
  converged : Bool

variable {F : Type} [LinearOrderedField F]

/-- Go `distance(p1, p2)`: `math.Hypot(p1.X-p2.X, p1.Y-p2.Y)`, that is
`Sqrt(p*p + q*q)`. -/
def distance (sqrt : F → F) (p1 p2 : Point F) : F :=
  sqrt ((p1.X - p2.X) * (p1.X - p2.X) + (p1.Y - p2.Y) * (p1.Y - p2.Y))

/-- Go `NewMeanShift(points, bandwidth)`: `modes` and `currentModes` are copies of
`points`, `labels` is zeroed. -/
def NewMeanShift (points : List (Point F)) (bandwidth : F) : MeanShift F :=
  { points := points
    modes := points
    currentModes := points
    labels := List.replicate points.length 0
    bandwidth := bandwidth
    iterations := 0
    currentStep := 0
    converged := false }

/-- Inner loop of `Step`: `for _, p := range ms.points`, carrying
`(sumX, sumY, totalWeight)`. -/
def shiftLoop (exp : F → F) (currentMode : Point F) (bandwidthSq : F) :
    List (Point F) → F × F × F → F × F × F
  | [], acc => acc
  | p :: rest, (sumX, sumY, totalWeight) =>
      let distSq := (p.X - currentMode.X) * (p.X - currentMode.X)
        + (p.Y - currentMode.Y) * (p.Y - currentMode.Y)
      if distSq ≤ bandwidthSq then
        let weight := exp (-distSq / (2 * bandwidthSq))
        shiftLoop exp currentMode bandwidthSq rest
          (sumX + p.X * weight, sumY + p.Y * weight, totalWeight + weight)
      else shiftLoop exp currentMode bandwidthSq rest (sumX, sumY, totalWeight)

/-- Outer loop of `Step`: `for i := range ms.modes`; iteration `i` reads and writes only
`ms.modes[i]`, so the loop walks along the slice.  The flag given is `converged` before
the iteration, the flag returned is `converged` after the last one. -/
def stepLoop (exp sqrt : F → F) (points : List (Point F)) (bandwidthSq : F) :
    List (Point F) → Bool → List (Point F) × Bool
  | [], converged => ([], converged)
  | currentMode :: rest, converged =>
      let acc := shiftLoop exp currentMode bandwidthSq points (0, 0, 0)
      let sumX := acc.1
      let sumY := acc.2.1
      let totalWeight := acc.2.2
      if totalWeight > 0 then
        let newMode : Point F := ⟨sumX / totalWeight, sumY / totalWeight⟩
        if distance sqrt newMode currentMode > 1 / 100 then
          let r := stepLoop exp sqrt points bandwidthSq rest false
          (newMode :: r.1, r.2)
        else
          let r := stepLoop exp sqrt points bandwidthSq rest converged
          (currentMode :: r.1, r.2)
      else
        let r := stepLoop exp sqrt points bandwidthSq rest converged
        (currentMode :: r.1, r.2)

/-- Go `(ms *MeanShift) Step()`: the state after the call and the returned `converged`. -/
def Step (exp sqrt : F → F) (ms : MeanShift F) : MeanShift F × Bool :=
  let bandwidthSq := ms.bandwidth * ms.bandwidth
  let r := stepLoop exp sqrt ms.points bandwidthSq ms.modes true
  ({ ms with modes := r.1, iterations := ms.iterations + 1 }, r.2)

/-- Division with the divisor checked: `none` when the divisor is zero. -/
def checkedDiv (x y : F) : Option F :=
  if y = 0 then none else some (x / y)

/-- The outer loop of `Step` with its two divisions by `totalWeight` checked: `none` as
soon as one of them is a division by zero, otherwise the result of the loop. -/
def stepLoopChecked (exp sqrt : F → F) (points : List (Point F)) (bandwidthSq : F) :
    List (Point F) → Bool → Option (List (Point F) × Bool)
  | [], converged => some ([], converged)
  | currentMode :: rest, converged =>
      let acc := shiftLoop exp currentMode bandwidthSq points (0, 0, 0)
      let sumX := acc.1
      let sumY := acc.2.1
      let totalWeight := acc.2.2
      if totalWeight > 0 then
        match checkedDiv sumX totalWeight, checkedDiv sumY totalWeight with
        | some x, some y =>
            let newMode : Point F := ⟨x, y⟩
            if distance sqrt newMode currentMode > 1 / 100 then
              (stepLoopChecked exp sqrt points bandwidthSq rest false).map
                (fun r => (newMode :: r.1, r.2))
            else
              (stepLoopChecked exp sqrt points bandwidthSq rest converged).map
                (fun r => (currentMode :: r.1, r.2))
        | _, _ => none
      else
        (stepLoopChecked exp sqrt points bandwidthSq rest converged).map
          (fun r => (currentMode :: r.1, r.2))

/-- Interpolation loop of `UpdateAnimation`: `for i := range ms.currentModes`; the second
argument is the index `i`. -/
def animLoop (points modes : List (Point F)) (progress : F) :
    List (Point F) → Nat → Option (List (Point F))
  | [], _ => some []
  | _ :: rest, i =>
      match points[i]?, modes[i]?, animLoop points modes progress rest (i + 1) with
      | some p, some m, some r =>
          some (⟨p.X + (m.X - p.X) * progress, p.Y + (m.Y - p.Y) * progress⟩ :: r)
      | _, _, _ => none

/-- Inner loop of the merge: `for j, center := range clusterCenters`, leaving with `break`
at the first `center` with `distance(ms.modes[i], center) < ms.bandwidth/2`.  Returns that
`j`, or `none` when the loop ends with `found == false`.  The last argument is `j`. -/
def findCenter (sqrt : F → F) (mode : Point F) (bandwidth : F) :
    List (Point F) → Nat → Option Nat
  | [], _ => none
  | center :: rest, j =>
      if distance sqrt mode center < bandwidth / 2 then some j
      else findCenter sqrt mode bandwidth rest (j + 1)

/-- Outer loop of the merge: `for i := range ms.labels`, carrying
`(ms.labels, clusterID, clusterCenters)`.  The first number is the count of iterations
left, the second the index `i`. -/
def mergeLoop (sqrt : F → F) (modes : List (Point F)) (bandwidth : F) :
    Nat → Nat → List Int × Int × List (Point F) → Option (List Int × Int × List (Point F))
  | 0, _, st => some st
  | n + 1, i, (labels, clusterID, clusterCenters) =>
      match modes[i]? with
      | none => none
      | some mode =>
          match findCenter sqrt mode bandwidth clusterCenters 0 with
          | some j =>
              mergeLoop sqrt modes bandwidth n (i + 1)
                (labels.set i (j : Int), clusterID, clusterCenters)
          | none =>
              mergeLoop sqrt modes bandwidth n (i + 1)
                (labels.set i clusterID, clusterID + 1, clusterCenters ++ [mode])

/-- Go `(ms *MeanShift) UpdateAnimation(progress)`. -/
def UpdateAnimation (sqrt : F → F) (ms : MeanShift F) (progress : F) : Option (MeanShift F) :=
  match animLoop ms.points ms.modes progress ms.currentModes 0 with
  | none => none
  | some currentModes =>
      if ms.converged then
        match mergeLoop sqrt ms.modes ms.bandwidth ms.labels.length 0 (ms.labels, 0, []) with
        | none => none
        | some st => some { ms with currentModes := currentModes, labels := st.1 }
      else some { ms with currentModes := currentModes }

end Main10

/-! ## main10.go : `Step` with float64 underflow and NaN -/

namespace Main10

variable {F : Type} [LinearOrderedField F]

/-- The float64 product `x * y` as far as underflow to zero goes: a product of magnitude at
most `2^-1075`, half the least positive float64 `2^-1074`, is rounded to 0; every other
product is kept exact. -/
def mulUnderflow (x y : F) : F :=
  if |x * y| ≤ 1 / 2 ^ 1075 then 0 else x * y

/-- Inner loop of `Step` with NaN tracked: `none` stands for NaN.  The weight
`math.Exp(-distSq / (2 * bandwidthSq))` is NaN when `2 * bandwidthSq` is 0, since the test
`distSq <= bandwidthSq` then lets through only `distSq = 0` and `-0/0` is NaN; a NaN weight
makes `sumX`, `sumY` and `totalWeight` NaN for the rest of the loop.  Rounding and overflow
are not modelled. -/
def shiftLoopFloat (exp : F → F) (currentMode : Point F) (bandwidthSq : F) :
    List (Point F) → Option (F × F × F) → Option (F × F × F)
  | [], acc => acc
  | p :: rest, acc =>
      let distSq := (p.X - currentMode.X) * (p.X - currentMode.X)
        + (p.Y - currentMode.Y) * (p.Y - currentMode.Y)
      if distSq ≤ bandwidthSq then
        if 2 * bandwidthSq = 0 then shiftLoopFloat exp currentMode bandwidthSq rest none
        else
          let weight := exp (-distSq / (2 * bandwidthSq))
          shiftLoopFloat exp currentMode bandwidthSq rest
            (acc.map (fun a => (a.1 + p.X * weight, a.2.1 + p.Y * weight, a.2.2 + weight)))
      else shiftLoopFloat exp currentMode bandwidthSq rest acc

/-- Outer loop of `Step` over `shiftLoopFloat`: with a NaN `totalWeight` the test
`totalWeight > 0` is false, so the mode and the flag are left alone. -/
def stepLoopFloat (exp sqrt : F → F) (points : List (Point F)) (bandwidthSq : F) :
    List (Point F) → Bool → List (Point F) × Bool
  | [], converged => ([], converged)
  | currentMode :: rest, converged =>
      match shiftLoopFloat exp currentMode bandwidthSq points (some (0, 0, 0)) with
      | none =>
          let r := stepLoopFloat exp sqrt points bandwidthSq rest converged
          (currentMode :: r.1, r.2)
      | some acc =>
          let sumX := acc.1
          let sumY := acc.2.1
          let totalWeight := acc.2.2
          if totalWeight > 0 then
            let newMode : Point F := ⟨sumX / totalWeight, sumY / totalWeight⟩
            if distance sqrt newMode currentMode > 1 / 100 then
              let r := stepLoopFloat exp sqrt points bandwidthSq rest false
              (newMode :: r.1, r.2)
            else
              let r := stepLoopFloat exp sqrt points bandwidthSq rest converged
              (currentMode :: r.1, r.2)
          else
            let r := stepLoopFloat exp sqrt points bandwidthSq rest converged
            (currentMode :: r.1, r.2)

/-- Go `(ms *MeanShift) Step()` with the underflow of `ms.bandwidth * ms.bandwidth` and the
NaN weights it causes. -/
def StepFloat (exp sqrt : F → F) (ms : MeanShift F) : MeanShift F × Bool :=
  let bandwidthSq := mulUnderflow ms.bandwidth ms.bandwidth
  let r := stepLoopFloat exp sqrt ms.points bandwidthSq ms.modes true
  ({ ms with modes := r.1, iterations := ms.iterations + 1 }, r.2)

/-- The state after `n` calls of `StepFloat` in a row. -/
def iterStepFloat (exp sqrt : F → F) : Nat → MeanShift F → MeanShift F
  | 0, ms => ms
  | n + 1, ms => (StepFloat exp sqrt (iterStepFloat exp sqrt n ms)).1

end Main10

/-! ## Specification-side definitions: mean shift -/

namespace Main10

variable {F : Type} [LinearOrderedField F]

/-- The weighted centroid `Σ(w_p·p)/Σw_p` over the dataset points `p` whose squared
distance to `m` is at most `bandwidth²`, with `w_p = exp(−distSq/(2·bandwidth²))`. -/
def weightedCentroid (exp : F → F) (points : List (Point F)) (bandwidth : F) (m : Point F) :
    Point F :=
  let distSq : Point F → F := fun p => (p.X - m.X) ^ 2 + (p.Y - m.Y) ^ 2
  let near := points.filter (fun p => decide (distSq p ≤ bandwidth ^ 2))
  let w : Point F → F := fun p => exp (-(distSq p) / (2 * bandwidth ^ 2))
  ⟨(near.map (fun p => w p * p.X)).sum / (near.map w).sum,
   (near.map (fun p => w p * p.Y)).sum / (near.map w).sum⟩

/-- The merge as the specification words it: the modes are taken in index order against
the list `reps` of representatives in creation order; a mode gets the position in `reps`
of the first representative nearer than `bandwidth / 2`, or else is appended to `reps`
and gets the next unused id, `reps.length`. -/
def mergeSpec (sqrt : F → F) (bandwidth : F) : List (Point F) → List (Point F) → List Int
  | [], _ => []
  | m :: rest, reps =>
      match reps.findIdx? (fun r => decide (distance sqrt m r < bandwidth / 2)) with
      | some j => (j : Int) :: mergeSpec sqrt bandwidth rest reps
      | none => (reps.length : Int) :: mergeSpec sqrt bandwidth rest (reps ++ [m])

end Main10

/-! ## Specification-side definitions: runs of mean shift -/

namespace Main10

variable {F : Type} [LinearOrderedField F]

/-- The state after `n` calls of `Step` in a row (the returned flags are dropped). -/
def iterStep (exp sqrt : F → F) : Nat → MeanShift F → MeanShift F
  | 0, ms => ms
  | n + 1, ms => (Step exp sqrt (iterStep exp sqrt n ms)).1

/-- Squared Euclidean distance between two points. -/
def distSq (p q : Point F) : F :=
  (p.X - q.X) ^ 2 + (p.Y - q.Y) ^ 2

end Main10

/-! ## Specification-side definitions: linear regression -/

section LinearRegressionSpec

variable {F : Type} [LinearOrderedField F]

/-- The step size below which one gradient step cannot increase the loss:
`M / (M + Σ x_i²)`. -/
def descentThreshold (points : List (F × F)) : F :=
  (points.length : F) / ((points.length : F) + (points.map (fun p => p.1 ^ 2)).sum)

end LinearRegressionSpec

/-! ## Theorems: linear regression -/

section LinearRegression

variable {F : Type} [LinearOrderedField F]

theorem main_gradLoop_eq (b w M : F) (points : List (F × F)) (acc : F × F) :
    Main.gradLoop b w M points acc =
      (acc.1 + (2 / M) * (points.map (fun p => (w * p.1 + b) - p.2)).sum,
       acc.2 + (2 / M) * (points.map (fun p => p.1 * ((w * p.1 + b) - p.2))).sum) := by
  induction points generalizing acc with
  | nil => simp [Main.gradLoop]
  | cons p rest ih =>
      obtain ⟨gb, gw⟩ := acc
      simp only [Main.gradLoop, ih, List.map_cons, List.sum_cons]
      refine Prod.ext ?_ ?_ <;> simp only <;> ring

theorem main1_gradLoop_eq (b w M : F) (points : List (F × F)) (acc : F × F) :
    Main1.gradLoop b w M points acc =
      (acc.1 + (2 / M) * (points.map (fun p => (w * p.1 + b) - p.2)).sum,
       acc.2 + (2 / M) * (points.map (fun p => p.1 * ((w * p.1 + b) - p.2))).sum) := by
  induction points generalizing acc with
  | nil => simp [Main1.gradLoop]
  | cons p rest ih =>
      obtain ⟨gb, gw⟩ := acc
      simp only [Main1.gradLoop, ih, List.map_cons, List.sum_cons]
      refine Prod.ext ?_ ?_ <;> simp only <;> ring

/-- C1: for a non-empty list of points of size `M`, `StepGradient b w points lr` (both the
main.go and the main1.go version) returns
`(b − lr·(2/M)·Σ((w·x_i + b) − y_i), w − lr·(2/M)·Σ x_i·((w·x_i + b) − y_i))`, both sums
taken at the `b` and `w` passed in. -/
theorem stepGradient_closed_form (b w lr : F) (points : List (F × F)) (_hne : points ≠ []) :
    Main.StepGradient b w points lr =
      (b - lr * ((2 / (points.length : F)) * (points.map (fun p => (w * p.1 + b) - p.2)).sum),
       w - lr * ((2 / (points.length : F)) *
          (points.map (fun p => p.1 * ((w * p.1 + b) - p.2))).sum)) ∧
    Main1.StepGradient b w points lr =
      (b - lr * ((2 / (points.length : F)) * (points.map (fun p => (w * p.1 + b) - p.2)).sum),
       w - lr * ((2 / (points.length : F)) *
          (points.map (fun p => p.1 * ((w * p.1 + b) - p.2))).sum)) := by
  constructor
  · simp [Main.StepGradient, main_gradLoop_eq]
  · simp [Main1.StepGradient, main1_gradLoop_eq]

theorem stepGradient_closed_form_witness :
    ([(1, 3), (2, 5)] : List (ℚ × ℚ)) ≠ [] ∧
    Main.StepGradient (0 : ℚ) 0 [(1, 3), (2, 5)] (1 / 10) = (4 / 5, 13 / 10) ∧
    Main1.StepGradient (0 : ℚ) 0 [(1, 3), (2, 5)] (1 / 10) = (4 / 5, 13 / 10) := by
  have h := stepGradient_closed_form (0 : ℚ) 0 (1 / 10) [(1, 3), (2, 5)] (by simp)
  refine ⟨by simp, ?_, ?_⟩
  · rw [h.1]; norm_num
  · rw [h.2]; norm_num

theorem main_mseLoop_eq (b w : F) (points : List (F × F)) (acc : F) :
    Main.mseLoop b w points acc =
      acc + (points.map (fun p => (p.2 - (w * p.1 + b)) ^ 2)).sum := by
  induction points generalizing acc with
  | nil => simp [Main.mseLoop]
  | cons p rest ih =>
      simp only [Main.mseLoop, ih, List.map_cons, List.sum_cons]
      ring

theorem main_Mse_eq (b w : F) (points : List (F × F)) :
    Main.Mse b w points =
      (points.map (fun p => (p.2 - (w * p.1 + b)) ^ 2)).sum / (points.length : F) := by
  simp [Main.Mse, main_mseLoop_eq]

/-- Second-order expansion of the squared residuals after a move of `(b, w)` by
`(-t·v, -t·u)`, with the quadratic term bounded by Cauchy-Schwarz. -/
theorem sum_sq_residual_move_le (b w t u v : F) (points : List (F × F)) :
    (points.map (fun p => (p.2 - ((w - t * u) * p.1 + (b - t * v))) ^ 2)).sum ≤
      (points.map (fun p => (p.2 - (w * p.1 + b)) ^ 2)).sum
        - 2 * t * (u * (points.map (fun p => p.1 * ((w * p.1 + b) - p.2))).sum
                    + v * (points.map (fun p => (w * p.1 + b) - p.2)).sum)
        + t ^ 2 * (u ^ 2 + v ^ 2) * ((points.map (fun p => p.1 ^ 2)).sum + (points.length : F)) := by
  induction points with
  | nil => simp
  | cons p rest ih =>
      simp only [List.map_cons, List.sum_cons, List.length_cons, Nat.cast_add, Nat.cast_one]
      have hcs : t ^ 2 * (u * p.1 + v) ^ 2 ≤ t ^ 2 * ((u ^ 2 + v ^ 2) * (p.1 ^ 2 + 1)) := by
        apply mul_le_mul_of_nonneg_left _ (sq_nonneg t)
        nlinarith [sq_nonneg (u - v * p.1)]
      nlinarith [ih, hcs]

theorem sum_sq_nonneg (points : List (F × F)) : 0 ≤ (points.map (fun p => p.1 ^ 2)).sum := by
  induction points with
  | nil => simp
  | cons p rest ih =>
      simp only [List.map_cons, List.sum_cons]
      nlinarith [sq_nonneg p.1]

theorem descentThreshold_pos (points : List (F × F)) (hne : points ≠ []) :
    0 < descentThreshold points := by
  have hM : (0 : F) < (points.length : F) := by
    exact_mod_cast List.length_pos.mpr hne
  have := sum_sq_nonneg points
  unfold descentThreshold
  positivity

theorem mse_step_le (b w lr : F) (points : List (F × F)) (hne : points ≠ [])
    (hlr : 0 < lr) (hle : lr ≤ descentThreshold points) :
    Main.Mse (Main.StepGradient b w points lr).1 (Main.StepGradient b w points lr).2 points ≤
      Main.Mse b w points := by
  have hM : (0 : F) < (points.length : F) := by
    exact_mod_cast List.length_pos.mpr hne
  have hS := sum_sq_nonneg points
  set M : F := (points.length : F) with hMdef
  set Sxx : F := (points.map (fun p => p.1 ^ 2)).sum with hSxx
  set Se : F := (points.map (fun p => (w * p.1 + b) - p.2)).sum with hSe
  set Sxe : F := (points.map (fun p => p.1 * ((w * p.1 + b) - p.2))).sum with hSxe
  have hstep : Main.StepGradient b w points lr =
      (b - lr * ((2 / M) * Se), w - lr * ((2 / M) * Sxe)) := by
    simp [Main.StepGradient, main_gradLoop_eq, hMdef, hSe, hSxe]
  rw [hstep, main_Mse_eq, main_Mse_eq]
  simp only
  rw [← hMdef]
  apply div_le_div_of_nonneg_right _ hM.le
  have key := sum_sq_residual_move_le b w lr ((2 / M) * Sxe) ((2 / M) * Se) points
  rw [← hMdef, ← hSxx, ← hSe, ← hSxe] at key
  refine le_trans key ?_
  have hden : 0 < M + Sxx := by linarith
  have hlrM : lr * (M + Sxx) ≤ M := by
    have := (le_div_iff₀ hden).mp (by simpa [descentThreshold, ← hMdef, ← hSxx] using hle)
    linarith
  have hG : 0 ≤ (2 / M * Sxe) ^ 2 + (2 / M * Se) ^ 2 := by positivity
  have e1 : 2 * lr * (2 / M * Sxe * Sxe + 2 / M * Se * Se) =
      lr * M * ((2 / M * Sxe) ^ 2 + (2 / M * Se) ^ 2) := by
    field_simp
    ring
  have e2 : lr ^ 2 * ((2 / M * Sxe) ^ 2 + (2 / M * Se) ^ 2) * (Sxx + M) ≤
      lr * M * ((2 / M * Sxe) ^ 2 + (2 / M * Se) ^ 2) := by
    have : lr * (lr * (M + Sxx)) ≤ lr * M := mul_le_mul_of_nonneg_left hlrM hlr.le
    nlinarith [mul_le_mul_of_nonneg_right this hG]
  linarith

/-- C8: for every non-empty dataset there is a threshold `L > 0` that depends only on the
dataset such that for every learning rate `0 < lr ≤ L` and every `(b, w)` one
`StepGradient` does not increase `Mse`, and so the losses along `GradientDescent` are
non-increasing from one iteration to the next. -/
theorem mse_nonincreasing_below_threshold (points : List (F × F)) (hne : points ≠ []) :
    ∃ L : F, 0 < L ∧ ∀ lr : F, 0 < lr → lr ≤ L →
      (∀ b w : F,
        Main.Mse (Main.StepGradient b w points lr).1 (Main.StepGradient b w points lr).2 points
          ≤ Main.Mse b w points) ∧
      (∀ (startingB startingW : F) (n : Nat),
        Main.Mse (Main.GradientDescent points startingB startingW lr (n + 1)).1
            (Main.GradientDescent points startingB startingW lr (n + 1)).2 points
          ≤ Main.Mse (Main.GradientDescent points startingB startingW lr n).1
              (Main.GradientDescent points startingB startingW lr n).2 points) := by
  refine ⟨descentThreshold points, descentThreshold_pos points hne, ?_⟩
  intro lr hlr hle
  refine ⟨fun b w => mse_step_le b w lr points hne hlr hle, ?_⟩
  intro startingB startingW n
  exact mse_step_le _ _ lr points hne hlr hle

theorem mse_nonincreasing_below_threshold_witness :
    ([(1, 3), (2, 5)] : List (ℚ × ℚ)) ≠ [] ∧
    ∃ L : ℚ, 0 < L ∧ ∀ lr : ℚ, 0 < lr → lr ≤ L →
      (∀ b w : ℚ,
        Main.Mse (Main.StepGradient b w [(1, 3), (2, 5)] lr).1
            (Main.StepGradient b w [(1, 3), (2, 5)] lr).2 [(1, 3), (2, 5)]
          ≤ Main.Mse b w [(1, 3), (2, 5)]) ∧
      (∀ (startingB startingW : ℚ) (n : Nat),
        Main.Mse (Main.GradientDescent [(1, 3), (2, 5)] startingB startingW lr (n + 1)).1
            (Main.GradientDescent [(1, 3), (2, 5)] startingB startingW lr (n + 1)).2
            [(1, 3), (2, 5)]
          ≤ Main.Mse (Main.GradientDescent [(1, 3), (2, 5)] startingB startingW lr n).1
              (Main.GradientDescent [(1, 3), (2, 5)] startingB startingW lr n).2
              [(1, 3), (2, 5)]) :=
  ⟨by simp, mse_nonincreasing_below_threshold [(1, 3), (2, 5)] (by simp)⟩

end LinearRegression

/-! ## Theorems: logistic regression -/

section Logistic

open Main4

variable {F : Type} [LinearOrderedField F]

theorem gradALoop_eq (exp : F → F) (xData yData : List F) (a b c : F) (ys : List Int) :
    ∀ (i : Nat) (acc : F), i + ys.length ≤ xData.length → i + ys.length ≤ yData.length →
      gradALoop exp xData yData a b c ys i acc =
        some (acc + ((samples ys (xData.drop i) (yData.drop i)).map
          (fun s => logistic exp a b c s.2.1 s.2.2 - (s.1 : F))).sum) := by
  induction ys with
  | nil =>
      intro i acc _ _
      simp [gradALoop, samples]
  | cons l rest ih =>
      intro i acc hx hy
      simp only [List.length_cons] at hx hy
      have hix : i < xData.length := by omega
      have hiy : i < yData.length := by omega
      have hdx : xData.drop i = xData[i] :: xData.drop (i + 1) := List.drop_eq_getElem_cons hix
      have hdy : yData.drop i = yData[i] :: yData.drop (i + 1) := List.drop_eq_getElem_cons hiy
      simp only [gradALoop, List.getElem?_eq_getElem hix, List.getElem?_eq_getElem hiy,
        ih (i + 1) _ (by omega) (by omega), hdx, hdy, samples, List.zip_cons_cons, List.map_cons,
        List.sum_cons, Option.some.injEq]
      ring

theorem gradBLoop_eq (exp : F → F) (xData yData : List F) (a b c : F) (ys : List Int) :
    ∀ (i : Nat) (acc : F), i + ys.length ≤ xData.length → i + ys.length ≤ yData.length →
      gradBLoop exp xData yData a b c ys i acc =
        some (acc + ((samples ys (xData.drop i) (yData.drop i)).map
          (fun s => (logistic exp a b c s.2.1 s.2.2 - (s.1 : F)) * s.2.1)).sum) := by
  induction ys with
  | nil =>
      intro i acc _ _
      simp [gradBLoop, samples]
  | cons l rest ih =>
      intro i acc hx hy
      simp only [List.length_cons] at hx hy
      have hix : i < xData.length := by omega
      have hiy : i < yData.length := by omega
      have hdx : xData.drop i = xData[i] :: xData.drop (i + 1) := List.drop_eq_getElem_cons hix
      have hdy : yData.drop i = yData[i] :: yData.drop (i + 1) := List.drop_eq_getElem_cons hiy
      simp only [gradBLoop, List.getElem?_eq_getElem hix, List.getElem?_eq_getElem hiy,
        ih (i + 1) _ (by omega) (by omega), hdx, hdy, samples, List.zip_cons_cons, List.map_cons,
        List.sum_cons, Option.some.injEq]
      ring

theorem gradCLoop_eq (exp : F → F) (xData yData : List F) (a b c : F) (ys : List Int) :
    ∀ (i : Nat) (acc : F), i + ys.length ≤ xData.length → i + ys.length ≤ yData.length →
      gradCLoop exp xData yData a b c ys i acc =
        some (acc + ((samples ys (xData.drop i) (yData.drop i)).map
          (fun s => (logistic exp a b c s.2.1 s.2.2 - (s.1 : F)) * s.2.2)).sum) := by
  induction ys with
  | nil =>
      intro i acc _ _
      simp [gradCLoop, samples]
  | cons l rest ih =>
      intro i acc hx hy
      simp only [List.length_cons] at hx hy
      have hix : i < xData.length := by omega
      have hiy : i < yData.length := by omega
      have hdx : xData.drop i = xData[i] :: xData.drop (i + 1) := List.drop_eq_getElem_cons hix
      have hdy : yData.drop i = yData[i] :: yData.drop (i + 1) := List.drop_eq_getElem_cons hiy
      simp only [gradCLoop, List.getElem?_eq_getElem hix, List.getElem?_eq_getElem hiy,
        ih (i + 1) _ (by omega) (by omega), hdx, hdy, samples, List.zip_cons_cons, List.map_cons,
        List.sum_cons, Option.some.injEq]
      ring

theorem lossLoop_eq (exp log : F → F) (xData yData : List F) (a b c : F) (ys : List Int)
    (hlab : ∀ l ∈ ys, l = 0 ∨ l = 1) :
    ∀ (i : Nat) (acc : F), i + ys.length ≤ xData.length → i + ys.length ≤ yData.length →
      lossLoop exp log xData yData a b c ys i acc =
        some (acc - ((samples ys (xData.drop i) (yData.drop i)).map
          (fun s => (s.1 : F) * log (logistic exp a b c s.2.1 s.2.2)
            + (1 - (s.1 : F)) * log (1 - logistic exp a b c s.2.1 s.2.2))).sum) := by
  induction ys with
  | nil =>
      intro i acc _ _
      simp [lossLoop, samples]
  | cons l rest ih =>
      intro i acc hx hy
      simp only [List.length_cons] at hx hy
      have hix : i < xData.length := by omega
      have hiy : i < yData.length := by omega
      have hdx : xData.drop i = xData[i] :: xData.drop (i + 1) := List.drop_eq_getElem_cons hix
      have hdy : yData.drop i = yData[i] :: yData.drop (i + 1) := List.drop_eq_getElem_cons hiy
      have hrest : ∀ l2 ∈ rest, l2 = 0 ∨ l2 = 1 := fun l2 h2 => hlab l2 (List.mem_cons_of_mem l h2)
      rcases hlab l (List.mem_cons_self l rest) with rfl | rfl
      · simp only [lossLoop, List.getElem?_eq_getElem hix, List.getElem?_eq_getElem hiy,
          ih hrest (i + 1) _ (by omega) (by omega), hdx, hdy, samples, List.zip_cons_cons,
          List.map_cons, List.sum_cons, Option.some.injEq]
        norm_num
        ring
      · simp only [lossLoop, List.getElem?_eq_getElem hix, List.getElem?_eq_getElem hiy,
          ih hrest (i + 1) _ (by omega) (by omega), hdx, hdy, samples, List.zip_cons_cons,
          List.map_cons, List.sum_cons, Option.some.injEq]
        norm_num
        ring

/-- C6: for a non-empty dataset of `M` samples `(x_i, y_i, label_i)` and all `a, b, c`,
with `p_i = logistic(a, b, c, x_i, y_i) = 1/(1+e^{−(a + b·x_i + c·y_i)})`, the three
functions return `gradientA = (1/M)·Σ(p_i − label_i)`,
`gradientB = (1/M)·Σ(p_i − label_i)·x_i` and `gradientC = (1/M)·Σ(p_i − label_i)·y_i`. -/
theorem logistic_gradients_closed_form (exp : F → F) (yTrue : List Int) (xData yData : List F)
    (a b c : F) (_hne : yTrue ≠ []) (hx : xData.length = yTrue.length)
    (hy : yData.length = yTrue.length) :
    (∀ x y : F, logistic exp a b c x y = 1 / (1 + exp (-(a + b * x + c * y)))) ∧
    gradientA exp yTrue xData yData a b c =
      some (1 / (yTrue.length : F) * ((samples yTrue xData yData).map
        (fun s => logistic exp a b c s.2.1 s.2.2 - (s.1 : F))).sum) ∧
    gradientB exp yTrue xData yData a b c =
      some (1 / (yTrue.length : F) * ((samples yTrue xData yData).map
        (fun s => (logistic exp a b c s.2.1 s.2.2 - (s.1 : F)) * s.2.1)).sum) ∧
    gradientC exp yTrue xData yData a b c =
      some (1 / (yTrue.length : F) * ((samples yTrue xData yData).map
        (fun s => (logistic exp a b c s.2.1 s.2.2 - (s.1 : F)) * s.2.2)).sum) := by
  refine ⟨fun x y => rfl, ?_, ?_, ?_⟩
  · simp only [gradientA, gradALoop_eq exp xData yData a b c yTrue 0 0 (by omega) (by omega),
      List.drop_zero, Option.map_some', Option.some.injEq]
    ring
  · simp only [gradientB, gradBLoop_eq exp xData yData a b c yTrue 0 0 (by omega) (by omega),
      List.drop_zero, Option.map_some', Option.some.injEq]
    ring
  · simp only [gradientC, gradCLoop_eq exp xData yData a b c yTrue 0 0 (by omega) (by omega),
      List.drop_zero, Option.map_some', Option.some.injEq]
    ring

theorem logistic_gradients_closed_form_witness :
    ([1, 0, 1] : List Int) ≠ [] ∧
    gradientA Real.exp [1, 0, 1] [1, 2, 3] [1, 2, 3] 0 0 0 =
      some (1 / (([1, 0, 1] : List Int).length : ℝ) *
        ((samples [1, 0, 1] [(1 : ℝ), 2, 3] [(1 : ℝ), 2, 3]).map
          (fun s => logistic Real.exp 0 0 0 s.2.1 s.2.2 - (s.1 : ℝ))).sum) :=
  ⟨by simp,
   (logistic_gradients_closed_form Real.exp [1, 0, 1] [1, 2, 3] [1, 2, 3] 0 0 0 (by simp)
      (by simp) (by simp)).2.1⟩

/-- C7: for a non-empty dataset of `M` samples whose labels are all 0 or 1 and all
`a, b, c`, `crossEntropyLoss` returns
`−(1/M)·Σ[label_i·ln p_i + (1−label_i)·ln(1−p_i)]` with `p_i = logistic(a, b, c, x_i, y_i)`. -/
theorem crossEntropyLoss_closed_form (exp log : F → F) (yTrue : List Int)
    (xData yData : List F) (a b c : F) (_hne : yTrue ≠ [])
    (hx : xData.length = yTrue.length) (hy : yData.length = yTrue.length)
    (hlab : ∀ l ∈ yTrue, l = 0 ∨ l = 1) :
    crossEntropyLoss exp log yTrue xData yData a b c =
      some (-(1 / (yTrue.length : F)) * ((samples yTrue xData yData).map
        (fun s => (s.1 : F) * log (logistic exp a b c s.2.1 s.2.2)
          + (1 - (s.1 : F)) * log (1 - logistic exp a b c s.2.1 s.2.2))).sum) := by
  simp only [crossEntropyLoss,
    lossLoop_eq exp log xData yData a b c yTrue hlab 0 0 (by omega) (by omega),
    List.drop_zero, Option.map_some', Option.some.injEq]
  ring

theorem crossEntropyLoss_closed_form_witness :
    ([1, 0, 1] : List Int) ≠ [] ∧ (∀ l ∈ ([1, 0, 1] : List Int), l = 0 ∨ l = 1) ∧
    crossEntropyLoss Real.exp Real.log [1, 0, 1] [1, 2, 3] [1, 2, 3] 0 0 0 =
      some (-(1 / (([1, 0, 1] : List Int).length : ℝ)) *
        ((samples [1, 0, 1] [(1 : ℝ), 2, 3] [(1 : ℝ), 2, 3]).map
          (fun s => (s.1 : ℝ) * Real.log (logistic Real.exp 0 0 0 s.2.1 s.2.2)
            + (1 - (s.1 : ℝ)) * Real.log (1 - logistic Real.exp 0 0 0 s.2.1 s.2.2))).sum) :=
  ⟨by simp, by decide,
   crossEntropyLoss_closed_form Real.exp Real.log [1, 0, 1] [1, 2, 3] [1, 2, 3] 0 0 0
     (by simp) (by simp) (by simp) (by decide)⟩

end Logistic

/-! ## Theorems: k-means -/

section KMeans

open Main9

variable {F : Type} [LinearOrderedField F]

/-- What the inner assignment loop leaves in `(minDist, closest)`: `minDist` is a lower
bound of the distances scanned, and either nothing scanned was below the initial
`minDist` (the pair is unchanged), or `closest` is the first index whose centroid is at
the least distance, which is below the initial `minDist`. -/
theorem closestLoop_spec (sqrt : F → F) (p : Point F) (cs : List (Point F)) :
    ∀ (j0 : Nat) (m : F) (cl : Int),
      (∀ c ∈ cs, (closestLoop sqrt p cs j0 (m, cl)).1 ≤ distance sqrt p c) ∧
      ((closestLoop sqrt p cs j0 (m, cl) = (m, cl) ∧ ∀ c ∈ cs, m ≤ distance sqrt p c) ∨
       (∃ n c, cs[n]? = some c ∧
          (closestLoop sqrt p cs j0 (m, cl)).2 = ((j0 + n : Nat) : Int) ∧
          (closestLoop sqrt p cs j0 (m, cl)).1 = distance sqrt p c ∧
          distance sqrt p c < m ∧
          ∀ n2 c2, n2 < n → cs[n2]? = some c2 → distance sqrt p c < distance sqrt p c2)) := by
  induction cs with
  | nil =>
      intro j0 m cl
      simp [closestLoop]
  | cons c rest ih =>
      intro j0 m cl
      by_cases hlt : distance sqrt p c < m
      · have hstep : closestLoop sqrt p (c :: rest) j0 (m, cl) =
            closestLoop sqrt p rest (j0 + 1) (distance sqrt p c, (j0 : Int)) := by
          simp [closestLoop, hlt]
        rw [hstep]
        obtain ⟨hlb, hcase⟩ := ih (j0 + 1) (distance sqrt p c) (j0 : Int)
        rcases hcase with ⟨heq, hall⟩ | ⟨n, c1, hn, hidx, hval, hlt1, hfirst⟩
        · refine ⟨?_, Or.inr ⟨0, c, by simp, by simp [heq], by simp [heq], hlt, ?_⟩⟩
          · intro c2 hc2
            rcases List.mem_cons.mp hc2 with rfl | hmem
            · simp [heq]
            · exact hlb c2 hmem
          · intro n2 c2 hn2
            omega
        · refine ⟨?_, Or.inr ⟨n + 1, c1, by simpa using hn, ?_, hval, lt_trans hlt1 hlt, ?_⟩⟩
          · intro c2 hc2
            rcases List.mem_cons.mp hc2 with rfl | hmem
            · rw [hval]; exact hlt1.le
            · exact hlb c2 hmem
          · rw [hidx]; congr 1; omega
          · intro n2 c2 hn2 hc2
            cases n2 with
            | zero =>
                simp at hc2
                subst hc2
                exact hlt1
            | succ n3 =>
                simp at hc2
                exact hfirst n3 c2 (by omega) hc2
      · have hstep : closestLoop sqrt p (c :: rest) j0 (m, cl) =
            closestLoop sqrt p rest (j0 + 1) (m, cl) := by
          simp [closestLoop, hlt]
        rw [hstep]
        have hge : m ≤ distance sqrt p c := not_lt.mp hlt
        obtain ⟨hlb, hcase⟩ := ih (j0 + 1) m cl
        rcases hcase with ⟨heq, hall⟩ | ⟨n, c1, hn, hidx, hval, hlt1, hfirst⟩
        · refine ⟨?_, Or.inl ⟨heq, ?_⟩⟩
          · intro c2 hc2
            rcases List.mem_cons.mp hc2 with rfl | hmem
            · simpa [heq] using hge
            · exact hlb c2 hmem
          · intro c2 hc2
            rcases List.mem_cons.mp hc2 with rfl | hmem
            · exact hge
            · exact hall c2 hmem
        · refine ⟨?_, Or.inr ⟨n + 1, c1, by simpa using hn, ?_, hval, hlt1, ?_⟩⟩
          · intro c2 hc2
            rcases List.mem_cons.mp hc2 with rfl | hmem
            · rw [hval]; exact (lt_of_lt_of_le hlt1 hge).le
            · exact hlb c2 hmem
          · rw [hidx]; congr 1; omega
          · intro n2 c2 hn2 hc2
            cases n2 with
            | zero =>
                simp at hc2
                subst hc2
                exact lt_of_lt_of_le hlt1 hge
            | succ n3 =>
                simp at hc2
                exact hfirst n3 c2 (by omega) hc2

/-- The two outcomes of the inner loop for a point `p` currently in cluster `ci`: the
cluster index is kept because no centroid is nearer than `math.MaxFloat64`, or the new
index is the first one whose centroid is at the least distance. -/
theorem closestOf_cases (sqrt : F → F) (cs : List (Point F)) (p : Point F) (ci : Int) :
    (closestOf sqrt cs p ci = ci ∧ ∀ c ∈ cs, MaxFloat64 ≤ distance sqrt p c) ∨
    (∃ (n : Nat) (c : Point F), cs[n]? = some c ∧ closestOf sqrt cs p ci = ((n : Nat) : Int) ∧
        (∀ c2 ∈ cs, distance sqrt p c ≤ distance sqrt p c2) ∧
        distance sqrt p c < MaxFloat64 ∧
        ∀ n2 c2, n2 < n → cs[n2]? = some c2 → distance sqrt p c < distance sqrt p c2) := by
  obtain ⟨hlb, hcase⟩ := closestLoop_spec sqrt p cs 0 MaxFloat64 ci
  rcases hcase with ⟨heq, hall⟩ | ⟨n, c, hn, hidx, hval, hlt, hfirst⟩
  · exact Or.inl ⟨by simp [closestOf, heq], hall⟩
  · refine Or.inr ⟨n, c, hn, ?_, ?_, hlt, hfirst⟩
    · simpa [closestOf] using hidx
    · intro c2 hc2
      rw [← hval]
      exact hlb c2 hc2

/-- The outer assignment loop started at index `i` on a `clusters` slice that covers the
remaining points: it returns, keeps the length, leaves the entries outside
`[i, i + len)` alone, replaces each entry inside by the inner loop's `closest`, and
reports `changed` exactly when it was already set or some entry was replaced by a
different value. -/
theorem assignLoop_spec (sqrt : F → F) (cs : List (Point F)) (ps : List (Point F)) :
    ∀ (i : Nat) (cl : List Int) (ch : Bool), i + ps.length ≤ cl.length →
      ∃ cl2 ch2, assignLoop sqrt cs ps i cl ch = some (cl2, ch2) ∧
        cl2.length = cl.length ∧
        (∀ n, n < i ∨ i + ps.length ≤ n → cl2[n]? = cl[n]?) ∧
        (∀ m p ci, ps[m]? = some p → cl[i + m]? = some ci →
            cl2[i + m]? = some (closestOf sqrt cs p ci)) ∧
        (ch2 = true ↔ ch = true ∨
            ∃ m p ci, ps[m]? = some p ∧ cl[i + m]? = some ci ∧ closestOf sqrt cs p ci ≠ ci) := by
  induction ps with
  | nil =>
      intro i cl ch _
      refine ⟨cl, ch, by simp [assignLoop], rfl, fun _ _ => rfl, ?_, ?_⟩
      · intro m p ci hm
        simp at hm
      · simp
  | cons p rest ih =>
      intro i cl ch hlen
      simp only [List.length_cons] at hlen
      have hi : i < cl.length := by omega
      have hci : cl[i]? = some cl[i] := List.getElem?_eq_getElem hi
      by_cases hne : closestOf sqrt cs p cl[i] ≠ cl[i]
      · obtain ⟨cl2, ch2, hrun, hlen2, hout, hin, hch⟩ :=
          ih (i + 1) (cl.set i (closestOf sqrt cs p cl[i])) true
            (by simp only [List.length_set]; omega)
        refine ⟨cl2, ch2, ?_, ?_, ?_, ?_, ?_⟩
        · simp [assignLoop, hci, hne, hrun]
        · simpa using hlen2
        · intro n hn
          simp only [List.length_cons] at hn
          rw [hout n (by omega), List.getElem?_set_ne (by omega)]
        · intro m q ci hm hcl
          cases m with
          | zero =>
              simp only [List.getElem?_cons_zero, Option.some.injEq] at hm
              subst hm
              simp only [Nat.add_zero] at hcl ⊢
              rw [hci] at hcl
              simp only [Option.some.injEq] at hcl
              subst hcl
              rw [hout i (by omega), List.getElem?_set_self hi]
          | succ m2 =>
              simp only [List.getElem?_cons_succ] at hm
              have e : i + (m2 + 1) = i + 1 + m2 := by omega
              rw [e] at hcl ⊢
              exact hin m2 q ci hm (by rw [List.getElem?_set_ne (by omega)]; exact hcl)
        · have hch2 : ch2 = true := hch.mpr (Or.inl rfl)
          simp only [hch2, true_iff]
          exact Or.inr ⟨0, p, cl[i], by simp, by simp, hne⟩
      · have heq : closestOf sqrt cs p cl[i] = cl[i] := not_not.mp hne
        obtain ⟨cl2, ch2, hrun, hlen2, hout, hin, hch⟩ := ih (i + 1) cl ch (by omega)
        refine ⟨cl2, ch2, ?_, hlen2, ?_, ?_, ?_⟩
        · simp [assignLoop, hci, heq, hrun]
        · intro n hn
          simp only [List.length_cons] at hn
          exact hout n (by omega)
        · intro m q ci hm hcl
          cases m with
          | zero =>
              simp only [List.getElem?_cons_zero, Option.some.injEq] at hm
              subst hm
              simp only [Nat.add_zero] at hcl ⊢
              rw [hci] at hcl
              simp only [Option.some.injEq] at hcl
              subst hcl
              rw [hout i (by omega), hci, heq]
          | succ m2 =>
              simp only [List.getElem?_cons_succ] at hm
              have e : i + (m2 + 1) = i + 1 + m2 := by omega
              rw [e] at hcl ⊢
              exact hin m2 q ci hm hcl
        · rw [hch]
          constructor
          · rintro (h | ⟨m, q, ci, hm, hcl, hd⟩)
            · exact Or.inl h
            · refine Or.inr ⟨m + 1, q, ci, by simpa using hm, ?_, hd⟩
              have e : i + (m + 1) = i + 1 + m := by omega
              rw [e]; exact hcl
          · rintro (h | ⟨m, q, ci, hm, hcl, hd⟩)
            · exact Or.inl h
            · cases m with
              | zero =>
                  simp only [List.getElem?_cons_zero, Option.some.injEq] at hm
                  subst hm
                  simp only [Nat.add_zero] at hcl
                  rw [hci] at hcl
                  simp only [Option.some.injEq] at hcl
                  subst hcl
                  exact absurd heq hd
              | succ m2 =>
                  simp only [List.getElem?_cons_succ] at hm
                  have e : i + (m2 + 1) = i + 1 + m2 := by omega
                  rw [e] at hcl
                  exact Or.inr ⟨m2, q, ci, hm, hcl, hd⟩

omit [LinearOrderedField F] in
theorem members_cons (p : Point F) (ps : List (Point F)) (c : Int) (cs : List Int) (j : Nat) :
    members (p :: ps) (c :: cs) j =
      if c = (j : Int) then p :: members ps cs j else members ps cs j := by
  by_cases h : c = (j : Int) <;> simp [members, List.filter_cons, h]

omit [LinearOrderedField F] in
theorem members_nil (ps : List (Point F)) (j : Nat) : members ps [] j = [] := by
  simp [members]

/-- The accumulation loop started at index `i` with every remaining cluster index inside
the two slices: it returns, keeps both lengths, and adds to entry `j` the coordinates and
the number of the remaining points whose cluster index is `j`. -/
theorem sumLoop_spec (points : List (Point F)) (cs : List Int) :
    ∀ (i : Nat) (nc : List (Point F)) (cnt : List Int),
      nc.length = cnt.length → (∀ c ∈ cs, 0 ≤ c ∧ c.toNat < nc.length) →
      i + cs.length ≤ points.length →
      ∃ nc2 cnt2, sumLoop points cs i (nc, cnt) = some (nc2, cnt2) ∧
        nc2.length = nc.length ∧ cnt2.length = cnt.length ∧
        ∀ (j : Nat) (q : Point F) (n : Int), nc[j]? = some q → cnt[j]? = some n →
          nc2[j]? = some
            ⟨q.X + ((members (points.drop i) cs j).map Point.X).sum,
             q.Y + ((members (points.drop i) cs j).map Point.Y).sum⟩ ∧
          cnt2[j]? = some (n + ((members (points.drop i) cs j).length : Int)) := by
  induction cs with
  | nil =>
      intro i nc cnt _ _ _
      refine ⟨nc, cnt, by simp [sumLoop], rfl, rfl, ?_⟩
      intro j q n hq hn
      simp [members_nil, hq, hn]
  | cons c rest ih =>
      intro i nc cnt hlen hrange hi
      simp only [List.length_cons] at hi
      obtain ⟨hc0, hcl⟩ := hrange c (List.mem_cons_self c rest)
      have hip : i < points.length := by omega
      have hcl2 : c.toNat < cnt.length := by omega
      have hdrop : points.drop i = points[i] :: points.drop (i + 1) :=
        List.drop_eq_getElem_cons hip
      obtain ⟨nc2, cnt2, hrun, hl1, hl2, hval⟩ :=
        ih (i + 1) (nc.set c.toNat ⟨nc[c.toNat].X + points[i].X, nc[c.toNat].Y + points[i].Y⟩)
          (cnt.set c.toNat (cnt[c.toNat] + 1))
          (by simp [hlen])
          (by
            intro c2 hc2
            simpa using hrange c2 (List.mem_cons_of_mem c hc2))
          (by omega)
      refine ⟨nc2, cnt2, ?_, by simpa using hl1, by simpa using hl2, ?_⟩
      · have hneg : ¬ c < 0 := not_lt.mpr hc0
        simp [sumLoop, hneg, List.getElem?_eq_getElem hcl, List.getElem?_eq_getElem hip,
          List.getElem?_eq_getElem hcl2, hrun]
      · intro j q n hq hn
        rw [hdrop, members_cons]
        by_cases hj : c = (j : Int)
        · have hjn : c.toNat = j := by omega
          subst hjn
          rw [List.getElem?_eq_getElem hcl] at hq
          rw [List.getElem?_eq_getElem hcl2] at hn
          simp only [Option.some.injEq] at hq hn
          subst hq
          subst hn
          obtain ⟨h1, h2⟩ := hval c.toNat _ _ (List.getElem?_set_self (by omega))
            (List.getElem?_set_self (by omega))
          rw [h1, h2, if_pos hj]
          simp only [List.map_cons, List.sum_cons, List.length_cons,
            Nat.cast_add, Nat.cast_one, Option.some.injEq, Point.mk.injEq]
          refine ⟨⟨by ring, by ring⟩, by ring⟩
        · have hjn : c.toNat ≠ j := by omega
          obtain ⟨h1, h2⟩ := hval j q n
            (by rw [List.getElem?_set_ne hjn]; exact hq)
            (by rw [List.getElem?_set_ne hjn]; exact hn)
          rw [h1, h2, if_neg hj]
          exact ⟨rfl, rfl⟩

/-- One call of `stepKmeans` on a well-shaped state: it returns; every cluster index
becomes the inner loop's `closest` for its point; `changed` is set exactly when some index
was replaced by a different one; centroid `j` is the sum of the points now in cluster `j`
divided by their number when there is one, and `(0, 0)` otherwise; the new indices lie
in `[0, k)`. -/
theorem stepKmeans_spec (sqrt : F → F) (g : Game F) (hwf : g.WF) :
    ∃ g2 ch, stepKmeans sqrt g = some (g2, ch) ∧
      g2.points = g.points ∧ g2.k = g.k ∧
      g2.clusters.length = g.points.length ∧
      (∀ (i : Nat) p ci, g.points[i]? = some p → g.clusters[i]? = some ci →
          g2.clusters[i]? = some (closestOf sqrt g.centroids p ci)) ∧
      (ch = true ↔ ∃ (i : Nat) (p : Point F) (ci : Int),
          g.points[i]? = some p ∧ g.clusters[i]? = some ci ∧
          closestOf sqrt g.centroids p ci ≠ ci) ∧
      g2.centroids.length = g.k.toNat ∧
      (∀ j, j < g.k.toNat → g2.centroids[j]? = some
          (divideOne
            ⟨((members g.points g2.clusters j).map Point.X).sum,
             ((members g.points g2.clusters j).map Point.Y).sum⟩
            ((members g.points g2.clusters j).length : Int))) ∧
      (∀ c ∈ g2.clusters, 0 ≤ c ∧ c < g.k) := by
  obtain ⟨hk, hcen, hlen, hrange⟩ := hwf
  obtain ⟨cl2, ch2, hrun, hlen2, _, hin, hch⟩ :=
    assignLoop_spec sqrt g.centroids g.points 0 g.clusters false (by omega)
  have hin2 : ∀ (i : Nat) p ci, g.points[i]? = some p → g.clusters[i]? = some ci →
      cl2[i]? = some (closestOf sqrt g.centroids p ci) := by
    intro i p ci hp hc
    simpa using hin i p ci hp (by simpa using hc)
  have hrange2 : ∀ c ∈ cl2, 0 ≤ c ∧ c < g.k := by
    intro c hc
    obtain ⟨n, hn, hcn⟩ := List.getElem_of_mem hc
    have hnp : n < g.points.length := by omega
    have hnc : n < g.clusters.length := by omega
    have h1 := hin2 n g.points[n] g.clusters[n] (List.getElem?_eq_getElem hnp)
      (List.getElem?_eq_getElem hnc)
    rw [List.getElem?_eq_getElem hn, hcn] at h1
    simp only [Option.some.injEq] at h1
    rcases closestOf_cases sqrt g.centroids g.points[n] g.clusters[n] with
      ⟨hkeep, _⟩ | ⟨m, c2, hm, hidx, _⟩
    · rw [h1, hkeep]
      exact hrange _ (List.getElem_mem hnc)
    · have hm2 : m < g.centroids.length := by
        by_contra hcon
        rw [List.getElem?_eq_none (by omega)] at hm
        exact Option.noConfusion hm
      rw [h1, hidx]
      omega
  obtain ⟨nc2, cnt2, hsum, hl1, hl2, hval⟩ :=
    sumLoop_spec g.points cl2 0 (List.replicate g.k.toNat ⟨0, 0⟩) (List.replicate g.k.toNat 0)
      (by simp)
      (by
        intro c hc
        obtain ⟨h0, h1⟩ := hrange2 c hc
        simp only [List.length_replicate]
        omega)
      (by omega)
  have hneg : ¬ g.k < 0 := not_lt.mpr hk
  refine ⟨{ g with
      prevCentroids := copySlice g.prevCentroids g.centroids
      clusters := cl2
      centroids := divideLoop nc2 cnt2
      iteration := g.iteration + 1 }, ch2,
    by simp only [stepKmeans, hrun, hneg, if_false, hsum], rfl, rfl, ?_, hin2,
    ?_, ?_, ?_, hrange2⟩
  · simp only; omega
  · simpa using hch
  · simp only [divideLoop, List.length_zipWith, hl1, hl2, List.length_replicate, min_self]
  · intro j hj
    obtain ⟨h1, h2⟩ := hval j ⟨0, 0⟩ 0
      (by simp [List.getElem?_replicate, hj]) (by simp [List.getElem?_replicate, hj])
    simp only [List.drop_zero, zero_add] at h1 h2
    simp only [divideLoop, List.getElem?_zipWith, h1, h2]

/-- On the horizontal axis the Euclidean distance is the absolute difference. -/
theorem distance_axis (a b : ℝ) :
    distance Real.sqrt (⟨a, 0⟩ : Point ℝ) ⟨b, 0⟩ = |a - b| := by
  simp [distance, Real.sqrt_sq_eq_abs]

theorem million_lt_MaxFloat64 : (10 : ℝ) ^ 6 < MaxFloat64 := by
  unfold MaxFloat64
  norm_num

/-- C2 on the code: from `NewGame` on the points `(MaxFloat64,0)`, `(-MaxFloat64,0)`,
`(0,0)` with `k = 2` and the centroids drawn at `(-MaxFloat64,0)` and `(0,0)`, the first
point is at distance `2·MaxFloat64` from centroid 0 and `MaxFloat64` from centroid 1.
Neither distance is below the initial `minDist = math.MaxFloat64` (in float64 both are
`+Inf`), so `stepKmeans` leaves the point in cluster 0 although centroid 1 is strictly
nearer. -/
theorem stepKmeans_keeps_farther_centroid :
    (NewGame (fun i => i + 1)
        [(⟨MaxFloat64, 0⟩ : Point ℝ), ⟨-MaxFloat64, 0⟩, ⟨0, 0⟩] 2).bind (fun g0 =>
      (stepKmeans Real.sqrt g0).map (fun r => (g0.clusters, g0.centroids, r.1.clusters))) =
      some ([0, 0, 0], [⟨-MaxFloat64, 0⟩, ⟨0, 0⟩], [0, 0, 1]) ∧
    distance Real.sqrt (⟨MaxFloat64, 0⟩ : Point ℝ) ⟨0, 0⟩ <
      distance Real.sqrt (⟨MaxFloat64, 0⟩ : Point ℝ) ⟨-MaxFloat64, 0⟩ := by
  have hM := million_lt_MaxFloat64
  have hM0 : (0 : ℝ) < MaxFloat64 := by linarith
  have a1 : ¬ (|(MaxFloat64 : ℝ) + MaxFloat64| < MaxFloat64) := by
    rw [abs_of_pos (by linarith)]; linarith
  have a2 : |(MaxFloat64 : ℝ)| = MaxFloat64 := abs_of_pos hM0
  have a3 : ¬ ((MaxFloat64 : ℝ) < 0) := by linarith
  have hk : (2 : ℤ).toNat = 2 := rfl
  constructor
  · simp [NewGame, sampleCentroids, stepKmeans, assignLoop, closestOf, closestLoop, sumLoop,
      divideLoop, divideOne, copySlice, distance_axis, hM0, a1, a2, a3, hk, List.replicate]
  · rw [distance_axis, distance_axis, sub_zero, a2, abs_of_pos (by linarith)]
    linarith

/-- C3: `stepKmeans` returns on a well-shaped state, and for every cluster index `j` to
which the step assigns at least one point, `centroids[j]` afterwards is the
coordinate-wise mean of exactly the points whose new assignment is `j`. -/
theorem stepKmeans_centroid_is_mean (sqrt : F → F) (g : Game F) (hwf : g.WF) :
    ∃ g2 ch, stepKmeans sqrt g = some (g2, ch) ∧
      ∀ j : Nat, j < g.k.toNat → members g2.points g2.clusters j ≠ [] →
        g2.centroids[j]? = some (mean (members g2.points g2.clusters j)) := by
  obtain ⟨g2, ch, hrun, hpts, _, _, _, _, _, hcen, _⟩ := stepKmeans_spec sqrt g hwf
  refine ⟨g2, ch, hrun, ?_⟩
  intro j hj hne
  rw [hpts] at hne ⊢
  have hpos : 0 < (members g.points g2.clusters j).length := List.length_pos.mpr hne
  have hposZ : ((members g.points g2.clusters j).length : Int) > 0 := by exact_mod_cast hpos
  rw [hcen j hj]
  simp [divideOne, mean, hposZ]

theorem stepKmeans_centroid_is_mean_witness :
    (mkGame [(⟨0, 0⟩ : Point ℝ), ⟨10, 0⟩, ⟨7, 0⟩] [0, 0, 0] [⟨1, 0⟩, ⟨9, 0⟩]).WF ∧
    ∃ g2 ch, stepKmeans Real.sqrt
        (mkGame [(⟨0, 0⟩ : Point ℝ), ⟨10, 0⟩, ⟨7, 0⟩] [0, 0, 0] [⟨1, 0⟩, ⟨9, 0⟩]) = some (g2, ch) ∧
      ∀ j : Nat,
        j < (mkGame [(⟨0, 0⟩ : Point ℝ), ⟨10, 0⟩, ⟨7, 0⟩] [0, 0, 0] [⟨1, 0⟩, ⟨9, 0⟩]).k.toNat →
        members g2.points g2.clusters j ≠ [] →
        g2.centroids[j]? = some (mean (members g2.points g2.clusters j)) :=
  ⟨by simp [Game.WF, mkGame],
   stepKmeans_centroid_is_mean Real.sqrt
    (mkGame [(⟨0, 0⟩ : Point ℝ), ⟨10, 0⟩, ⟨7, 0⟩] [0, 0, 0] [⟨1, 0⟩, ⟨9, 0⟩])
    (by simp [Game.WF, mkGame])⟩

/-- The assignment loop never clears `changed`, and when it reports `false` it has left
the cluster indices as they were. -/
theorem assignLoop_false (sqrt : F → F) (cs : List (Point F)) (ps : List (Point F)) :
    ∀ (i : Nat) (cl : List Int) (ch : Bool) (cl2 : List Int),
      assignLoop sqrt cs ps i cl ch = some (cl2, false) → cl2 = cl ∧ ch = false := by
  induction ps with
  | nil =>
      intro i cl ch cl2 h
      simp only [assignLoop, Option.some.injEq, Prod.mk.injEq] at h
      exact ⟨h.1.symm, h.2⟩
  | cons p rest ih =>
      intro i cl ch cl2 h
      cases hci : cl[i]? with
      | none => simp [assignLoop, hci] at h
      | some ci =>
          by_cases hne : closestOf sqrt cs p ci ≠ ci
          · simp only [assignLoop, hci, hne, if_true, ne_eq, not_false_eq_true] at h
            exact absurd (ih _ _ _ _ h).2 (by simp)
          · simp only [assignLoop, hci, hne, if_false] at h
            exact ih _ _ _ _ h

/-- C9 fails as stated: from `NewGame` on the points `(0,0)`, `(10,0)` with `k = 2` and
both centroids drawn at `(0,0)`, the first `stepKmeans` returns `changed = false` (clusters
`[0, 0]`, centroids `(5,0)`, `(0,0)`), and the second returns `changed = true` with
clusters `[1, 0]` and centroids `(10,0)`, `(0,0)`. -/
theorem stepKmeans_changes_after_unchanged_step :
    (NewGame (fun _ => 0) [(⟨0, 0⟩ : Point ℝ), ⟨10, 0⟩] 2).bind (fun g0 =>
      (stepKmeans Real.sqrt g0).bind (fun r1 =>
        (stepKmeans Real.sqrt r1.1).map (fun r2 =>
          (r1.2, r1.1.clusters, r1.1.centroids, r2.2, r2.1.clusters, r2.1.centroids)))) =
    some (false, [0, 0], [⟨5, 0⟩, ⟨0, 0⟩], true, [1, 0], [⟨10, 0⟩, ⟨0, 0⟩]) := by
  have hM := million_lt_MaxFloat64
  have h0 : (0 : ℝ) < MaxFloat64 := by linarith
  have h10 : (10 : ℝ) < MaxFloat64 := by linarith
  have h5 : (5 : ℝ) < MaxFloat64 := by linarith
  have h2 : (2 : ℤ).toNat = 2 := rfl
  norm_num [NewGame, sampleCentroids, stepKmeans, assignLoop, closestOf, closestLoop, sumLoop,
    divideLoop, divideOne, copySlice, distance_axis, h0, h10, h5, h2, List.replicate]

/-- If a call of `stepKmeans` returns `changed = false` and leaves the centroids where they
were before the call, then the next call returns `changed = false` and leaves clusters and
centroids as they are. -/
theorem stepKmeans_idempotent_at_fixed_centroids (sqrt : F → F) (g g1 : Game F)
    (hstep : stepKmeans sqrt g = some (g1, false)) (hcen : g1.centroids = g.centroids) :
    ∃ g2, stepKmeans sqrt g1 = some (g2, false) ∧
      g2.clusters = g1.clusters ∧ g2.centroids = g1.centroids := by
  unfold stepKmeans at hstep
  cases hassign : assignLoop sqrt g.centroids g.points 0 g.clusters false with
  | none => simp [hassign] at hstep
  | some r =>
      obtain ⟨cl, ch⟩ := r
      by_cases hk : g.k < 0
      · simp [hassign, hk] at hstep
      · cases hsum : sumLoop g.points cl 0
            (List.replicate g.k.toNat ⟨0, 0⟩, List.replicate g.k.toNat 0) with
        | none => simp [hassign, hk, hsum] at hstep
        | some acc =>
            obtain ⟨nc, cnt⟩ := acc
            simp only [hassign, hk, if_false, hsum, Option.some.injEq, Prod.mk.injEq] at hstep
            obtain ⟨hg1, hch⟩ := hstep
            subst hch
            obtain ⟨hcl, _⟩ := assignLoop_false sqrt g.centroids g.points 0 g.clusters false cl
              hassign
            subst hcl
            subst hg1
            simp only at hcen
            have hrun : stepKmeans sqrt
                { g with
                    prevCentroids := copySlice g.prevCentroids g.centroids
                    clusters := g.clusters
                    centroids := divideLoop nc cnt
                    iteration := g.iteration + 1 } =
                some ({ g with
                    prevCentroids := copySlice (copySlice g.prevCentroids g.centroids)
                      (divideLoop nc cnt)
                    clusters := g.clusters
                    centroids := divideLoop nc cnt
                    iteration := g.iteration + 1 + 1 }, false) := by
              simp only [stepKmeans, hcen, hassign, hk, if_false, hsum]
            exact ⟨_, hrun, rfl, rfl⟩

/-- C9, amended: for a state `g1` that was itself produced by a call of `stepKmeans` (every
state of a run except the one `NewGame` returns), if the next call returns
`changed = false`, then the call after it returns `changed = false` too and leaves
clusters and centroids identical to what they were after the first of the two. -/
theorem stepKmeans_idempotent_after_step (sqrt : F → F) (g0 g1 g2 : Game F) (ch0 : Bool)
    (hprev : stepKmeans sqrt g0 = some (g1, ch0))
    (hstep : stepKmeans sqrt g1 = some (g2, false)) :
    ∃ g3, stepKmeans sqrt g2 = some (g3, false) ∧
      g3.clusters = g2.clusters ∧ g3.centroids = g2.centroids := by
  apply stepKmeans_idempotent_at_fixed_centroids sqrt g1 g2 hstep
  -- the centroids of `g1` are already the means of its clusters
  unfold stepKmeans at hprev hstep
  cases ha0 : assignLoop sqrt g0.centroids g0.points 0 g0.clusters false with
  | none => simp [ha0] at hprev
  | some r0 =>
      obtain ⟨cl0, c0⟩ := r0
      by_cases hk : g0.k < 0
      · simp [ha0, hk] at hprev
      · cases hs0 : sumLoop g0.points cl0 0
            (List.replicate g0.k.toNat ⟨0, 0⟩, List.replicate g0.k.toNat 0) with
        | none => simp [ha0, hk, hs0] at hprev
        | some acc0 =>
            obtain ⟨nc0, cnt0⟩ := acc0
            simp only [ha0, hk, if_false, hs0, Option.some.injEq, Prod.mk.injEq] at hprev
            obtain ⟨hg1, _⟩ := hprev
            subst hg1
            simp only at hstep
            cases ha1 : assignLoop sqrt (divideLoop nc0 cnt0) g0.points 0 cl0 false with
            | none => simp [ha1] at hstep
            | some r1 =>
                obtain ⟨cl1, c1⟩ := r1
                simp only [ha1, hk, if_false] at hstep
                cases hs1 : sumLoop g0.points cl1 0
                    (List.replicate g0.k.toNat ⟨0, 0⟩, List.replicate g0.k.toNat 0) with
                | none => simp [hs1] at hstep
                | some acc1 =>
                    obtain ⟨nc1, cnt1⟩ := acc1
                    simp only [hs1, Option.some.injEq, Prod.mk.injEq] at hstep
                    obtain ⟨hg2, hc1⟩ := hstep
                    subst hc1
                    obtain ⟨hcl, _⟩ := assignLoop_false sqrt (divideLoop nc0 cnt0) g0.points 0
                      cl0 false cl1 ha1
                    subst hcl
                    rw [hs0] at hs1
                    simp only [Option.some.injEq, Prod.mk.injEq] at hs1
                    obtain ⟨hnc, hcnt⟩ := hs1
                    subst hnc
                    subst hcnt
                    subst hg2
                    rfl

theorem stepKmeans_idempotent_after_step_witness :
    stepKmeans Real.sqrt
        (mkGame [(⟨0, 0⟩ : Point ℝ), ⟨10, 0⟩] [0, 1] [⟨0, 0⟩, ⟨10, 0⟩]) =
      some ({ mkGame [(⟨0, 0⟩ : Point ℝ), ⟨10, 0⟩] [0, 1] [⟨0, 0⟩, ⟨10, 0⟩] with
                prevCentroids := [⟨0, 0⟩, ⟨10, 0⟩]
                iteration := 1 }, false) ∧
    stepKmeans Real.sqrt
        { mkGame [(⟨0, 0⟩ : Point ℝ), ⟨10, 0⟩] [0, 1] [⟨0, 0⟩, ⟨10, 0⟩] with
            prevCentroids := [⟨0, 0⟩, ⟨10, 0⟩]
            iteration := 1 } =
      some ({ mkGame [(⟨0, 0⟩ : Point ℝ), ⟨10, 0⟩] [0, 1] [⟨0, 0⟩, ⟨10, 0⟩] with
                prevCentroids := [⟨0, 0⟩, ⟨10, 0⟩]
                iteration := 2 }, false) ∧
    ∃ g3, stepKmeans Real.sqrt
        { mkGame [(⟨0, 0⟩ : Point ℝ), ⟨10, 0⟩] [0, 1] [⟨0, 0⟩, ⟨10, 0⟩] with
            prevCentroids := [⟨0, 0⟩, ⟨10, 0⟩]
            iteration := 2 } = some (g3, false) ∧
      g3.clusters = [0, 1] ∧ g3.centroids = [⟨0, 0⟩, ⟨10, 0⟩] := by
  have hM := million_lt_MaxFloat64
  have h0 : (0 : ℝ) < MaxFloat64 := by linarith
  have h10 : (10 : ℝ) < MaxFloat64 := by linarith
  have h2 : (2 : ℤ).toNat = 2 := rfl
  have hprev : stepKmeans Real.sqrt
        (mkGame [(⟨0, 0⟩ : Point ℝ), ⟨10, 0⟩] [0, 1] [⟨0, 0⟩, ⟨10, 0⟩]) =
      some ({ mkGame [(⟨0, 0⟩ : Point ℝ), ⟨10, 0⟩] [0, 1] [⟨0, 0⟩, ⟨10, 0⟩] with
                prevCentroids := [⟨0, 0⟩, ⟨10, 0⟩]
                iteration := 1 }, false) := by
    norm_num [mkGame, stepKmeans, assignLoop, closestOf, closestLoop, sumLoop,
      divideLoop, divideOne, copySlice, distance_axis, h0, h10, h2, List.replicate]
  have hstep : stepKmeans Real.sqrt
        { mkGame [(⟨0, 0⟩ : Point ℝ), ⟨10, 0⟩] [0, 1] [⟨0, 0⟩, ⟨10, 0⟩] with
            prevCentroids := [⟨0, 0⟩, ⟨10, 0⟩]
            iteration := 1 } =
      some ({ mkGame [(⟨0, 0⟩ : Point ℝ), ⟨10, 0⟩] [0, 1] [⟨0, 0⟩, ⟨10, 0⟩] with
                prevCentroids := [⟨0, 0⟩, ⟨10, 0⟩]
                iteration := 2 }, false) := by
    norm_num [mkGame, stepKmeans, assignLoop, closestOf, closestLoop, sumLoop,
      divideLoop, divideOne, copySlice, distance_axis, h0, h10, h2, List.replicate]
  exact ⟨hprev, hstep, stepKmeans_idempotent_after_step Real.sqrt _ _ _ _ hprev hstep⟩

omit [LinearOrderedField F] in
/-- Sampling `n` centroids from a non-empty dataset succeeds and yields `n` of them. -/
theorem sampleCentroids_spec (src : Nat → Nat) (points : List (Point F)) (hne : points ≠ []) :
    ∀ (n i : Nat), ∃ cs, sampleCentroids src points i n = some cs ∧ cs.length = n := by
  have hpos : 0 < points.length := List.length_pos.mpr hne
  intro n
  induction n with
  | zero =>
      intro i
      exact ⟨[], by simp [sampleCentroids], rfl⟩
  | succ n ih =>
      intro i
      obtain ⟨cs, hcs, hlen⟩ := ih (i + 1)
      have hidx : src i % points.length < points.length := Nat.mod_lt _ hpos
      refine ⟨points[src i % points.length] :: cs, ?_, by simp [hlen]⟩
      have h0 : points.length ≠ 0 := by omega
      simp [sampleCentroids, h0, List.getElem?_eq_getElem hidx, hcs]

/-- On a non-empty dataset with `k ≥ 1`, `NewGame` returns a well-shaped state. -/
theorem NewGame_spec (src : Nat → Nat) (points : List (Point F)) (k : Int)
    (hne : points ≠ []) (hk : 1 ≤ k) :
    ∃ g0, NewGame src points k = some g0 ∧ g0.WF ∧ g0.points = points ∧ g0.k = k := by
  obtain ⟨cs, hcs, hlen⟩ := sampleCentroids_spec src points hne k.toNat 0
  have hneg : ¬ k < 0 := by omega
  have hrun : NewGame src points k = some
      { points := points
        clusters := List.replicate points.length 0
        centroids := cs
        prevCentroids := List.replicate k.toNat ⟨0, 0⟩
        k := k
        width := 800
        height := 600
        iteration := 0
        animProgress := 0
        animSpeed := 1 / 100
        converged := false } := by
    simp only [NewGame, hneg, if_false, hcs]
  refine ⟨_, hrun, ?_, rfl, rfl⟩
  refine ⟨by simp only; omega, hlen, by simp, ?_⟩
  intro c hc
  simp only [List.mem_replicate] at hc
  obtain ⟨_, rfl⟩ := hc
  exact ⟨le_refl _, by simp only; omega⟩

/-- Any number of `stepKmeans` calls from a well-shaped state returns a well-shaped state
on the same points and `k`. -/
theorem stepN_spec (sqrt : F → F) (g : Game F) (hwf : g.WF) :
    ∀ n : Nat, ∃ g2, stepN sqrt n g = some g2 ∧ g2.WF ∧ g2.points = g.points ∧ g2.k = g.k := by
  intro n
  induction n with
  | zero => exact ⟨g, rfl, hwf, rfl, rfl⟩
  | succ n ih =>
      obtain ⟨g1, hrun, hwf1, hp1, hk1⟩ := ih
      obtain ⟨g2, ch, hstep, hp2, hk2, hlen2, _, _, hcen2, _, hrange2⟩ :=
        stepKmeans_spec sqrt g1 hwf1
      refine ⟨g2, by simp [stepN, hrun, hstep], ?_, by rw [hp2, hp1], by rw [hk2, hk1]⟩
      refine ⟨by rw [hk2]; exact hwf1.1, by rw [hcen2, hk2], by rw [hlen2, hp2], ?_⟩
      intro c hc
      rw [hk2]
      exact hrange2 c hc

/-- Cluster indices that all lie in `[0, k)` are counted exactly once over the `k`
clusters. -/
theorem sum_count_eq_length (k : Nat) (cl : List Int)
    (hrange : ∀ c ∈ cl, 0 ≤ c ∧ c < (k : Int)) :
    ∑ j in Finset.range k, cl.count (j : Int) = cl.length := by
  induction cl with
  | nil => simp
  | cons c rest ih =>
      have hc := hrange c (List.mem_cons_self c rest)
      have hrest : ∀ c2 ∈ rest, 0 ≤ c2 ∧ c2 < (k : Int) :=
        fun c2 h2 => hrange c2 (List.mem_cons_of_mem c h2)
      have hone : ∑ j in Finset.range k, (if c = (j : Int) then 1 else 0) = 1 := by
        rw [Finset.sum_eq_single c.toNat]
        · rw [if_pos (by omega)]
        · intro j _ hj
          rw [if_neg (by omega)]
        · intro hnot
          exact absurd (Finset.mem_range.mpr (by omega)) hnot
      have hcount : ∀ j : Nat, (c :: rest).count (j : Int) =
          rest.count (j : Int) + (if c = (j : Int) then 1 else 0) := by
        intro j
        rw [List.count_cons]
        by_cases h : c = (j : Int) <;> simp [h]
      simp only [hcount, Finset.sum_add_distrib, ih hrest, hone, List.length_cons]

/-- C10: for non-empty `points` and `k ≥ 1`, `NewGame(points, k)` returns, any number `n`
of `stepKmeans` calls from it returns, and in the state reached `clusters` has one entry
per point, every `clusters[i]` lies in `[0, k)`, and the per-cluster point counts summed
over the `k` clusters equal `len(points)`. -/
theorem kmeans_cluster_invariant (src : Nat → Nat) (sqrt : F → F) (points : List (Point F))
    (k : Int) (hne : points ≠ []) (hk : 1 ≤ k) (n : Nat) :
    ∃ g0 g, NewGame src points k = some g0 ∧ stepN sqrt n g0 = some g ∧
      g.clusters.length = points.length ∧
      (∀ c ∈ g.clusters, 0 ≤ c ∧ c < k) ∧
      ∑ j in Finset.range k.toNat, g.clusters.count (j : Int) = points.length := by
  obtain ⟨g0, hnew, hwf0, hp0, hk0⟩ := NewGame_spec src points k hne hk
  obtain ⟨g, hrun, hwf, hp, hkk⟩ := stepN_spec sqrt g0 hwf0 n
  obtain ⟨_, _, hlen, hrange⟩ := hwf
  have hkg : g.k = k := by rw [hkk, hk0]
  have hpg : g.points = points := by rw [hp, hp0]
  rw [hkg] at hrange
  refine ⟨g0, g, hnew, hrun, by rw [hlen, hpg], hrange, ?_⟩
  rw [sum_count_eq_length k.toNat g.clusters, hlen, hpg]
  intro c hc
  obtain ⟨h0, h1⟩ := hrange c hc
  exact ⟨h0, by omega⟩

theorem kmeans_cluster_invariant_witness :
    ([⟨0, 0⟩, ⟨10, 0⟩, ⟨7, 0⟩] : List (Point ℝ)) ≠ [] ∧ (1 : Int) ≤ 2 ∧
    ∃ g0 g, NewGame (fun i => i) [(⟨0, 0⟩ : Point ℝ), ⟨10, 0⟩, ⟨7, 0⟩] 2 = some g0 ∧
      stepN Real.sqrt 3 g0 = some g ∧
      g.clusters.length = [(⟨0, 0⟩ : Point ℝ), ⟨10, 0⟩, ⟨7, 0⟩].length ∧
      (∀ c ∈ g.clusters, 0 ≤ c ∧ c < 2) ∧
      ∑ j in Finset.range (2 : Int).toNat, g.clusters.count (j : Int) =
        [(⟨0, 0⟩ : Point ℝ), ⟨10, 0⟩, ⟨7, 0⟩].length :=
  ⟨by simp, by decide,
   kmeans_cluster_invariant (fun i => i) Real.sqrt [⟨0, 0⟩, ⟨10, 0⟩, ⟨7, 0⟩] 2 (by simp)
     (by decide) 3⟩

/-- A cluster index to which the step assigns no point gets the zero value of
`make([]Point, g.k)`: the division loop skips it and nothing restores the old centroid. -/
theorem stepKmeans_empty_cluster_origin (sqrt : F → F) (g : Game F) (hwf : g.WF) :
    ∃ g2 ch, stepKmeans sqrt g = some (g2, ch) ∧
      ∀ j : Nat, j < g.k.toNat → members g2.points g2.clusters j = [] →
        g2.centroids[j]? = some ⟨0, 0⟩ := by
  obtain ⟨g2, ch, hrun, hpts, _, _, _, _, _, hcen, _⟩ := stepKmeans_spec sqrt g hwf
  refine ⟨g2, ch, hrun, ?_⟩
  intro j hj hnil
  rw [hpts] at hnil
  rw [hcen j hj, hnil]
  simp [divideOne]

/-- C11 fails on the code: from `NewGame` on the points `(1,0)`, `(3,0)` with `k = 2` and
both centroids drawn at `(1,0)`, `stepKmeans` assigns both points to cluster 0 and none to
cluster 1, and centroid 1, which was at `(1,0)`, is at the origin after the step. -/
theorem stepKmeans_moves_empty_centroid_to_origin :
    (NewGame (fun _ => 0) [(⟨1, 0⟩ : Point ℝ), ⟨3, 0⟩] 2).bind (fun g0 =>
      (stepKmeans Real.sqrt g0).map (fun r =>
        (g0.centroids, r.2, r.1.clusters, r.1.centroids))) =
    some ([⟨1, 0⟩, ⟨1, 0⟩], false, [0, 0], [⟨2, 0⟩, ⟨0, 0⟩]) := by
  have hM := million_lt_MaxFloat64
  have h0 : (0 : ℝ) < MaxFloat64 := by linarith
  have h2 : (2 : ℝ) < MaxFloat64 := by linarith
  have hk : (2 : ℤ).toNat = 2 := rfl
  norm_num [NewGame, sampleCentroids, stepKmeans, assignLoop, closestOf, closestLoop, sumLoop,
    divideLoop, divideOne, copySlice, distance_axis, h0, h2, hk, List.replicate]

/-- C12 fails as stated: from `NewGame` on the points `(-2,0)`, `(0,0)`, `(4,0)` with
`k = 2` and centroids drawn at `(-2,0)`, `(0,0)`, the first `stepKmeans` leaves clusters
`[0, 1, 1]` and centroids `(-2,0)`, `(2,0)`; the point `(0,0)` is then at distance 2 from
both centroids and its previous assignment 1 is among the nearest, yet the second
`stepKmeans` assigns it to centroid 0. -/
theorem stepKmeans_tie_drops_previous_assignment :
    (NewGame (fun i => i) [(⟨-2, 0⟩ : Point ℝ), ⟨0, 0⟩, ⟨4, 0⟩] 2).bind (fun g0 =>
      (stepKmeans Real.sqrt g0).bind (fun r1 =>
        (stepKmeans Real.sqrt r1.1).map (fun r2 =>
          (r1.1.clusters, r1.1.centroids,
           distance Real.sqrt (⟨0, 0⟩ : Point ℝ) ⟨-2, 0⟩,
           distance Real.sqrt (⟨0, 0⟩ : Point ℝ) ⟨2, 0⟩,
           r2.1.clusters)))) =
    some ([0, 1, 1], [⟨-2, 0⟩, ⟨2, 0⟩], 2, 2, [0, 0, 1]) := by
  have hM := million_lt_MaxFloat64
  have h0 : (0 : ℝ) < MaxFloat64 := by linarith
  have h2 : (2 : ℝ) < MaxFloat64 := by linarith
  have h4 : (4 : ℝ) < MaxFloat64 := by linarith
  have h6 : (6 : ℝ) < MaxFloat64 := by linarith
  have hk : (2 : ℤ).toNat = 2 := rfl
  norm_num [NewGame, sampleCentroids, stepKmeans, assignLoop, closestOf, closestLoop, sumLoop,
    divideLoop, divideOne, copySlice, distance_axis, h0, h2, h4, h6, hk, List.replicate]

/-- A sum of squares that float64 holds without overflow has a root below
`math.MaxFloat64`. -/
theorem sqrt_lt_MaxFloat64 (s : ℝ) (hs : s ≤ MaxFloat64) : Real.sqrt s < MaxFloat64 := by
  have hM := million_lt_MaxFloat64
  have hM0 : (0 : ℝ) < MaxFloat64 := by linarith
  rw [Real.sqrt_lt' hM0]
  have h1 : (1 : ℝ) < MaxFloat64 := by linarith
  nlinarith

/-- C12, amended: in exact arithmetic, in the assignment phase of `stepKmeans` on a
well-shaped state, a point that has at least one centroid whose squared
distance `(p.X − c.X)² + (p.Y − c.Y)²` is at most `math.MaxFloat64` (so that its distance
is not `+Inf` in float64) is assigned to the lowest-index centroid achieving the minimum
distance, whether or not its previous assignment is among the nearest: every centroid is
at least as far, and every centroid of lower index is strictly farther. -/
theorem stepKmeans_lowest_index_nearest_without_overflow (g : Game ℝ) (hwf : g.WF) :
    ∃ g2 ch, stepKmeans Real.sqrt g = some (g2, ch) ∧
      ∀ (i : Nat) (p : Point ℝ), g.points[i]? = some p →
        (∃ c0 ∈ g.centroids, distSq p c0 ≤ MaxFloat64) →
        ∃ (n : Nat) (c : Point ℝ), g2.clusters[i]? = some (n : Int) ∧
          g.centroids[n]? = some c ∧
          (∀ (j : Nat) (cj : Point ℝ), g.centroids[j]? = some cj →
            distance Real.sqrt p c ≤ distance Real.sqrt p cj) ∧
          (∀ (j : Nat) (cj : Point ℝ), j < n → g.centroids[j]? = some cj →
            distance Real.sqrt p c < distance Real.sqrt p cj) := by
  obtain ⟨g2, ch, hrun, _, _, _, hin, _⟩ := stepKmeans_spec Real.sqrt g hwf
  obtain ⟨_, hcen, hlen, _⟩ := hwf
  refine ⟨g2, ch, hrun, ?_⟩
  intro i p hp hfin
  have hi : i < g.points.length := (List.getElem?_eq_some_iff.mp hp).1
  have hic : i < g.clusters.length := by omega
  have hnew := hin i p g.clusters[i] hp (List.getElem?_eq_getElem hic)
  rcases closestOf_cases Real.sqrt g.centroids p g.clusters[i] with
    ⟨_, hfar⟩ | ⟨n, c, hn, hidx, hmin, _, hfirst⟩
  · exfalso
    obtain ⟨c0, hc0, hs⟩ := hfin
    have hlt : distance Real.sqrt p c0 < MaxFloat64 := sqrt_lt_MaxFloat64 _ hs
    exact absurd hlt (not_lt.mpr (hfar c0 hc0))
  · refine ⟨n, c, by rw [hnew, hidx], hn, ?_, ?_⟩
    · intro j cj hj
      exact hmin cj (List.getElem?_mem hj)
    · intro j cj hjn hj
      exact hfirst j cj hjn hj

theorem stepKmeans_lowest_index_nearest_without_overflow_witness :
    (mkGame [(⟨5, 0⟩ : Point ℝ), ⟨9, 0⟩] [1, 0] [⟨0, 0⟩, ⟨10, 0⟩]).WF ∧
    ∃ g2 ch, stepKmeans Real.sqrt
        (mkGame [(⟨5, 0⟩ : Point ℝ), ⟨9, 0⟩] [1, 0] [⟨0, 0⟩, ⟨10, 0⟩]) = some (g2, ch) ∧
      ∀ (i : Nat) (p : Point ℝ),
        (mkGame [(⟨5, 0⟩ : Point ℝ), ⟨9, 0⟩] [1, 0] [⟨0, 0⟩, ⟨10, 0⟩]).points[i]? = some p →
        (∃ c0 ∈ (mkGame [(⟨5, 0⟩ : Point ℝ), ⟨9, 0⟩] [1, 0] [⟨0, 0⟩, ⟨10, 0⟩]).centroids,
          distSq p c0 ≤ MaxFloat64) →
        ∃ (n : Nat) (c : Point ℝ), g2.clusters[i]? = some (n : Int) ∧
          (mkGame [(⟨5, 0⟩ : Point ℝ), ⟨9, 0⟩] [1, 0] [⟨0, 0⟩, ⟨10, 0⟩]).centroids[n]?
            = some c ∧
          (∀ (j : Nat) (cj : Point ℝ),
            (mkGame [(⟨5, 0⟩ : Point ℝ), ⟨9, 0⟩] [1, 0] [⟨0, 0⟩, ⟨10, 0⟩]).centroids[j]?
              = some cj →
            distance Real.sqrt p c ≤ distance Real.sqrt p cj) ∧
          (∀ (j : Nat) (cj : Point ℝ), j < n →
            (mkGame [(⟨5, 0⟩ : Point ℝ), ⟨9, 0⟩] [1, 0] [⟨0, 0⟩, ⟨10, 0⟩]).centroids[j]?
              = some cj →
            distance Real.sqrt p c < distance Real.sqrt p cj) :=
  ⟨by simp [Game.WF, mkGame],
   stepKmeans_lowest_index_nearest_without_overflow
    (mkGame [(⟨5, 0⟩ : Point ℝ), ⟨9, 0⟩] [1, 0] [⟨0, 0⟩, ⟨10, 0⟩])
    (by simp [Game.WF, mkGame])⟩

/-- C13: on a well-shaped state `stepKmeans` returns, and it returns `changed = true` if
and only if at least one point's cluster index after the step differs from its cluster
index before the step. -/
theorem stepKmeans_changed_iff (sqrt : F → F) (g : Game F) (hwf : g.WF) :
    ∃ g2 ch, stepKmeans sqrt g = some (g2, ch) ∧
      (ch = true ↔ ∃ (i : Nat) (before after : Int),
        g.clusters[i]? = some before ∧ g2.clusters[i]? = some after ∧ after ≠ before) := by
  obtain ⟨g2, ch, hrun, _, _, hlen2, hin, hch, _⟩ := stepKmeans_spec sqrt g hwf
  obtain ⟨_, _, hlen, _⟩ := hwf
  refine ⟨g2, ch, hrun, ?_⟩
  rw [hch]
  constructor
  · rintro ⟨i, p, ci, hp, hc, hne⟩
    exact ⟨i, ci, _, hc, hin i p ci hp hc, hne⟩
  · rintro ⟨i, before, after, hb, ha, hne⟩
    have hi : i < g.clusters.length := by
      by_contra hcon
      rw [List.getElem?_eq_none (by omega)] at hb
      exact Option.noConfusion hb
    have hip : i < g.points.length := by omega
    have hnew := hin i g.points[i] before (List.getElem?_eq_getElem hip) hb
    rw [hnew] at ha
    simp only [Option.some.injEq] at ha
    exact ⟨i, g.points[i], before, List.getElem?_eq_getElem hip, hb, by rw [ha]; exact hne⟩

theorem stepKmeans_changed_iff_witness :
    (mkGame [(⟨5, 0⟩ : Point ℝ), ⟨9, 0⟩] [1, 0] [⟨0, 0⟩, ⟨10, 0⟩]).WF ∧
    ∃ g2 ch, stepKmeans Real.sqrt
        (mkGame [(⟨5, 0⟩ : Point ℝ), ⟨9, 0⟩] [1, 0] [⟨0, 0⟩, ⟨10, 0⟩]) = some (g2, ch) ∧
      (ch = true ↔ ∃ (i : Nat) (before after : Int),
        (mkGame [(⟨5, 0⟩ : Point ℝ), ⟨9, 0⟩] [1, 0] [⟨0, 0⟩, ⟨10, 0⟩]).clusters[i]?
          = some before ∧
        g2.clusters[i]? = some after ∧ after ≠ before) :=
  ⟨by simp [Game.WF, mkGame],
   stepKmeans_changed_iff Real.sqrt
    (mkGame [(⟨5, 0⟩ : Point ℝ), ⟨9, 0⟩] [1, 0] [⟨0, 0⟩, ⟨10, 0⟩])
    (by simp [Game.WF, mkGame])⟩

omit [LinearOrderedField F] in
theorem members_replicate_zero (ps : List (Point F)) :
    members ps (List.replicate ps.length 0) 0 = ps := by
  induction ps with
  | nil => rfl
  | cons p rest ih =>
      simp only [List.length_cons, List.replicate_succ, members_cons, Nat.cast_zero, if_true, ih]

/-- What `NewGame` puts in the state it returns. -/
theorem NewGame_fields (src : Nat → Nat) (points : List (Point F)) (k : Int) (g0 : Game F)
    (h : NewGame src points k = some g0) :
    g0.points = points ∧ g0.clusters = List.replicate points.length 0 ∧ g0.k = k := by
  unfold NewGame at h
  by_cases hk : k < 0
  · simp [hk] at h
  · cases hs : sampleCentroids src points 0 k.toNat with
    | none => simp [hk, hs] at h
    | some cs =>
        simp only [hk, if_false, hs, Option.some.injEq] at h
        subst h
        exact ⟨rfl, rfl, rfl⟩

/-- C14: for `k = 1`, every non-empty dataset and every draw of the initial centroid,
`NewGame` returns and the first `stepKmeans` after it returns `changed = false`, assigns
every point to cluster 0 and sets `centroids[0]` to the coordinate-wise mean of the whole
dataset. -/
theorem kmeans_single_cluster_first_step (src : Nat → Nat) (sqrt : F → F)
    (points : List (Point F)) (hne : points ≠ []) :
    ∃ g0 g1, NewGame src points 1 = some g0 ∧ stepKmeans sqrt g0 = some (g1, false) ∧
      g1.clusters = List.replicate points.length 0 ∧ g1.centroids = [mean points] := by
  obtain ⟨g0, hnew, hwf0, hp0, hk0⟩ := NewGame_spec src points 1 hne (le_refl 1)
  obtain ⟨_, hcl0, _⟩ := NewGame_fields src points 1 g0 hnew
  obtain ⟨g1, ch, hrun, hpts, _, hlen1, hin, hch, hcenlen, hcen, _⟩ :=
    stepKmeans_spec sqrt g0 hwf0
  have hclen : g0.centroids.length = 1 := by rw [hwf0.2.1, hk0]; rfl
  have hzero : ∀ (p : Point F), closestOf sqrt g0.centroids p 0 = 0 := by
    intro p
    rcases closestOf_cases sqrt g0.centroids p 0 with ⟨hkeep, _⟩ | ⟨n, c, hn, hidx, _⟩
    · exact hkeep
    · have hn1 : n < g0.centroids.length := by
        by_contra hcon
        rw [List.getElem?_eq_none (by omega)] at hn
        exact Option.noConfusion hn
      rw [hidx]
      have : n = 0 := by omega
      subst this
      rfl
  have hcl1 : g1.clusters = List.replicate points.length 0 := by
    apply List.ext_getElem?
    intro i
    by_cases hi : i < points.length
    · have hip : i < g0.points.length := by rw [hp0]; exact hi
      have h0 : g0.clusters[i]? = some 0 := by
        rw [hcl0, List.getElem?_replicate, if_pos hi]
      rw [hin i g0.points[i] 0 (List.getElem?_eq_getElem hip) h0, hzero,
        List.getElem?_replicate, if_pos hi]
    · rw [List.getElem?_eq_none (by rw [hlen1, hp0]; omega),
        List.getElem?_eq_none (by simp only [List.length_replicate]; omega)]
  have hfalse : ch = false := by
    cases hc : ch with
    | false => rfl
    | true =>
        obtain ⟨i, p, ci, hp, hci, hne2⟩ := hch.mp hc
        have hi : i < g0.clusters.length := by
          by_contra hcon
          rw [List.getElem?_eq_none (by omega)] at hci
          exact Option.noConfusion hci
        rw [hcl0] at hci
        rw [List.getElem?_replicate] at hci
        split_ifs at hci
        simp only [Option.some.injEq] at hci
        subst hci
        exact absurd (hzero p) hne2
  subst hfalse
  refine ⟨g0, g1, hnew, hrun, hcl1, ?_⟩
  have hk1 : g0.k.toNat = 1 := by rw [hk0]; rfl
  have hc0 := hcen 0 (by omega)
  rw [hcl1, hp0, members_replicate_zero] at hc0
  have hpos : 0 < points.length := List.length_pos.mpr hne
  have hposZ : ((points.length : Nat) : Int) > 0 := by exact_mod_cast hpos
  have hl1 : g1.centroids.length = 1 := by rw [hcenlen, hk1]
  apply List.ext_getElem?
  intro i
  cases i with
  | zero =>
      rw [hc0]
      simp [divideOne, mean, hposZ]
  | succ j =>
      rw [List.getElem?_eq_none (by omega)]
      simp

theorem kmeans_single_cluster_first_step_witness :
    ([⟨1, 2⟩, ⟨3, 6⟩, ⟨8, 1⟩] : List (Point ℝ)) ≠ [] ∧
    ∃ g0 g1, NewGame (fun _ => 2) [(⟨1, 2⟩ : Point ℝ), ⟨3, 6⟩, ⟨8, 1⟩] 1 = some g0 ∧
      stepKmeans Real.sqrt g0 = some (g1, false) ∧
      g1.clusters = List.replicate [(⟨1, 2⟩ : Point ℝ), ⟨3, 6⟩, ⟨8, 1⟩].length 0 ∧
      g1.centroids = [mean [(⟨1, 2⟩ : Point ℝ), ⟨3, 6⟩, ⟨8, 1⟩]] :=
  ⟨by simp,
   kmeans_single_cluster_first_step (fun _ => 2) Real.sqrt [⟨1, 2⟩, ⟨3, 6⟩, ⟨8, 1⟩]
     (by simp)⟩

end KMeans

/-! ## Theorems: mean shift -/

section MeanShiftThms

open Main10

variable {F : Type} [LinearOrderedField F]

/-- The inner loop of `Step` adds, over the points within `bandwidthSq` of the mode, the
weighted coordinates and the weights; the other points add nothing. -/
theorem shiftLoop_eq (exp : F → F) (m : Point F) (bwSq : F) (points : List (Point F)) :
    ∀ acc : F × F × F,
      shiftLoop exp m bwSq points acc =
        (acc.1 + ((points.filter (fun p => decide
              ((p.X - m.X) * (p.X - m.X) + (p.Y - m.Y) * (p.Y - m.Y) ≤ bwSq))).map
            (fun p => exp (-((p.X - m.X) * (p.X - m.X) + (p.Y - m.Y) * (p.Y - m.Y))
              / (2 * bwSq)) * p.X)).sum,
         acc.2.1 + ((points.filter (fun p => decide
              ((p.X - m.X) * (p.X - m.X) + (p.Y - m.Y) * (p.Y - m.Y) ≤ bwSq))).map
            (fun p => exp (-((p.X - m.X) * (p.X - m.X) + (p.Y - m.Y) * (p.Y - m.Y))
              / (2 * bwSq)) * p.Y)).sum,
         acc.2.2 + ((points.filter (fun p => decide
              ((p.X - m.X) * (p.X - m.X) + (p.Y - m.Y) * (p.Y - m.Y) ≤ bwSq))).map
            (fun p => exp (-((p.X - m.X) * (p.X - m.X) + (p.Y - m.Y) * (p.Y - m.Y))
              / (2 * bwSq)))).sum) := by
  induction points with
  | nil =>
      intro acc
      simp [shiftLoop]
  | cons p rest ih =>
      intro acc
      obtain ⟨sx, sy, tw⟩ := acc
      by_cases h : (p.X - m.X) * (p.X - m.X) + (p.Y - m.Y) * (p.Y - m.Y) ≤ bwSq
      · simp only [shiftLoop, h, if_true, ih, List.filter_cons, decide_True, List.map_cons,
          List.sum_cons]
        refine Prod.ext ?_ (Prod.ext ?_ ?_) <;> simp only <;> ring
      · simp only [shiftLoop, h, if_false, ih, List.filter_cons, decide_False]
        simp

/-- The new position computed in `Step` for a mode `m`: the quotient of the sums left by
the inner loop is the weighted centroid of the points within the bandwidth of `m`. -/
theorem shiftLoop_centroid (exp : F → F) (m : Point F) (bandwidth : F)
    (points : List (Point F)) :
    (⟨(shiftLoop exp m (bandwidth * bandwidth) points (0, 0, 0)).1
        / (shiftLoop exp m (bandwidth * bandwidth) points (0, 0, 0)).2.2,
      (shiftLoop exp m (bandwidth * bandwidth) points (0, 0, 0)).2.1
        / (shiftLoop exp m (bandwidth * bandwidth) points (0, 0, 0)).2.2⟩ : Point F) =
      weightedCentroid exp points bandwidth m := by
  simp only [shiftLoop_eq, weightedCentroid, sq, zero_add]

/-- Each mode after the outer loop of `Step` is either the mode before it or the quotient
of the sums that the inner loop computes from that mode alone. -/
theorem stepLoop_getElem (exp sqrt : F → F) (points : List (Point F)) (bwSq : F)
    (modes : List (Point F)) :
    ∀ (conv : Bool) (i : Nat) (m : Point F), modes[i]? = some m →
      (stepLoop exp sqrt points bwSq modes conv).1[i]? = some m ∨
      (stepLoop exp sqrt points bwSq modes conv).1[i]? = some
        ⟨(shiftLoop exp m bwSq points (0, 0, 0)).1 / (shiftLoop exp m bwSq points (0, 0, 0)).2.2,
         (shiftLoop exp m bwSq points (0, 0, 0)).2.1
           / (shiftLoop exp m bwSq points (0, 0, 0)).2.2⟩ := by
  induction modes with
  | nil =>
      intro conv i m hm
      simp at hm
  | cons cm rest ih =>
      intro conv i m hm
      cases i with
      | zero =>
          simp only [List.getElem?_cons_zero, Option.some.injEq] at hm
          subst hm
          simp only [stepLoop]
          split_ifs
          · right; simp
          · left; simp
          · left; simp
      | succ j =>
          simp only [List.getElem?_cons_succ] at hm
          simp only [stepLoop]
          split_ifs
          · simpa using ih false j m hm
          · simpa using ih conv j m hm
          · simpa using ih conv j m hm

/-- C4: in `MeanShift.Step`, whenever the mode of point `i` is changed, its new position
is the weighted centroid `Σ(w_p·p)/Σw_p` over exactly the dataset points `p` whose squared
distance to the old mode is at most `bandwidth²`, with
`w_p = exp(−distSq/(2·bandwidth²))`; it is a function of the old mode of `i`, the dataset
and the bandwidth only. -/
theorem meanShift_step_moves_to_weighted_centroid (exp sqrt : F → F) (ms : MeanShift F)
    (i : Nat) (m m2 : Point F) (hm : ms.modes[i]? = some m)
    (hm2 : (Step exp sqrt ms).1.modes[i]? = some m2) (hne : m2 ≠ m) :
    m2 = weightedCentroid exp ms.points ms.bandwidth m := by
  rcases stepLoop_getElem exp sqrt ms.points (ms.bandwidth * ms.bandwidth) ms.modes true i m hm
    with h | h
  · simp only [Step] at hm2
    rw [h] at hm2
    exact absurd (Option.some.inj hm2).symm hne
  · simp only [Step] at hm2
    rw [h, shiftLoop_centroid] at hm2
    exact (Option.some.inj hm2).symm

theorem seven_eighths_le_exp : (7 / 8 : ℝ) ≤ Real.exp (-1 / 8) := by
  have := Real.add_one_le_exp (-1 / 8 : ℝ)
  linarith

/-- The first `Step` on the points `(0,0)`, `(1,0)` with bandwidth 2 moves the mode of
point 0 to `(e/(1+e), 0)` with `e = exp(-1/8)`. -/
theorem meanShift_step_example :
    (Step Real.exp Real.sqrt (NewMeanShift [(⟨0, 0⟩ : Point ℝ), ⟨1, 0⟩] 2)).1.modes[0]? =
      some ⟨Real.exp (-1 / 8) / (1 + Real.exp (-1 / 8)), 0⟩ := by
  have he := seven_eighths_le_exp
  have hpos : (0 : ℝ) < 1 + Real.exp (-1 / 8) := by linarith
  have hq : (0 : ℝ) ≤ Real.exp (-1 / 8) / (1 + Real.exp (-1 / 8)) := by positivity
  have hd : (1 / 100 : ℝ) < Real.exp (-1 / 8) / (1 + Real.exp (-1 / 8)) := by
    rw [lt_div_iff₀ hpos]; linarith
  have hacc : shiftLoop Real.exp (⟨0, 0⟩ : Point ℝ) (2 * 2) [⟨0, 0⟩, ⟨1, 0⟩] (0, 0, 0) =
      (Real.exp (-1 / 8), 0, 1 + Real.exp (-1 / 8)) := by
    norm_num [shiftLoop]
  have hdist : distance Real.sqrt
      (⟨Real.exp (-1 / 8) / (1 + Real.exp (-1 / 8)), 0 / (1 + Real.exp (-1 / 8))⟩ : Point ℝ)
      ⟨0, 0⟩ = Real.exp (-1 / 8) / (1 + Real.exp (-1 / 8)) := by
    simp only [distance, sub_zero, zero_div, mul_zero, add_zero]
    exact Real.sqrt_mul_self hq
  simp only [Step, NewMeanShift, stepLoop, hacc, gt_iff_lt, hpos, if_true, hdist, hd,
    List.getElem?_cons_zero]
  simp

theorem meanShift_step_moves_to_weighted_centroid_witness :
    (NewMeanShift [(⟨0, 0⟩ : Point ℝ), ⟨1, 0⟩] 2).modes[0]? = some ⟨0, 0⟩ ∧
    (Step Real.exp Real.sqrt (NewMeanShift [(⟨0, 0⟩ : Point ℝ), ⟨1, 0⟩] 2)).1.modes[0]? =
      some ⟨Real.exp (-1 / 8) / (1 + Real.exp (-1 / 8)), 0⟩ ∧
    (⟨Real.exp (-1 / 8) / (1 + Real.exp (-1 / 8)), 0⟩ : Point ℝ) ≠ ⟨0, 0⟩ ∧
    (⟨Real.exp (-1 / 8) / (1 + Real.exp (-1 / 8)), 0⟩ : Point ℝ) =
      weightedCentroid Real.exp [⟨0, 0⟩, ⟨1, 0⟩] 2 ⟨0, 0⟩ := by
  have hne : (⟨Real.exp (-1 / 8) / (1 + Real.exp (-1 / 8)), 0⟩ : Point ℝ) ≠ ⟨0, 0⟩ := by
    intro h
    have hx := congrArg Point.X h
    simp only at hx
    have he := seven_eighths_le_exp
    have hpos : (0 : ℝ) < 1 + Real.exp (-1 / 8) := by linarith
    rw [div_eq_zero_iff] at hx
    rcases hx with hx | hx <;> linarith
  exact ⟨rfl, meanShift_step_example, hne,
    meanShift_step_moves_to_weighted_centroid Real.exp Real.sqrt
      (NewMeanShift [(⟨0, 0⟩ : Point ℝ), ⟨1, 0⟩] 2) 0 ⟨0, 0⟩ _ rfl meanShift_step_example hne⟩

/-- The inner loop of the merge finds the position of the first representative nearer
than `bandwidth / 2`. -/
theorem findCenter_eq_findIdx (sqrt : F → F) (mode : Point F) (bandwidth : F)
    (centers : List (Point F)) :
    ∀ j : Nat, findCenter sqrt mode bandwidth centers j =
      centers.findIdx? (fun r => decide (distance sqrt mode r < bandwidth / 2)) j := by
  induction centers with
  | nil => intro j; rfl
  | cons c rest ih =>
      intro j
      by_cases h : distance sqrt mode c < bandwidth / 2
      · simp [findCenter, h]
      · simp [findCenter, h, ih]

theorem mergeSpec_length (sqrt : F → F) (bandwidth : F) (modes : List (Point F)) :
    ∀ reps : List (Point F), (mergeSpec sqrt bandwidth modes reps).length = modes.length := by
  induction modes with
  | nil => intro reps; rfl
  | cons m rest ih =>
      intro reps
      simp only [mergeSpec]
      split <;> simp [ih]

/-- The merge loop run for `n` iterations from index `i`, with `clusterID` equal to the
number of representatives: it returns, keeps the length of `labels`, leaves the entries
outside `[i, i + n)` alone and writes into entry `i + t` the `t`-th label of the
specification's merge of the modes from index `i` on. -/
theorem mergeLoop_spec (sqrt : F → F) (modes : List (Point F)) (bandwidth : F) :
    ∀ (n i : Nat) (labels : List Int) (centers : List (Point F)),
      i + n ≤ modes.length → i + n ≤ labels.length →
      ∃ st, mergeLoop sqrt modes bandwidth n i (labels, (centers.length : Int), centers)
          = some st ∧
        st.1.length = labels.length ∧
        (∀ t, t < i ∨ i + n ≤ t → st.1[t]? = labels[t]?) ∧
        (∀ t, t < n →
          st.1[i + t]? = (mergeSpec sqrt bandwidth (modes.drop i) centers)[t]?) := by
  intro n
  induction n with
  | zero =>
      intro i labels centers _ _
      refine ⟨_, rfl, rfl, fun _ _ => rfl, ?_⟩
      intro t ht
      omega
  | succ n ih =>
      intro i labels centers hm hl
      have him : i < modes.length := by omega
      have hil : i < labels.length := by omega
      have hdrop : modes.drop i = modes[i] :: modes.drop (i + 1) :=
        List.drop_eq_getElem_cons him
      cases hfind : findCenter sqrt modes[i] bandwidth centers 0 with
      | some j =>
          obtain ⟨st, hrun, hlen, hout, hin⟩ :=
            ih (i + 1) (labels.set i (j : Int)) centers (by omega)
              (by simp only [List.length_set]; omega)
          refine ⟨st, ?_, by simpa using hlen, ?_, ?_⟩
          · simp only [mergeLoop, List.getElem?_eq_getElem him, hfind, hrun]
          · intro t ht
            rw [hout t (by omega), List.getElem?_set_ne (by omega)]
          · intro t ht
            rw [hdrop]
            simp only [mergeSpec, ← findCenter_eq_findIdx, hfind]
            cases t with
            | zero =>
                rw [Nat.add_zero, hout i (by omega), List.getElem?_set_self hil]
                simp
            | succ t2 =>
                have e : i + (t2 + 1) = i + 1 + t2 := by omega
                rw [e, hin t2 (by omega)]
                simp
      | none =>
          have hcast : ((centers.length : Int) + 1) = ((centers ++ [modes[i]]).length : Int) := by
            simp
          obtain ⟨st, hrun, hlen, hout, hin⟩ :=
            ih (i + 1) (labels.set i (centers.length : Int)) (centers ++ [modes[i]]) (by omega)
              (by simp only [List.length_set]; omega)
          refine ⟨st, ?_, by simpa using hlen, ?_, ?_⟩
          · simp only [mergeLoop, List.getElem?_eq_getElem him, hfind, hcast, hrun]
          · intro t ht
            rw [hout t (by omega), List.getElem?_set_ne (by omega)]
          · intro t ht
            rw [hdrop]
            simp only [mergeSpec, ← findCenter_eq_findIdx, hfind]
            cases t with
            | zero =>
                rw [Nat.add_zero, hout i (by omega), List.getElem?_set_self hil]
                simp
            | succ t2 =>
                have e : i + (t2 + 1) = i + 1 + t2 := by omega
                rw [e, hin t2 (by omega)]
                simp

/-- The interpolation loop returns when `points` and `modes` cover the indices of
`currentModes`. -/
theorem animLoop_some (points modes : List (Point F)) (progress : F) (cm : List (Point F)) :
    ∀ i : Nat, i + cm.length ≤ points.length → i + cm.length ≤ modes.length →
      ∃ r, animLoop points modes progress cm i = some r := by
  induction cm with
  | nil => intro i _ _; exact ⟨[], rfl⟩
  | cons c rest ih =>
      intro i hp hm
      simp only [List.length_cons] at hp hm
      obtain ⟨r, hr⟩ := ih (i + 1) (by omega) (by omega)
      have hip : i < points.length := by omega
      have him : i < modes.length := by omega
      exact ⟨⟨points[i].X + (modes[i].X - points[i].X) * progress,
          points[i].Y + (modes[i].Y - points[i].Y) * progress⟩ :: r,
        by simp only [animLoop, List.getElem?_eq_getElem hip,
          List.getElem?_eq_getElem him, hr]⟩

/-- C5: when `ms.converged` is true (and the four slices have the same length, as
`NewMeanShift` makes them), `UpdateAnimation` returns and the labels it leaves are those
of the ordered merge: point `i` gets the id of the first representative, in creation
order, whose distance to `modes[i]` is strictly less than `bandwidth/2`; if there is none,
`modes[i]` becomes a new representative and point `i` gets the next unused id, the ids
starting at 0 and growing by 1. -/
theorem updateAnimation_merge_labels (sqrt : F → F) (ms : MeanShift F) (progress : F)
    (hconv : ms.converged = true) (hmodes : ms.modes.length = ms.points.length)
    (hcur : ms.currentModes.length = ms.points.length)
    (hlab : ms.labels.length = ms.points.length) :
    ∃ ms2, UpdateAnimation sqrt ms progress = some ms2 ∧
      ms2.labels = mergeSpec sqrt ms.bandwidth ms.modes [] := by
  obtain ⟨cm, hcm⟩ := animLoop_some ms.points ms.modes progress ms.currentModes 0
    (by omega) (by omega)
  obtain ⟨st, hrun, hlen, _, hin⟩ :=
    mergeLoop_spec sqrt ms.modes ms.bandwidth ms.labels.length 0 ms.labels []
      (by omega) (by omega)
  simp only [List.length_nil, Nat.cast_zero] at hrun
  refine ⟨{ ms with currentModes := cm, labels := st.1 },
    by simp only [UpdateAnimation, hcm, hconv, if_true, hrun], ?_⟩
  simp only
  apply List.ext_getElem?
  intro t
  by_cases ht : t < ms.labels.length
  · have := hin t ht
    simpa using this
  · rw [List.getElem?_eq_none (by omega),
      List.getElem?_eq_none (by rw [mergeSpec_length]; omega)]

theorem updateAnimation_merge_labels_witness :
    ∃ ms2, UpdateAnimation Real.sqrt
        { NewMeanShift [(⟨0, 0⟩ : Point ℝ), ⟨1, 0⟩, ⟨9, 0⟩] 2 with converged := true } (1 / 2)
          = some ms2 ∧
      ms2.labels = mergeSpec Real.sqrt 2 [(⟨0, 0⟩ : Point ℝ), ⟨1, 0⟩, ⟨9, 0⟩] [] :=
  updateAnimation_merge_labels Real.sqrt
    { NewMeanShift [(⟨0, 0⟩ : Point ℝ), ⟨1, 0⟩, ⟨9, 0⟩] 2 with converged := true } (1 / 2)
    rfl rfl rfl rfl

/-- The sums left by the inner loop are all zero when no dataset point is within the
bandwidth of the mode. -/
theorem shiftLoop_of_no_near (exp : F → F) (m : Point F) (bandwidth : F)
    (points : List (Point F))
    (hfar : ∀ p ∈ points, ¬ ((p.X - m.X) ^ 2 + (p.Y - m.Y) ^ 2 ≤ bandwidth ^ 2)) :
    shiftLoop exp m (bandwidth * bandwidth) points (0, 0, 0) = (0, 0, 0) := by
  have hnil : points.filter (fun p => decide
      ((p.X - m.X) * (p.X - m.X) + (p.Y - m.Y) * (p.Y - m.Y) ≤ bandwidth * bandwidth)) = [] := by
    rw [List.filter_eq_nil_iff]
    intro p hp
    have := hfar p hp
    simp only [sq] at this
    simpa using this
  rw [shiftLoop_eq, hnil]
  simp

/-- With a positive kernel the total weight is positive exactly when some dataset point is
within the bandwidth of the mode. -/
theorem totalWeight_pos_iff (exp : F → F) (hexp : ∀ x, 0 < exp x) (m : Point F)
    (bandwidth : F) (points : List (Point F)) :
    (shiftLoop exp m (bandwidth * bandwidth) points (0, 0, 0)).2.2 > 0 ↔
      ∃ p ∈ points, (p.X - m.X) ^ 2 + (p.Y - m.Y) ^ 2 ≤ bandwidth ^ 2 := by
  constructor
  · intro hpos
    by_contra hcon
    push_neg at hcon
    have hzero := shiftLoop_of_no_near exp m bandwidth points
      (fun p hp => not_le.mpr (hcon p hp))
    rw [hzero] at hpos
    exact absurd hpos (lt_irrefl _)
  · rintro ⟨p, hp, hnear⟩
    rw [shiftLoop_eq]
    simp only [zero_add, gt_iff_lt]
    have hmem : p ∈ points.filter (fun p => decide
        ((p.X - m.X) * (p.X - m.X) + (p.Y - m.Y) * (p.Y - m.Y) ≤ bandwidth * bandwidth)) := by
      rw [List.mem_filter]
      refine ⟨hp, ?_⟩
      simp only [sq] at hnear
      simpa using hnear
    have hgen : ∀ l : List (Point F), (∃ q, q ∈ l) →
        0 < (l.map (fun p => exp (-((p.X - m.X) * (p.X - m.X) + (p.Y - m.Y) * (p.Y - m.Y))
          / (2 * (bandwidth * bandwidth))))).sum := by
      intro l
      induction l with
      | nil => rintro ⟨q, hq⟩; simp at hq
      | cons a rest ih =>
          intro _
          simp only [List.map_cons, List.sum_cons]
          have hrest : 0 ≤ (rest.map (fun p => exp (-((p.X - m.X) * (p.X - m.X)
              + (p.Y - m.Y) * (p.Y - m.Y)) / (2 * (bandwidth * bandwidth))))).sum := by
            cases rest with
            | nil => simp
            | cons b r2 => exact (ih ⟨b, List.mem_cons_self b r2⟩).le
          linarith [hexp (-((a.X - m.X) * (a.X - m.X) + (a.Y - m.Y) * (a.Y - m.Y))
            / (2 * (bandwidth * bandwidth)))]
    exact hgen _ ⟨p, hmem⟩

/-- The flag returned by the outer loop of `Step`: it is `true` exactly when it was `true`
on entry and no mode had a positive total weight together with a displacement above
0.01. -/
theorem stepLoop_flag (exp sqrt : F → F) (points : List (Point F)) (bwSq : F)
    (modes : List (Point F)) :
    ∀ conv : Bool, (stepLoop exp sqrt points bwSq modes conv).2 = true ↔
      conv = true ∧ ∀ m ∈ modes,
        ¬ ((shiftLoop exp m bwSq points (0, 0, 0)).2.2 > 0 ∧
          distance sqrt
            ⟨(shiftLoop exp m bwSq points (0, 0, 0)).1
                / (shiftLoop exp m bwSq points (0, 0, 0)).2.2,
             (shiftLoop exp m bwSq points (0, 0, 0)).2.1
                / (shiftLoop exp m bwSq points (0, 0, 0)).2.2⟩ m > 1 / 100) := by
  induction modes with
  | nil =>
      intro conv
      simp [stepLoop]
  | cons cm rest ih =>
      intro conv
      simp only [stepLoop, List.mem_cons, forall_eq_or_imp]
      split_ifs with h1 h2
      · simp only [ih false]
        constructor
        · rintro ⟨hf, _⟩
          exact absurd hf (by simp)
        · rintro ⟨_, hno, _⟩
          exact absurd ⟨h1, h2⟩ hno
      · simp only [ih conv]
        constructor
        · rintro ⟨hc, hall⟩
          exact ⟨hc, fun hboth => h2 hboth.2, hall⟩
        · rintro ⟨hc, _, hall⟩
          exact ⟨hc, hall⟩
      · simp only [ih conv]
        constructor
        · rintro ⟨hc, hall⟩
          exact ⟨hc, fun hboth => h1 hboth.1, hall⟩
        · rintro ⟨hc, _, hall⟩
          exact ⟨hc, hall⟩

/-- Each mode after the outer loop of `Step`: the quotient of the sums when the total
weight is positive and the displacement is above 0.01, the old mode otherwise. -/
theorem stepLoop_getElem_exact (exp sqrt : F → F) (points : List (Point F)) (bwSq : F)
    (modes : List (Point F)) :
    ∀ (conv : Bool) (i : Nat) (m : Point F), modes[i]? = some m →
      (stepLoop exp sqrt points bwSq modes conv).1[i]? = some
        (if (shiftLoop exp m bwSq points (0, 0, 0)).2.2 > 0 ∧
            distance sqrt
              ⟨(shiftLoop exp m bwSq points (0, 0, 0)).1
                  / (shiftLoop exp m bwSq points (0, 0, 0)).2.2,
               (shiftLoop exp m bwSq points (0, 0, 0)).2.1
                  / (shiftLoop exp m bwSq points (0, 0, 0)).2.2⟩ m > 1 / 100
          then ⟨(shiftLoop exp m bwSq points (0, 0, 0)).1
                  / (shiftLoop exp m bwSq points (0, 0, 0)).2.2,
               (shiftLoop exp m bwSq points (0, 0, 0)).2.1
                  / (shiftLoop exp m bwSq points (0, 0, 0)).2.2⟩
          else m) := by
  induction modes with
  | nil =>
      intro conv i m hm
      simp at hm
  | cons cm rest ih =>
      intro conv i m hm
      cases i with
      | zero =>
          simp only [List.getElem?_cons_zero, Option.some.injEq] at hm
          subst hm
          simp only [stepLoop]
          split_ifs with h1 h2 h3 h4 h5
          · simp
          · exact absurd ⟨h1, h2⟩ h3
          · exact absurd h4.2 h2
          · simp
          · exact absurd h5.1 h1
          · simp
      | succ j =>
          simp only [List.getElem?_cons_succ] at hm
          have hA := ih false j m hm
          have hB := ih conv j m hm
          simp only [stepLoop]
          by_cases h1 : (shiftLoop exp cm bwSq points (0, 0, 0)).2.2 > 0
          · by_cases h2 : distance sqrt
                ⟨(shiftLoop exp cm bwSq points (0, 0, 0)).1
                    / (shiftLoop exp cm bwSq points (0, 0, 0)).2.2,
                 (shiftLoop exp cm bwSq points (0, 0, 0)).2.1
                    / (shiftLoop exp cm bwSq points (0, 0, 0)).2.2⟩ cm > 1 / 100
            · rw [if_pos h1, if_pos h2]
              simpa only [List.getElem?_cons_succ] using hA
            · rw [if_pos h1, if_neg h2]
              simpa only [List.getElem?_cons_succ] using hB
          · rw [if_neg h1]
            simpa only [List.getElem?_cons_succ] using hB

/-- A mode with zero total weight passes the flag through: the outer loop reports what it
reports on the other modes alone. -/
theorem stepLoop_flag_eraseIdx (exp sqrt : F → F) (points : List (Point F)) (bwSq : F)
    (modes : List (Point F)) :
    ∀ (conv : Bool) (i : Nat) (m : Point F), modes[i]? = some m →
      (shiftLoop exp m bwSq points (0, 0, 0)).2.2 = 0 →
      (stepLoop exp sqrt points bwSq modes conv).2 =
        (stepLoop exp sqrt points bwSq (modes.eraseIdx i) conv).2 := by
  induction modes with
  | nil =>
      intro conv i m hm
      simp at hm
  | cons cm rest ih =>
      intro conv i m hm hz
      cases i with
      | zero =>
          simp only [List.getElem?_cons_zero, Option.some.injEq] at hm
          subst hm
          have hnot : ¬ (shiftLoop exp cm bwSq points (0, 0, 0)).2.2 > 0 := by
            rw [hz]; exact lt_irrefl _
          simp only [stepLoop, hnot, if_false, List.eraseIdx_cons_zero]
      | succ j =>
          simp only [List.getElem?_cons_succ] at hm
          simp only [stepLoop, List.eraseIdx_cons_succ]
          split_ifs
          · exact ih false j m hm hz
          · exact ih conv j m hm hz
          · exact ih conv j m hm hz

/-- The divisions by `totalWeight` in `Step` never have a zero divisor: the checked loop
always returns what the loop returns. -/
theorem stepLoopChecked_eq (exp sqrt : F → F) (points : List (Point F)) (bwSq : F)
    (modes : List (Point F)) :
    ∀ conv : Bool, stepLoopChecked exp sqrt points bwSq modes conv =
      some (stepLoop exp sqrt points bwSq modes conv) := by
  induction modes with
  | nil => intro conv; rfl
  | cons cm rest ih =>
      intro conv
      by_cases h1 : (shiftLoop exp cm bwSq points (0, 0, 0)).2.2 > 0
      · have hne : (shiftLoop exp cm bwSq points (0, 0, 0)).2.2 ≠ 0 := ne_of_gt h1
        by_cases h3 : distance sqrt
            ⟨(shiftLoop exp cm bwSq points (0, 0, 0)).1
                / (shiftLoop exp cm bwSq points (0, 0, 0)).2.2,
             (shiftLoop exp cm bwSq points (0, 0, 0)).2.1
                / (shiftLoop exp cm bwSq points (0, 0, 0)).2.2⟩ cm > 1 / 100
        · simp only [stepLoopChecked, stepLoop, checkedDiv, if_pos h1, if_neg hne, if_pos h3,
            ih, Option.map_some']
        · simp only [stepLoopChecked, stepLoop, checkedDiv, if_pos h1, if_neg hne, if_neg h3,
            ih, Option.map_some']
      · simp only [stepLoopChecked, stepLoop, if_neg h1, ih, Option.map_some']

/-- C15: for a positive kernel `exp` and `bandwidth > 0`, `MeanShift.Step` returns
`converged = true` if and only if, for every point `i` that has at least one dataset point
within `bandwidth` of its mode, the Euclidean distance between the weighted centroid
computed for it and its mode is `≤ 0.01`. -/
theorem meanShift_step_converged_iff (exp sqrt : F → F) (hexp : ∀ x, 0 < exp x)
    (ms : MeanShift F) (_hbw : 0 < ms.bandwidth) :
    (Step exp sqrt ms).2 = true ↔
      ∀ (i : Nat) (m : Point F), ms.modes[i]? = some m →
        (∃ p ∈ ms.points, (p.X - m.X) ^ 2 + (p.Y - m.Y) ^ 2 ≤ ms.bandwidth ^ 2) →
        distance sqrt (weightedCentroid exp ms.points ms.bandwidth m) m ≤ 1 / 100 := by
  simp only [Step]
  rw [stepLoop_flag]
  constructor
  · rintro ⟨_, hall⟩ i m hm hnear
    have hno := hall m (List.getElem?_mem hm)
    rw [shiftLoop_centroid] at hno
    have htw := (totalWeight_pos_iff exp hexp m ms.bandwidth ms.points).mpr hnear
    by_contra hcon
    exact hno ⟨htw, not_le.mp hcon⟩
  · intro hall
    refine ⟨rfl, ?_⟩
    intro m hmem
    obtain ⟨i, hi⟩ := List.mem_iff_getElem?.mp hmem
    rintro ⟨htw, hd⟩
    rw [shiftLoop_centroid] at hd
    have hnear := (totalWeight_pos_iff exp hexp m ms.bandwidth ms.points).mp htw
    exact absurd (hall i m hi hnear) (not_le.mpr hd)

theorem meanShift_step_converged_iff_witness :
    (∀ x : ℝ, 0 < Real.exp x) ∧ (0 : ℝ) < (NewMeanShift [(⟨0, 0⟩ : Point ℝ), ⟨1, 0⟩] 2).bandwidth ∧
    ((Step Real.exp Real.sqrt (NewMeanShift [(⟨0, 0⟩ : Point ℝ), ⟨1, 0⟩] 2)).2 = true ↔
      ∀ (i : Nat) (m : Point ℝ),
        (NewMeanShift [(⟨0, 0⟩ : Point ℝ), ⟨1, 0⟩] 2).modes[i]? = some m →
        (∃ p ∈ (NewMeanShift [(⟨0, 0⟩ : Point ℝ), ⟨1, 0⟩] 2).points,
          (p.X - m.X) ^ 2 + (p.Y - m.Y) ^ 2
            ≤ (NewMeanShift [(⟨0, 0⟩ : Point ℝ), ⟨1, 0⟩] 2).bandwidth ^ 2) →
        distance Real.sqrt
          (weightedCentroid Real.exp (NewMeanShift [(⟨0, 0⟩ : Point ℝ), ⟨1, 0⟩] 2).points
            (NewMeanShift [(⟨0, 0⟩ : Point ℝ), ⟨1, 0⟩] 2).bandwidth m) m ≤ 1 / 100) :=
  ⟨Real.exp_pos, by norm_num [NewMeanShift],
   meanShift_step_converged_iff Real.exp Real.sqrt Real.exp_pos
     (NewMeanShift [(⟨0, 0⟩ : Point ℝ), ⟨1, 0⟩] 2) (by norm_num [NewMeanShift])⟩

/-- C16 fails as stated: on the points `(0,0)`, `(1,0)`, `(100,0)`, `(100.01,0)` with
bandwidth 2 the first `Step` returns `converged = false` (the mode of point 0 moves by more
than 0.01), the mode `(100,0)` of point 2 has dataset points within the bandwidth and its
weighted centroid is another position, and yet the mode of point 2 is still `(100,0)`
after the step. -/
theorem meanShift_step_keeps_small_moves :
    (Step Real.exp Real.sqrt (NewMeanShift [(⟨0, 0⟩ : Point ℝ), ⟨1, 0⟩, ⟨100, 0⟩, ⟨10001 / 100, 0⟩] 2)).2 = false ∧
    (∃ p ∈ [(⟨0, 0⟩ : Point ℝ), ⟨1, 0⟩, ⟨100, 0⟩, ⟨10001 / 100, 0⟩], (p.X - 100) ^ 2 + (p.Y - 0) ^ 2 ≤ (2 : ℝ) ^ 2) ∧
    (NewMeanShift [(⟨0, 0⟩ : Point ℝ), ⟨1, 0⟩, ⟨100, 0⟩, ⟨10001 / 100, 0⟩] 2).modes[2]? = some ⟨100, 0⟩ ∧
    (Step Real.exp Real.sqrt (NewMeanShift [(⟨0, 0⟩ : Point ℝ), ⟨1, 0⟩, ⟨100, 0⟩, ⟨10001 / 100, 0⟩] 2)).1.modes[2]? = some ⟨100, 0⟩ ∧
    weightedCentroid Real.exp [(⟨0, 0⟩ : Point ℝ), ⟨1, 0⟩, ⟨100, 0⟩, ⟨10001 / 100, 0⟩] 2 ⟨100, 0⟩ ≠ ⟨100, 0⟩ := by
  have he1 := seven_eighths_le_exp
  have he2 : 0 < Real.exp (-1 / 80000) := Real.exp_pos _
  have hacc0 : shiftLoop Real.exp (⟨0, 0⟩ : Point ℝ) (2 * 2) [(⟨0, 0⟩ : Point ℝ), ⟨1, 0⟩, ⟨100, 0⟩, ⟨10001 / 100, 0⟩] (0, 0, 0) =
      (Real.exp (-1 / 8), 0, 1 + Real.exp (-1 / 8)) := by
    norm_num [shiftLoop]
  have hacc2 : shiftLoop Real.exp (⟨100, 0⟩ : Point ℝ) (2 * 2) [(⟨0, 0⟩ : Point ℝ), ⟨1, 0⟩, ⟨100, 0⟩, ⟨10001 / 100, 0⟩] (0, 0, 0) =
      (100 + 10001 / 100 * Real.exp (-1 / 80000), 0, 1 + Real.exp (-1 / 80000)) := by
    norm_num [shiftLoop]
  have hpos1 : (0 : ℝ) < 1 + Real.exp (-1 / 8) := by linarith
  have hpos2 : (0 : ℝ) < 1 + Real.exp (-1 / 80000) := by linarith
  have hshift : (100 + 10001 / 100 * Real.exp (-1 / 80000)) / (1 + Real.exp (-1 / 80000))
      - 100 = 1 / 100 * (Real.exp (-1 / 80000) / (1 + Real.exp (-1 / 80000))) := by
    field_simp
    ring
  have hfrac_pos : 0 < Real.exp (-1 / 80000) / (1 + Real.exp (-1 / 80000)) :=
    div_pos he2 hpos2
  have hfrac_le : Real.exp (-1 / 80000) / (1 + Real.exp (-1 / 80000)) ≤ 1 := by
    rw [div_le_one hpos2]; linarith
  refine ⟨?_, ⟨⟨100, 0⟩, by simp, by norm_num⟩, rfl, ?_, ?_⟩
  · rw [Bool.eq_false_iff]
    intro htrue
    simp only [Step, NewMeanShift] at htrue
    obtain ⟨_, hall⟩ := (stepLoop_flag Real.exp Real.sqrt [(⟨0, 0⟩ : Point ℝ), ⟨1, 0⟩, ⟨100, 0⟩, ⟨10001 / 100, 0⟩] (2 * 2) [(⟨0, 0⟩ : Point ℝ), ⟨1, 0⟩, ⟨100, 0⟩, ⟨10001 / 100, 0⟩] true).mp htrue
    apply hall ⟨0, 0⟩ (by simp)
    rw [hacc0]
    refine ⟨hpos1, ?_⟩
    have hq : (0 : ℝ) ≤ Real.exp (-1 / 8) / (1 + Real.exp (-1 / 8)) := by positivity
    have hd : (1 / 100 : ℝ) < Real.exp (-1 / 8) / (1 + Real.exp (-1 / 8)) := by
      rw [lt_div_iff₀ hpos1]; linarith
    simp only [distance, sub_zero, zero_div, mul_zero, add_zero, gt_iff_lt]
    rw [Real.sqrt_mul_self hq]
    exact hd
  · have hget := stepLoop_getElem_exact Real.exp Real.sqrt [(⟨0, 0⟩ : Point ℝ), ⟨1, 0⟩, ⟨100, 0⟩, ⟨10001 / 100, 0⟩] (2 * 2) [(⟨0, 0⟩ : Point ℝ), ⟨1, 0⟩, ⟨100, 0⟩, ⟨10001 / 100, 0⟩] true 2 ⟨100, 0⟩ rfl
    rw [hacc2] at hget
    have hsmall : ¬ ((1 + Real.exp (-1 / 80000) > 0) ∧
        distance Real.sqrt
          (⟨(100 + 10001 / 100 * Real.exp (-1 / 80000)) / (1 + Real.exp (-1 / 80000)),
            0 / (1 + Real.exp (-1 / 80000))⟩ : Point ℝ) ⟨100, 0⟩ > 1 / 100) := by
      rintro ⟨_, hgt⟩
      simp only [distance, sub_zero, zero_div, mul_zero, add_zero, gt_iff_lt] at hgt
      rw [hshift, Real.sqrt_mul_self (by positivity)] at hgt
      nlinarith
    simp only at hget
    rw [if_neg hsmall] at hget
    simpa only [Step, NewMeanShift] using hget
  · rw [← shiftLoop_centroid, hacc2]
    intro heq
    have hx := congrArg Point.X heq
    simp only at hx
    have : (100 + 10001 / 100 * Real.exp (-1 / 80000)) / (1 + Real.exp (-1 / 80000))
        - 100 = 0 := by rw [hx]; ring
    rw [hshift] at this
    nlinarith

/-- C16, amended: for a positive kernel `exp` and `bandwidth > 0`, in every call of
`MeanShift.Step`, whatever it returns, a mode that has at least one dataset point within
`bandwidth` is replaced by its weighted centroid when its displacement is above 0.01, and
is left where it is when its displacement is `≤ 0.01`. -/
theorem meanShift_step_replaces_iff_large_move (exp sqrt : F → F) (hexp : ∀ x, 0 < exp x)
    (ms : MeanShift F) (_hbw : 0 < ms.bandwidth) (i : Nat) (m : Point F)
    (hm : ms.modes[i]? = some m)
    (hnear : ∃ p ∈ ms.points, (p.X - m.X) ^ 2 + (p.Y - m.Y) ^ 2 ≤ ms.bandwidth ^ 2) :
    (Step exp sqrt ms).1.modes[i]? = some
      (if distance sqrt (weightedCentroid exp ms.points ms.bandwidth m) m > 1 / 100
        then weightedCentroid exp ms.points ms.bandwidth m else m) := by
  have hget := stepLoop_getElem_exact exp sqrt ms.points (ms.bandwidth * ms.bandwidth)
    ms.modes true i m hm
  have htw := (totalWeight_pos_iff exp hexp m ms.bandwidth ms.points).mpr hnear
  rw [shiftLoop_centroid] at hget
  simp only [Step]
  rw [hget]
  by_cases hd : distance sqrt (weightedCentroid exp ms.points ms.bandwidth m) m > 1 / 100
  · rw [if_pos ⟨htw, hd⟩, if_pos hd]
  · rw [if_neg (fun h => hd h.2), if_neg hd]

theorem meanShift_step_replaces_iff_large_move_witness :
    (0 : ℝ) < (NewMeanShift [(⟨0, 0⟩ : Point ℝ), ⟨1, 0⟩] 2).bandwidth ∧
    (∃ p ∈ (NewMeanShift [(⟨0, 0⟩ : Point ℝ), ⟨1, 0⟩] 2).points,
      (p.X - 0) ^ 2 + (p.Y - 0) ^ 2
        ≤ (NewMeanShift [(⟨0, 0⟩ : Point ℝ), ⟨1, 0⟩] 2).bandwidth ^ 2) ∧
    (Step Real.exp Real.sqrt (NewMeanShift [(⟨0, 0⟩ : Point ℝ), ⟨1, 0⟩] 2)).1.modes[0]? = some
      (if distance Real.sqrt
            (weightedCentroid Real.exp (NewMeanShift [(⟨0, 0⟩ : Point ℝ), ⟨1, 0⟩] 2).points
              (NewMeanShift [(⟨0, 0⟩ : Point ℝ), ⟨1, 0⟩] 2).bandwidth ⟨0, 0⟩) ⟨0, 0⟩ > 1 / 100
        then weightedCentroid Real.exp (NewMeanShift [(⟨0, 0⟩ : Point ℝ), ⟨1, 0⟩] 2).points
          (NewMeanShift [(⟨0, 0⟩ : Point ℝ), ⟨1, 0⟩] 2).bandwidth ⟨0, 0⟩
        else ⟨0, 0⟩) :=
  ⟨by norm_num [NewMeanShift], ⟨⟨0, 0⟩, by simp [NewMeanShift], by norm_num [NewMeanShift]⟩,
   meanShift_step_replaces_iff_large_move Real.exp Real.sqrt Real.exp_pos
     (NewMeanShift [(⟨0, 0⟩ : Point ℝ), ⟨1, 0⟩] 2) (by norm_num [NewMeanShift]) 0 ⟨0, 0⟩ rfl
     ⟨⟨0, 0⟩, by simp [NewMeanShift], by norm_num [NewMeanShift]⟩⟩

/-- C17: in `MeanShift.Step`, if no dataset point lies within `bandwidth` of the mode of
point `i`, then the total weight computed for it is 0, that mode is left unchanged, `Step`
reports the flag it would report on the other modes alone, and no division of the step has
a zero divisor (the loop with checked divisions returns the same result). -/
theorem meanShift_step_zero_weight (exp sqrt : F → F) (ms : MeanShift F) (i : Nat)
    (m : Point F) (hm : ms.modes[i]? = some m)
    (hfar : ∀ p ∈ ms.points, ¬ ((p.X - m.X) ^ 2 + (p.Y - m.Y) ^ 2 ≤ ms.bandwidth ^ 2)) :
    (shiftLoop exp m (ms.bandwidth * ms.bandwidth) ms.points (0, 0, 0)).2.2 = 0 ∧
    (Step exp sqrt ms).1.modes[i]? = some m ∧
    (Step exp sqrt ms).2 = (Step exp sqrt { ms with modes := ms.modes.eraseIdx i }).2 ∧
    stepLoopChecked exp sqrt ms.points (ms.bandwidth * ms.bandwidth) ms.modes true =
      some (stepLoop exp sqrt ms.points (ms.bandwidth * ms.bandwidth) ms.modes true) := by
  have hzero := shiftLoop_of_no_near exp m ms.bandwidth ms.points hfar
  have htw : (shiftLoop exp m (ms.bandwidth * ms.bandwidth) ms.points (0, 0, 0)).2.2 = 0 := by
    rw [hzero]
  refine ⟨htw, ?_, ?_, stepLoopChecked_eq exp sqrt ms.points _ ms.modes true⟩
  · have hget := stepLoop_getElem_exact exp sqrt ms.points (ms.bandwidth * ms.bandwidth)
      ms.modes true i m hm
    rw [if_neg (fun h => absurd h.1 (by rw [htw]; exact lt_irrefl _))] at hget
    simpa only [Step] using hget
  · simp only [Step]
    exact stepLoop_flag_eraseIdx exp sqrt ms.points _ ms.modes true i m hm htw

theorem meanShift_step_zero_weight_witness :
    ({ NewMeanShift [(⟨0, 0⟩ : Point ℝ)] 2 with modes := [⟨10, 0⟩] } : MeanShift ℝ).modes[0]?
      = some ⟨10, 0⟩ ∧
    (Step Real.exp Real.sqrt
      { NewMeanShift [(⟨0, 0⟩ : Point ℝ)] 2 with modes := [⟨10, 0⟩] }).1.modes[0]?
      = some ⟨10, 0⟩ :=
  ⟨rfl,
   (meanShift_step_zero_weight Real.exp Real.sqrt
      { NewMeanShift [(⟨0, 0⟩ : Point ℝ)] 2 with modes := [⟨10, 0⟩] } 0 ⟨10, 0⟩ rfl
      (by
        intro p hp
        simp only [NewMeanShift, List.mem_singleton] at hp
        subst hp
        norm_num [NewMeanShift])).2.1⟩

end MeanShiftThms

/-! ## Theorems: the gradients as derivatives, and the unclamped loss -/

section Calculus

open Main4

/-- Differentiating a sum over a list term by term. -/
theorem hasDerivAt_list_sum {α : Type} (l : List α) (f : α → ℝ → ℝ) (f' : α → ℝ) (t : ℝ)
    (h : ∀ s ∈ l, HasDerivAt (f s) (f' s) t) :
    HasDerivAt (fun r => (l.map (fun s => f s r)).sum) ((l.map f').sum) t := by
  induction l with
  | nil => simpa using hasDerivAt_const t (0 : ℝ)
  | cons a rest ih =>
      have ha := h a (List.mem_cons_self a rest)
      have hrest := ih (fun s hs => h s (List.mem_cons_of_mem a hs))
      simpa only [List.map_cons, List.sum_cons] using ha.add hrest

/-- Derivative of `ln p` for `p = 1/(1+e^{-u})`: `(1 − p)·u'`. -/
theorem hasDerivAt_log_sigmoid (u : ℝ → ℝ) (u' t : ℝ) (hu : HasDerivAt u u' t) :
    HasDerivAt (fun r => Real.log (1 / (1 + Real.exp (-(u r)))))
      ((1 - 1 / (1 + Real.exp (-(u t)))) * u') t := by
  have hpos : 0 < 1 + Real.exp (-(u t)) := by positivity
  have h1 : HasDerivAt (fun r => Real.exp (-(u r))) (Real.exp (-(u t)) * (-u')) t :=
    hu.neg.exp
  have h2 : HasDerivAt (fun r => 1 + Real.exp (-(u r))) (Real.exp (-(u t)) * (-u')) t :=
    h1.const_add 1
  have h3 : HasDerivAt (fun r => 1 / (1 + Real.exp (-(u r))))
      (-(Real.exp (-(u t)) * (-u')) / (1 + Real.exp (-(u t))) ^ 2) t := by
    simpa only [one_div] using h2.inv hpos.ne'
  have hne : (1 : ℝ) / (1 + Real.exp (-(u t))) ≠ 0 := by positivity
  have h4 := h3.log hne
  convert h4 using 1
  field_simp
  ring

/-- Derivative of `ln(1 − p)` for `p = 1/(1+e^{-u})`: `−p·u'`. -/
theorem hasDerivAt_log_one_sub_sigmoid (u : ℝ → ℝ) (u' t : ℝ) (hu : HasDerivAt u u' t) :
    HasDerivAt (fun r => Real.log (1 - 1 / (1 + Real.exp (-(u r)))))
      (-(1 / (1 + Real.exp (-(u t)))) * u') t := by
  have hpos : 0 < 1 + Real.exp (-(u t)) := by positivity
  have hexp : 0 < Real.exp (-(u t)) := Real.exp_pos _
  have h1 : HasDerivAt (fun r => Real.exp (-(u r))) (Real.exp (-(u t)) * (-u')) t :=
    hu.neg.exp
  have h2 : HasDerivAt (fun r => 1 + Real.exp (-(u r))) (Real.exp (-(u t)) * (-u')) t :=
    h1.const_add 1
  have h3 : HasDerivAt (fun r => 1 / (1 + Real.exp (-(u r))))
      (-(Real.exp (-(u t)) * (-u')) / (1 + Real.exp (-(u t))) ^ 2) t := by
    simpa only [one_div] using h2.inv hpos.ne'
  have h5 : HasDerivAt (fun r => 1 - 1 / (1 + Real.exp (-(u r))))
      (-(-(Real.exp (-(u t)) * (-u')) / (1 + Real.exp (-(u t))) ^ 2)) t :=
    h3.const_sub 1
  have hval : (1 : ℝ) - 1 / (1 + Real.exp (-(u t))) =
      Real.exp (-(u t)) / (1 + Real.exp (-(u t))) := by
    field_simp
  have hne : (1 : ℝ) - 1 / (1 + Real.exp (-(u t))) ≠ 0 := by
    rw [hval]; positivity
  have h6 := h5.log hne
  convert h6 using 1
  rw [hval]
  field_simp
  ring

/-- Derivative of one sample's negated log-likelihood: `(p − label)·u'`. -/
theorem hasDerivAt_neg_sample_loss (l : ℝ) (u : ℝ → ℝ) (u' t : ℝ) (hu : HasDerivAt u u' t) :
    HasDerivAt
      (fun r => -(l * Real.log (1 / (1 + Real.exp (-(u r))))
        + (1 - l) * Real.log (1 - 1 / (1 + Real.exp (-(u r))))))
      ((1 / (1 + Real.exp (-(u t))) - l) * u') t := by
  have hA := (hasDerivAt_log_sigmoid u u' t hu).const_mul l
  have hB := (hasDerivAt_log_one_sub_sigmoid u u' t hu).const_mul (1 - l)
  have h := (hA.add hB).neg
  convert h using 1
  ring

/-- The loss loop without any assumption on the labels: it subtracts `ln p` for a label 1
and `ln(1 − p)` for every other label, on the prediction as `logistic` returns it. -/
theorem lossLoop_eq_branches (exp log : ℝ → ℝ) (xData yData : List ℝ) (a b c : ℝ)
    (ys : List Int) :
    ∀ (i : Nat) (acc : ℝ), i + ys.length ≤ xData.length → i + ys.length ≤ yData.length →
      lossLoop exp log xData yData a b c ys i acc =
        some (acc + ((samples ys (xData.drop i) (yData.drop i)).map
          (fun s => if s.1 = 1 then -log (logistic exp a b c s.2.1 s.2.2)
            else -log (1 - logistic exp a b c s.2.1 s.2.2))).sum) := by
  induction ys with
  | nil =>
      intro i acc _ _
      simp [lossLoop, samples]
  | cons l rest ih =>
      intro i acc hx hy
      simp only [List.length_cons] at hx hy
      have hix : i < xData.length := by omega
      have hiy : i < yData.length := by omega
      have hdx : xData.drop i = xData[i] :: xData.drop (i + 1) := List.drop_eq_getElem_cons hix
      have hdy : yData.drop i = yData[i] :: yData.drop (i + 1) := List.drop_eq_getElem_cons hiy
      by_cases hl : l = 1
      · simp only [lossLoop, List.getElem?_eq_getElem hix, List.getElem?_eq_getElem hiy, hl,
          if_true, ih (i + 1) _ (by omega) (by omega), hdx, hdy, samples, List.zip_cons_cons,
          List.map_cons, List.sum_cons, Option.some.injEq]
        ring
      · simp only [lossLoop, List.getElem?_eq_getElem hix, List.getElem?_eq_getElem hiy, hl,
          if_false, ih (i + 1) _ (by omega) (by omega), hdx, hdy, samples, List.zip_cons_cons,
          List.map_cons, List.sum_cons, Option.some.injEq]
        ring

/-- C18 fails as stated: no `eps > 0` bounds the loss by `−ln(eps)`.  On the single sample
`(x, y, label) = (0, 0, 1)` with `b = c = 0` the loss is `ln(1 + e^{−a})`, which exceeds
`−ln(eps)` at `a = ln(eps) − 1`. -/
theorem crossEntropyLoss_has_no_clamp_bound :
    ¬ ∃ eps : ℝ, 0 < eps ∧ ∀ (a v : ℝ),
      crossEntropyLoss Real.exp Real.log [1] [0] [0] a 0 0 = some v → v ≤ -Real.log eps := by
  rintro ⟨eps, _, hbound⟩
  have hloss : ∀ a : ℝ, crossEntropyLoss Real.exp Real.log [1] [0] [0] a 0 0 =
      some (Real.log (1 + Real.exp (-a))) := by
    intro a
    have hpos : 0 < 1 + Real.exp (-a) := by positivity
    simp only [crossEntropyLoss, lossLoop, logistic, List.getElem?_cons_zero, if_true,
      List.length_singleton, Nat.cast_one, Option.map_some', Option.some.injEq, mul_zero,
      add_zero, zero_sub, div_one]
    rw [one_div, Real.log_inv, neg_neg]
  have h := hbound (Real.log eps - 1) _ (hloss (Real.log eps - 1))
  have hlt : Real.exp (-(Real.log eps - 1)) < 1 + Real.exp (-(Real.log eps - 1)) := by
    linarith
  have hlog := Real.log_lt_log (Real.exp_pos _) hlt
  rw [Real.log_exp] at hlog
  linarith

/-- C18, amended: `crossEntropyLoss` applies no clamp.  Whatever `math.Exp` and `math.Log`
compute, on a non-empty dataset it returns `(1/M)·Σ t_i` with `t_i = −log p_i` for a label
1 and `t_i = −log(1 − p_i)` for every other label, `p_i` being the prediction exactly as
`logistic` returns it and `log` being applied to it unchanged.  In particular a sample of
label 0 on which `logistic` returns exactly 1 makes the loss take `log` at exactly 0. -/
theorem crossEntropyLoss_applies_no_clamp (exp log : ℝ → ℝ) (yTrue : List Int)
    (xData yData : List ℝ) (a b c : ℝ)
    (hne : yTrue ≠ []) (hx : xData.length = yTrue.length) (hy : yData.length = yTrue.length) :
    crossEntropyLoss exp log yTrue xData yData a b c =
        some (1 / (yTrue.length : ℝ) * ((samples yTrue xData yData).map
          (fun s => if s.1 = 1 then -log (logistic exp a b c s.2.1 s.2.2)
            else -log (1 - logistic exp a b c s.2.1 s.2.2))).sum) ∧
      ∀ x y : ℝ, logistic exp a b c x y = 1 →
        crossEntropyLoss exp log [0] [x] [y] a b c = some (-log 0) := by
  have _hM : 0 < yTrue.length := List.length_pos.mpr hne
  constructor
  · simp only [crossEntropyLoss,
      lossLoop_eq_branches exp log xData yData a b c yTrue 0 0 (by omega) (by omega),
      List.drop_zero, Option.map_some', Option.some.injEq]
    ring
  · intro x y hsat
    simp only [crossEntropyLoss,
      lossLoop_eq_branches exp log [x] [y] a b c [0] 0 0 (by simp) (by simp),
      List.drop_zero, Option.map_some', Option.some.injEq, samples, List.zip_cons_cons,
      List.zip_nil_right, List.map_cons, List.map_nil, List.sum_cons, List.sum_nil, hsat,
      List.length_singleton, Nat.cast_one]
    norm_num

theorem crossEntropyLoss_applies_no_clamp_witness :
    ([1, 0, 1] : List Int) ≠ [] ∧
    ([(1 : ℝ), 2, 3].length = ([1, 0, 1] : List Int).length) ∧
    ([(1 : ℝ), 2, 3].length = ([1, 0, 1] : List Int).length) ∧
    (crossEntropyLoss Real.exp Real.log [1, 0, 1] [1, 2, 3] [1, 2, 3] 0 0 0 =
        some (1 / (([1, 0, 1] : List Int).length : ℝ) *
          ((samples [1, 0, 1] [(1 : ℝ), 2, 3] [(1 : ℝ), 2, 3]).map
            (fun s => if s.1 = 1 then -Real.log (logistic Real.exp 0 0 0 s.2.1 s.2.2)
              else -Real.log (1 - logistic Real.exp 0 0 0 s.2.1 s.2.2))).sum) ∧
      ∀ x y : ℝ, logistic Real.exp 0 0 0 x y = 1 →
        crossEntropyLoss Real.exp Real.log [0] [x] [y] 0 0 0 = some (-Real.log 0)) :=
  ⟨by simp, by simp, by simp,
   crossEntropyLoss_applies_no_clamp Real.exp Real.log [1, 0, 1] [1, 2, 3] [1, 2, 3] 0 0 0
    (by simp) (by simp) (by simp)⟩

/-- The loss loop on labels 0 and 1, as a sum of negated log-likelihoods. -/
theorem lossLoop_eq_neg (xData yData : List ℝ) (a b c : ℝ) (ys : List Int)
    (hlab : ∀ l ∈ ys, l = 0 ∨ l = 1) :
    ∀ (i : Nat) (acc : ℝ), i + ys.length ≤ xData.length → i + ys.length ≤ yData.length →
      lossLoop Real.exp Real.log xData yData a b c ys i acc =
        some (acc + ((samples ys (xData.drop i) (yData.drop i)).map
          (fun s => -((s.1 : ℝ) * Real.log (1 / (1 + Real.exp (-(a + b * s.2.1 + c * s.2.2))))
            + (1 - (s.1 : ℝ))
              * Real.log (1 - 1 / (1 + Real.exp (-(a + b * s.2.1 + c * s.2.2))))))).sum) := by
  induction ys with
  | nil =>
      intro i acc _ _
      simp [lossLoop, samples]
  | cons l rest ih =>
      intro i acc hx hy
      simp only [List.length_cons] at hx hy
      have hix : i < xData.length := by omega
      have hiy : i < yData.length := by omega
      have hdx : xData.drop i = xData[i] :: xData.drop (i + 1) := List.drop_eq_getElem_cons hix
      have hdy : yData.drop i = yData[i] :: yData.drop (i + 1) := List.drop_eq_getElem_cons hiy
      have hrest : ∀ l2 ∈ rest, l2 = 0 ∨ l2 = 1 := fun l2 h2 => hlab l2 (List.mem_cons_of_mem l h2)
      rcases hlab l (List.mem_cons_self l rest) with rfl | rfl
      · simp only [lossLoop, logistic, List.getElem?_eq_getElem hix,
          List.getElem?_eq_getElem hiy, ih hrest (i + 1) _ (by omega) (by omega), hdx, hdy,
          samples, List.zip_cons_cons, List.map_cons, List.sum_cons, Option.some.injEq]
        norm_num
        ring
      · simp only [lossLoop, logistic, List.getElem?_eq_getElem hix,
          List.getElem?_eq_getElem hiy, ih hrest (i + 1) _ (by omega) (by omega), hdx, hdy,
          samples, List.zip_cons_cons, List.map_cons, List.sum_cons, Option.some.injEq]
        norm_num
        ring

/-- C19: for every non-empty dataset with labels in {0,1} and all real `a, b, c`, the
three functions `gradientA`, `gradientB`, `gradientC` return the partial derivatives of
`crossEntropyLoss` with respect to `a`, `b` and `c` at `(a, b, c)`: the loss is a function
`J` of the parameters, and the returned values are the derivatives of `J` in each
parameter with the other two held fixed. -/
theorem logistic_gradients_are_partial_derivatives (yTrue : List Int) (xData yData : List ℝ)
    (a b c : ℝ) (_hne : yTrue ≠ []) (hx : xData.length = yTrue.length)
    (hy : yData.length = yTrue.length) (hlab : ∀ l ∈ yTrue, l = 0 ∨ l = 1) :
    ∃ (J : ℝ → ℝ → ℝ → ℝ) (gA gB gC : ℝ),
      (∀ a2 b2 c2 : ℝ,
        crossEntropyLoss Real.exp Real.log yTrue xData yData a2 b2 c2 = some (J a2 b2 c2)) ∧
      gradientA Real.exp yTrue xData yData a b c = some gA ∧
      gradientB Real.exp yTrue xData yData a b c = some gB ∧
      gradientC Real.exp yTrue xData yData a b c = some gC ∧
      HasDerivAt (fun t => J t b c) gA a ∧
      HasDerivAt (fun t => J a t c) gB b ∧
      HasDerivAt (fun t => J a b t) gC c := by
  refine ⟨fun a2 b2 c2 => (0 + ((samples yTrue xData yData).map
      (fun s => -((s.1 : ℝ) * Real.log (1 / (1 + Real.exp (-(a2 + b2 * s.2.1 + c2 * s.2.2))))
        + (1 - (s.1 : ℝ))
          * Real.log (1 - 1 / (1 + Real.exp (-(a2 + b2 * s.2.1 + c2 * s.2.2))))))).sum)
      / (yTrue.length : ℝ),
    (0 + ((samples yTrue xData yData).map
      (fun s => logistic Real.exp a b c s.2.1 s.2.2 - (s.1 : ℝ))).sum) / (yTrue.length : ℝ),
    (0 + ((samples yTrue xData yData).map
      (fun s => (logistic Real.exp a b c s.2.1 s.2.2 - (s.1 : ℝ)) * s.2.1)).sum)
      / (yTrue.length : ℝ),
    (0 + ((samples yTrue xData yData).map
      (fun s => (logistic Real.exp a b c s.2.1 s.2.2 - (s.1 : ℝ)) * s.2.2)).sum)
      / (yTrue.length : ℝ), ?_, ?_, ?_, ?_, ?_, ?_, ?_⟩
  · intro a2 b2 c2
    simp only [crossEntropyLoss,
      lossLoop_eq_neg xData yData a2 b2 c2 yTrue hlab 0 0 (by omega) (by omega),
      List.drop_zero, Option.map_some']
  · simp only [gradientA, gradALoop_eq Real.exp xData yData a b c yTrue 0 0 (by omega)
      (by omega), List.drop_zero, Option.map_some']
  · simp only [gradientB, gradBLoop_eq Real.exp xData yData a b c yTrue 0 0 (by omega)
      (by omega), List.drop_zero, Option.map_some']
  · simp only [gradientC, gradCLoop_eq Real.exp xData yData a b c yTrue 0 0 (by omega)
      (by omega), List.drop_zero, Option.map_some']
  · have hsum := hasDerivAt_list_sum (samples yTrue xData yData)
      (fun s t => -((s.1 : ℝ) * Real.log (1 / (1 + Real.exp (-(t + b * s.2.1 + c * s.2.2))))
        + (1 - (s.1 : ℝ))
          * Real.log (1 - 1 / (1 + Real.exp (-(t + b * s.2.1 + c * s.2.2))))))
      (fun s => (1 / (1 + Real.exp (-(a + b * s.2.1 + c * s.2.2))) - (s.1 : ℝ)) * 1) a
      (fun s _ => hasDerivAt_neg_sample_loss (s.1 : ℝ) (fun t => t + b * s.2.1 + c * s.2.2) 1 a
        (((hasDerivAt_id a).add_const (b * s.2.1)).add_const (c * s.2.2)))
    have h := (hsum.const_add 0).div_const (yTrue.length : ℝ)
    simpa only [logistic, mul_one, zero_add] using h
  · have hsum := hasDerivAt_list_sum (samples yTrue xData yData)
      (fun s t => -((s.1 : ℝ) * Real.log (1 / (1 + Real.exp (-(a + t * s.2.1 + c * s.2.2))))
        + (1 - (s.1 : ℝ))
          * Real.log (1 - 1 / (1 + Real.exp (-(a + t * s.2.1 + c * s.2.2))))))
      (fun s => (1 / (1 + Real.exp (-(a + b * s.2.1 + c * s.2.2))) - (s.1 : ℝ)) * (1 * s.2.1)) b
      (fun s _ => hasDerivAt_neg_sample_loss (s.1 : ℝ) (fun t => a + t * s.2.1 + c * s.2.2)
        (1 * s.2.1) b
        ((((hasDerivAt_id b).mul_const s.2.1).const_add a).add_const (c * s.2.2)))
    have h := (hsum.const_add 0).div_const (yTrue.length : ℝ)
    simpa only [logistic, one_mul, zero_add] using h
  · have hsum := hasDerivAt_list_sum (samples yTrue xData yData)
      (fun s t => -((s.1 : ℝ) * Real.log (1 / (1 + Real.exp (-(a + b * s.2.1 + t * s.2.2))))
        + (1 - (s.1 : ℝ))
          * Real.log (1 - 1 / (1 + Real.exp (-(a + b * s.2.1 + t * s.2.2))))))
      (fun s => (1 / (1 + Real.exp (-(a + b * s.2.1 + c * s.2.2))) - (s.1 : ℝ)) * (1 * s.2.2)) c
      (fun s _ => hasDerivAt_neg_sample_loss (s.1 : ℝ) (fun t => a + b * s.2.1 + t * s.2.2)
        (1 * s.2.2) c
        (((hasDerivAt_id c).mul_const s.2.2).const_add (a + b * s.2.1)))
    have h := (hsum.const_add 0).div_const (yTrue.length : ℝ)
    simpa only [logistic, one_mul, zero_add] using h

theorem logistic_gradients_are_partial_derivatives_witness :
    ([1, 0, 1] : List Int) ≠ [] ∧ (∀ l ∈ ([1, 0, 1] : List Int), l = 0 ∨ l = 1) ∧
    ∃ (J : ℝ → ℝ → ℝ → ℝ) (gA gB gC : ℝ),
      (∀ a2 b2 c2 : ℝ,
        crossEntropyLoss Real.exp Real.log [1, 0, 1] [1, 2, 3] [1, 2, 3] a2 b2 c2
          = some (J a2 b2 c2)) ∧
      gradientA Real.exp [1, 0, 1] [1, 2, 3] [1, 2, 3] 0 0 0 = some gA ∧
      gradientB Real.exp [1, 0, 1] [1, 2, 3] [1, 2, 3] 0 0 0 = some gB ∧
      gradientC Real.exp [1, 0, 1] [1, 2, 3] [1, 2, 3] 0 0 0 = some gC ∧
      HasDerivAt (fun t => J t 0 0) gA 0 ∧
      HasDerivAt (fun t => J 0 t 0) gB 0 ∧
      HasDerivAt (fun t => J 0 0 t) gC 0 :=
  ⟨by simp, by decide,
   logistic_gradients_are_partial_derivatives [1, 0, 1] [1, 2, 3] [1, 2, 3] 0 0 0
     (by simp) (by simp) (by simp) (by decide)⟩

/-- C20: for every non-empty dataset, all real `b, w` and every `lr ≠ 0`, the two
gradients accumulated by `StepGradient` are the partial derivatives of `Mse`:
`(b − newB)/lr` is the derivative of `Mse` in `b` and `(w − newW)/lr` the derivative of
`Mse` in `w`, at `(b, w)`. -/
theorem stepGradient_is_mse_gradient (points : List (ℝ × ℝ)) (b w lr : ℝ)
    (hne : points ≠ []) (hlr : lr ≠ 0) :
    HasDerivAt (fun t => Main.Mse t w points)
      ((b - (Main.StepGradient b w points lr).1) / lr) b ∧
    HasDerivAt (fun t => Main.Mse b t points)
      ((w - (Main.StepGradient b w points lr).2) / lr) w := by
  have hstep : Main.StepGradient b w points lr =
      (b - lr * ((2 / (points.length : ℝ)) * (points.map (fun p => (w * p.1 + b) - p.2)).sum),
       w - lr * ((2 / (points.length : ℝ))
          * (points.map (fun p => p.1 * ((w * p.1 + b) - p.2))).sum)) := by
    simp [Main.StepGradient, main_gradLoop_eq]
  have hM : (points.length : ℝ) ≠ 0 := by
    exact_mod_cast (List.length_pos.mpr hne).ne'
  have hb : (b - (Main.StepGradient b w points lr).1) / lr =
      (points.map (fun p => 2 * ((w * p.1 + b) - p.2))).sum / (points.length : ℝ) := by
    rw [hstep, List.sum_map_mul_left]
    field_simp
    ring
  have hw : (w - (Main.StepGradient b w points lr).2) / lr =
      (points.map (fun p => 2 * (p.1 * ((w * p.1 + b) - p.2)))).sum / (points.length : ℝ) := by
    rw [hstep, List.sum_map_mul_left]
    field_simp
    ring
  constructor
  · rw [hb]
    have hsum := hasDerivAt_list_sum points
      (fun p t => (p.2 - (w * p.1 + t)) ^ 2) (fun p => 2 * ((w * p.1 + b) - p.2)) b
      (fun p _ => by
        have h := (((hasDerivAt_id b).const_add (w * p.1)).const_sub p.2).pow 2
        convert h using 1
        simp only [id]
        ring)
    have h := hsum.div_const (points.length : ℝ)
    simpa only [main_Mse_eq] using h
  · rw [hw]
    have hsum := hasDerivAt_list_sum points
      (fun p t => (p.2 - (t * p.1 + b)) ^ 2) (fun p => 2 * (p.1 * ((w * p.1 + b) - p.2))) w
      (fun p _ => by
        have h := ((((hasDerivAt_id w).mul_const p.1).add_const b).const_sub p.2).pow 2
        convert h using 1
        simp only [id]
        ring)
    have h := hsum.div_const (points.length : ℝ)
    simpa only [main_Mse_eq] using h

theorem stepGradient_is_mse_gradient_witness :
    ([(1, 3), (2, 5)] : List (ℝ × ℝ)) ≠ [] ∧ (1 / 10 : ℝ) ≠ 0 ∧
    HasDerivAt (fun t => Main.Mse t 0 [((1 : ℝ), (3 : ℝ)), (2, 5)])
      ((0 - (Main.StepGradient (0 : ℝ) 0 [(1, 3), (2, 5)] (1 / 10)).1) / (1 / 10)) 0 ∧
    HasDerivAt (fun t => Main.Mse 0 t [((1 : ℝ), (3 : ℝ)), (2, 5)])
      ((0 - (Main.StepGradient (0 : ℝ) 0 [(1, 3), (2, 5)] (1 / 10)).2) / (1 / 10)) 0 :=
  ⟨by simp, by norm_num,
   stepGradient_is_mse_gradient [(1, 3), (2, 5)] 0 0 (1 / 10) (by simp) (by norm_num)⟩

end Calculus

/-! ## Theorems: the logistic model at the origin -/

section LogisticOrigin

open Main4

variable {F : Type} [LinearOrderedField F]

/-- C21: for a dataset of one point `(x, y)` with label 1 and `a = b = c = 0`, `logistic`
returns exactly `1/2` and `gradientA` returns exactly `-1/2`; the only fact about
`math.Exp` used is `exp 0 = 1`. -/
theorem logistic_gradientA_at_origin (exp : F → F) (hexp : exp 0 = 1) (x y : F) :
    logistic exp 0 0 0 x y = 1 / 2 ∧ gradientA exp [1] [x] [y] 0 0 0 = some (-(1 / 2)) := by
  have hp : logistic exp 0 0 0 x y = 1 / 2 := by
    simp only [logistic, zero_mul, add_zero, neg_zero, hexp]
    norm_num
  refine ⟨hp, ?_⟩
  simp only [gradientA, gradALoop, List.getElem?_cons_zero, hp, List.length_singleton,
    Option.map_some', Int.cast_one, Nat.cast_one]
  norm_num

theorem logistic_gradientA_at_origin_witness :
    Real.exp 0 = 1 ∧ logistic Real.exp 0 0 0 (3 : ℝ) 4 = 1 / 2 ∧
      gradientA Real.exp [1] [(3 : ℝ)] [4] 0 0 0 = some (-(1 / 2)) :=
  ⟨Real.exp_zero, logistic_gradientA_at_origin Real.exp Real.exp_zero 3 4⟩

end LogisticOrigin

/-! ## Theorems: construction of the clusterers -/

section Construction

open Main9

variable {F : Type} [LinearOrderedField F]

omit [LinearOrderedField F] in
/-- Every centroid sampled by `NewGame` is a point of the dataset. -/
theorem sampleCentroids_mem (src : Nat → Nat) (points : List (Point F)) :
    ∀ (n i : Nat) (cs : List (Point F)), sampleCentroids src points i n = some cs →
      ∀ c ∈ cs, c ∈ points := by
  intro n
  induction n with
  | zero =>
      intro i cs h c hc
      simp only [sampleCentroids, Option.some.injEq] at h
      subst h
      simp at hc
  | succ n ih =>
      intro i cs h c hc
      simp only [sampleCentroids] at h
      split_ifs at h with h0
      cases hp : points[src i % points.length]? with
      | none => simp [hp] at h
      | some p =>
          cases hr : sampleCentroids src points (i + 1) n with
          | none => simp [hp, hr] at h
          | some rest =>
              simp only [hp, hr, Option.some.injEq] at h
              subst h
              rcases List.mem_cons.mp hc with rfl | hc2
              · exact List.getElem?_mem hp
              · exact ih (i + 1) rest hr c hc2

/-- C22 (as the code behaves): `NewGame([(1,0)], 2)`, with `k = 2` above the dataset size
1, returns a clusterer with two centroids, both at the only point. -/
theorem NewGame_accepts_k_above_size_example :
    (NewGame (fun _ => 0) [(⟨1, 0⟩ : Point ℝ)] 2).map
        (fun g => (g.k, g.centroids, g.clusters)) =
      some (2, [⟨1, 0⟩, ⟨1, 0⟩], [0]) := by
  have hk : (2 : ℤ).toNat = 2 := rfl
  simp [NewGame, sampleCentroids, hk]

/-- C22 (amended): `NewGame` does not compare `k` with the dataset size.  For a non-empty
dataset and every `k` above its size, whatever the random draws, it returns a clusterer
with `k` centroids, each of them a point of the dataset (drawn with repetition), and all
points in cluster 0. -/
theorem NewGame_accepts_k_above_size (src : Nat → Nat) (points : List (Point F)) (k : Int)
    (hne : points ≠ []) (hk : (points.length : Int) < k) :
    ∃ g, NewGame src points k = some g ∧ g.points = points ∧ g.k = k ∧
      g.centroids.length = k.toNat ∧ (∀ c ∈ g.centroids, c ∈ points) ∧
      g.clusters = List.replicate points.length 0 := by
  obtain ⟨cs, hcs, hlen⟩ := sampleCentroids_spec src points hne k.toNat 0
  have hneg : ¬ k < 0 := by omega
  have hrun : NewGame src points k = some
      { points := points
        clusters := List.replicate points.length 0
        centroids := cs
        prevCentroids := List.replicate k.toNat ⟨0, 0⟩
        k := k
        width := 800
        height := 600
        iteration := 0
        animProgress := 0
        animSpeed := 1 / 100
        converged := false } := by
    simp only [NewGame, hneg, if_false, hcs]
  exact ⟨_, hrun, rfl, rfl, hlen, sampleCentroids_mem src points k.toNat 0 cs hcs, rfl⟩

theorem NewGame_accepts_k_above_size_witness :
    ([(⟨1, 0⟩ : Point ℚ), ⟨3, 0⟩] ≠ []) ∧ (([(⟨1, 0⟩ : Point ℚ), ⟨3, 0⟩].length : Int) < 5) ∧
    ∃ g, NewGame (fun i => i) [(⟨1, 0⟩ : Point ℚ), ⟨3, 0⟩] 5 = some g ∧
      g.points = [(⟨1, 0⟩ : Point ℚ), ⟨3, 0⟩] ∧ g.k = 5 ∧
      g.centroids.length = (5 : Int).toNat ∧
      (∀ c ∈ g.centroids, c ∈ [(⟨1, 0⟩ : Point ℚ), ⟨3, 0⟩]) ∧
      g.clusters = List.replicate [(⟨1, 0⟩ : Point ℚ), ⟨3, 0⟩].length 0 :=
  ⟨by simp, by decide,
    NewGame_accepts_k_above_size (fun i => i) [(⟨1, 0⟩ : Point ℚ), ⟨3, 0⟩] 5 (by simp)
      (by decide)⟩

end Construction

section MeanShiftConstruction

open Main10

variable {F : Type} [LinearOrderedField F]

/-- In main10.go the distance between two points of the x-axis is the absolute value of
the difference of their abscissas. -/
theorem distance_axis10 (a b : ℝ) :
    distance Real.sqrt (⟨a, 0⟩ : Point ℝ) ⟨b, 0⟩ = |a - b| := by
  simp only [distance, sub_self, mul_zero, add_zero]
  exact Real.sqrt_mul_self_eq_abs _

/-- C23 (as the code behaves): `NewMeanShift` returns an instance for the empty dataset
(with bandwidth 1) and for a one-point dataset with bandwidth `-1`; the instances hold
what was passed in, and `Step` runs on them and returns `converged = true`. -/
theorem NewMeanShift_accepts_empty_and_negative_example :
    NewMeanShift ([] : List (Point ℝ)) 1 =
        { points := [], modes := [], currentModes := [], labels := [], bandwidth := 1,
          iterations := 0, currentStep := 0, converged := false } ∧
      NewMeanShift [(⟨1, 2⟩ : Point ℝ)] (-1) =
        { points := [⟨1, 2⟩], modes := [⟨1, 2⟩], currentModes := [⟨1, 2⟩], labels := [0],
          bandwidth := -1, iterations := 0, currentStep := 0, converged := false } ∧
      (Step Real.exp Real.sqrt (NewMeanShift ([] : List (Point ℝ)) 1)).2 = true ∧
      (Step Real.exp Real.sqrt (NewMeanShift [(⟨1, 2⟩ : Point ℝ)] (-1))).2 = true := by
  refine ⟨rfl, rfl, rfl, ?_⟩
  norm_num [Step, stepLoop, shiftLoop, distance, NewMeanShift]

/-- C23 (amended): `NewMeanShift` validates nothing.  For every dataset, the empty one
included, and every bandwidth, also zero or negative, it returns an instance that holds
the dataset and the bandwidth as given, with `modes` and `currentModes` copies of the
dataset, one zero label per point, both counters zero and `converged = false`. -/
theorem NewMeanShift_accepts_any_input {G : Type} (points : List (Point G)) (bandwidth : G) :
    (NewMeanShift points bandwidth).points = points ∧
      (NewMeanShift points bandwidth).modes = points ∧
      (NewMeanShift points bandwidth).currentModes = points ∧
      (NewMeanShift points bandwidth).labels = List.replicate points.length 0 ∧
      (NewMeanShift points bandwidth).bandwidth = bandwidth ∧
      (NewMeanShift points bandwidth).iterations = 0 ∧
      (NewMeanShift points bandwidth).currentStep = 0 ∧
      (NewMeanShift points bandwidth).converged = false :=
  ⟨rfl, rfl, rfl, rfl, rfl, rfl, rfl, rfl⟩

/-- C26: the merge of `UpdateAnimation` depends on the order of the modes.  With bandwidth
4 and final modes at 0, 1 and 2 on the x-axis, the order `0, 1, 2` gives the labels
`0, 0, 1` (the modes at 1 and 2 in different clusters), while the order `1, 0, 2` of the
same positions gives `0, 0, 0` (the modes at 1 and 2 in the same cluster). -/
theorem merge_is_order_dependent :
    ∃ (bandwidth : ℝ) (modes reordered : List (Point ℝ)) (l1 l2 : List Int),
      0 < bandwidth ∧ modes.Nodup ∧ reordered.Perm modes ∧
      (UpdateAnimation Real.sqrt { NewMeanShift modes bandwidth with converged := true } 1).map
          (fun ms => ms.labels) = some l1 ∧
      (UpdateAnimation Real.sqrt { NewMeanShift reordered bandwidth with converged := true }
          1).map (fun ms => ms.labels) = some l2 ∧
      ∃ (p q : Point ℝ) (i j i2 j2 : Nat) (a b c : Int),
        modes[i]? = some p ∧ modes[j]? = some q ∧
        reordered[i2]? = some p ∧ reordered[j2]? = some q ∧
        l1[i]? = some a ∧ l1[j]? = some b ∧ a ≠ b ∧
        l2[i2]? = some c ∧ l2[j2]? = some c := by
  refine ⟨4, [⟨0, 0⟩, ⟨1, 0⟩, ⟨2, 0⟩], [⟨1, 0⟩, ⟨0, 0⟩, ⟨2, 0⟩], [0, 0, 1], [0, 0, 0],
    by norm_num, ?_, ?_, ?_, ?_, ?_⟩
  · simp
  · exact List.Perm.swap _ _ _
  · norm_num [UpdateAnimation, NewMeanShift, animLoop, mergeLoop, findCenter, distance_axis10,
      List.replicate]
  · norm_num [UpdateAnimation, NewMeanShift, animLoop, mergeLoop, findCenter, distance_axis10,
      List.replicate]
  · exact ⟨⟨1, 0⟩, ⟨2, 0⟩, 1, 2, 0, 2, 0, 1, 0, rfl, rfl, rfl, rfl, rfl, rfl, by decide,
      rfl, rfl⟩

end MeanShiftConstruction

/-! ## Theorems: mean shift on coincident points -/

section MeanShiftCoincident

open Main10

variable {F : Type} [LinearOrderedField F]

/-- On a converged state with slices of equal length `UpdateAnimation` returns, and the
labels it leaves are those of the ordered merge of the modes. -/
theorem updateAnimation_converged_run (sqrt : F → F) (ms : MeanShift F) (progress : F)
    (hconv : ms.converged = true) (hmodes : ms.modes.length = ms.points.length)
    (hcur : ms.currentModes.length = ms.points.length)
    (hlab : ms.labels.length = ms.points.length) :
    ∃ ms2, UpdateAnimation sqrt ms progress = some ms2 ∧
      ms2.labels = mergeSpec sqrt ms.bandwidth ms.modes [] := by
  obtain ⟨cm, hcm⟩ := animLoop_some ms.points ms.modes progress ms.currentModes 0
    (by omega) (by omega)
  obtain ⟨st, hrun, hlen, _, hin⟩ :=
    mergeLoop_spec sqrt ms.modes ms.bandwidth ms.labels.length 0 ms.labels []
      (by omega) (by omega)
  simp only [List.length_nil, Nat.cast_zero] at hrun
  refine ⟨{ ms with currentModes := cm, labels := st.1 },
    by simp only [UpdateAnimation, hcm, hconv, if_true, hrun], ?_⟩
  apply List.ext_getElem?
  intro t
  by_cases ht : t < ms.labels.length
  · have := hin t ht
    simpa using this
  · rw [List.getElem?_eq_none (by simp only; omega),
      List.getElem?_eq_none (by rw [mergeSpec_length]; omega)]

/-- The inner loop of `Step` for a mode at `c` over `n` dataset points that all sit at
`c`: every point is within the bandwidth and has the weight `exp 0`. -/
theorem shiftLoop_replicate (exp : F → F) (c : Point F) (bwSq : F) (hbw : 0 ≤ bwSq) :
    ∀ (n : Nat) (acc : F × F × F),
      shiftLoop exp c bwSq (List.replicate n c) acc =
        (acc.1 + (n : F) * (c.X * exp 0), acc.2.1 + (n : F) * (c.Y * exp 0),
          acc.2.2 + (n : F) * exp 0) := by
  intro n
  induction n with
  | zero =>
      intro acc
      simp [shiftLoop]
  | succ n ih =>
      intro acc
      obtain ⟨sx, sy, tw⟩ := acc
      have h0 : (c.X - c.X) * (c.X - c.X) + (c.Y - c.Y) * (c.Y - c.Y) = 0 := by ring
      simp only [List.replicate_succ, shiftLoop, h0, hbw, if_true, neg_zero, zero_div, ih,
        Nat.cast_succ]
      refine Prod.ext ?_ (Prod.ext ?_ ?_) <;> simp only <;> ring

/-- The outer loop of `Step` over modes that all sit at `c`, like the dataset: no mode
moves and the flag is left as it was. -/
theorem stepLoop_replicate (exp sqrt : F → F) (hsqrt : sqrt 0 = 0) (c : Point F) (bwSq : F)
    (hbw : 0 ≤ bwSq) (n : Nat) :
    ∀ (k : Nat) (conv : Bool),
      stepLoop exp sqrt (List.replicate n c) bwSq (List.replicate k c) conv =
        (List.replicate k c, conv) := by
  intro k
  induction k with
  | zero => intro conv; simp [stepLoop]
  | succ k ih =>
      intro conv
      simp only [List.replicate_succ, stepLoop, shiftLoop_replicate exp c bwSq hbw, zero_add]
      by_cases hw : (n : F) * exp 0 > 0
      · have hne : (n : F) * exp 0 ≠ 0 := ne_of_gt hw
        have hx : (n : F) * (c.X * exp 0) / ((n : F) * exp 0) = c.X := by
          field_simp
          ring
        have hy : (n : F) * (c.Y * exp 0) / ((n : F) * exp 0) = c.Y := by
          field_simp
          ring
        have hd : ¬ (distance sqrt (⟨c.X, c.Y⟩ : Point F) c > 1 / 100) := by
          simp only [distance, sub_self, mul_zero, add_zero, hsqrt]
          norm_num
        simp only [hw, if_true, hx, hy, hd, if_false, ih]
      · simp only [hw, if_false, ih]

/-- The ordered merge of modes that all sit at the position of the only representative
gives every one of them the id 0. -/
theorem mergeSpec_replicate (sqrt : F → F) (hsqrt : sqrt 0 = 0) (c : Point F) (bandwidth : F)
    (hbw : 0 < bandwidth) :
    ∀ n : Nat, mergeSpec sqrt bandwidth (List.replicate n c) [c] = List.replicate n 0 := by
  have hd : distance sqrt c c < bandwidth / 2 := by
    simp only [distance, sub_self, mul_zero, add_zero, hsqrt]
    exact half_pos hbw
  intro n
  induction n with
  | zero => rfl
  | succ n ih =>
      simp [List.replicate_succ, mergeSpec, List.findIdx?_cons, hd, ih]

/-- C24: for a non-empty dataset whose points all sit at `c` and a bandwidth above 0, the
first `Step` after `NewMeanShift` returns `converged = true` and leaves every mode at
`c`, and the merge that `UpdateAnimation` then runs gives every point the cluster id 0.
Of `math.Hypot` only `sqrt 0 = 0` is used. -/
theorem meanShift_coincident_points_one_cluster (exp sqrt : F → F) (hsqrt : sqrt 0 = 0)
    (points : List (Point F)) (c : Point F) (bandwidth progress : F) (hne : points ≠ [])
    (hall : ∀ p ∈ points, p = c) (hbw : 0 < bandwidth) :
    (Step exp sqrt (NewMeanShift points bandwidth)).2 = true ∧
      (Step exp sqrt (NewMeanShift points bandwidth)).1.modes = points ∧
      (∀ m ∈ (Step exp sqrt (NewMeanShift points bandwidth)).1.modes, m = c) ∧
      ∃ ms2, UpdateAnimation sqrt
          { (Step exp sqrt (NewMeanShift points bandwidth)).1 with converged := true } progress
            = some ms2 ∧
        ms2.labels = List.replicate points.length 0 := by
  have hrep : points = List.replicate points.length c :=
    List.eq_replicate_iff.mpr ⟨rfl, hall⟩
  have hstep : stepLoop exp sqrt points (bandwidth * bandwidth) points true = (points, true) := by
    have h := stepLoop_replicate exp sqrt hsqrt c (bandwidth * bandwidth)
      (mul_self_nonneg bandwidth) points.length points.length true
    rw [← hrep] at h
    exact h
  have hmodes : (Step exp sqrt (NewMeanShift points bandwidth)).1.modes = points := by
    simp only [Step, NewMeanShift, hstep]
  have hflag : (Step exp sqrt (NewMeanShift points bandwidth)).2 = true := by
    simp only [Step, NewMeanShift, hstep]
  refine ⟨hflag, hmodes, by rw [hmodes]; exact hall, ?_⟩
  obtain ⟨ms2, hrun, hlab⟩ := updateAnimation_converged_run sqrt
    { (Step exp sqrt (NewMeanShift points bandwidth)).1 with converged := true } progress rfl
    (by simp only [hmodes]; simp [Step, NewMeanShift])
    (by simp [Step, NewMeanShift]) (by simp [Step, NewMeanShift])
  refine ⟨ms2, hrun, ?_⟩
  rw [hlab]
  simp only [hmodes]
  have hbwf : (Step exp sqrt (NewMeanShift points bandwidth)).1.bandwidth = bandwidth := by
    simp [Step, NewMeanShift]
  rw [hbwf]
  obtain ⟨n, hn⟩ : ∃ n, points.length = n + 1 :=
    ⟨points.length - 1, by have := List.length_pos.mpr hne; omega⟩
  rw [hrep, hn, List.length_replicate, List.replicate_succ]
  have hnone : ([] : List (Point F)).findIdx?
      (fun r => decide (distance sqrt c r < bandwidth / 2)) = none := rfl
  simp only [mergeSpec, hnone, List.nil_append, List.length_nil, Nat.cast_zero,
    mergeSpec_replicate sqrt hsqrt c bandwidth hbw, List.replicate_succ]

theorem meanShift_coincident_points_one_cluster_witness :
    Real.sqrt 0 = 0 ∧ [(⟨3, 4⟩ : Point ℝ), ⟨3, 4⟩] ≠ [] ∧
      (∀ p ∈ [(⟨3, 4⟩ : Point ℝ), ⟨3, 4⟩], p = ⟨3, 4⟩) ∧ (0 : ℝ) < 2 ∧
      ((Step Real.exp Real.sqrt (NewMeanShift [(⟨3, 4⟩ : Point ℝ), ⟨3, 4⟩] 2)).2 = true ∧
        (Step Real.exp Real.sqrt (NewMeanShift [(⟨3, 4⟩ : Point ℝ), ⟨3, 4⟩] 2)).1.modes =
          [(⟨3, 4⟩ : Point ℝ), ⟨3, 4⟩] ∧
        (∀ m ∈ (Step Real.exp Real.sqrt (NewMeanShift [(⟨3, 4⟩ : Point ℝ), ⟨3, 4⟩] 2)).1.modes,
          m = ⟨3, 4⟩) ∧
        ∃ ms2, UpdateAnimation Real.sqrt
            { (Step Real.exp Real.sqrt (NewMeanShift [(⟨3, 4⟩ : Point ℝ), ⟨3, 4⟩] 2)).1 with
              converged := true } (1 / 2) = some ms2 ∧
          ms2.labels = List.replicate [(⟨3, 4⟩ : Point ℝ), ⟨3, 4⟩].length 0) :=
  ⟨Real.sqrt_zero, by simp, by simp, by norm_num,
    meanShift_coincident_points_one_cluster Real.exp Real.sqrt Real.sqrt_zero
      [(⟨3, 4⟩ : Point ℝ), ⟨3, 4⟩] ⟨3, 4⟩ 2 (1 / 2) (by simp) (by simp) (by norm_num)⟩

end MeanShiftCoincident

/-! ## Theorems: the modes of mean shift stay anchored to the data -/

section MeanShiftInvariant

open Main10

variable {F : Type} [LinearOrderedField F]

/-- Expansion of a weighted sum of squared deviations from `q`. -/
theorem weighted_sq_sum_expand {α : Type} (L : List α) (w x : α → F) (q : F) :
    (L.map (fun p => w p * (x p - q) ^ 2)).sum =
      (L.map (fun p => w p * x p ^ 2)).sum - 2 * q * (L.map (fun p => w p * x p)).sum
        + q ^ 2 * (L.map w).sum := by
  induction L with
  | nil => simp
  | cons a rest ih =>
      simp only [List.map_cons, List.sum_cons, ih]
      ring

/-- A weighted sum of values that are all at most `K`, with non-negative weights, is at
most `K` times the total weight. -/
theorem weighted_sum_le {α : Type} (L : List α) (w f : α → F) (K : F)
    (hw : ∀ p ∈ L, 0 ≤ w p) (hf : ∀ p ∈ L, f p ≤ K) :
    (L.map (fun p => w p * f p)).sum ≤ K * (L.map w).sum := by
  induction L with
  | nil => simp
  | cons a rest ih =>
      simp only [List.map_cons, List.sum_cons]
      have h1 := ih (fun p hp => hw p (List.mem_cons_of_mem _ hp))
        (fun p hp => hf p (List.mem_cons_of_mem _ hp))
      have h2 : w a * f a ≤ w a * K :=
        mul_le_mul_of_nonneg_left (hf a (List.mem_cons_self _ _)) (hw a (List.mem_cons_self _ _))
      linarith

/-- A weighted sum of values that all exceed `K`, with positive weights over a non-empty
list, exceeds `K` times the total weight. -/
theorem weighted_sum_gt {α : Type} (L : List α) (w f : α → F) (K : F) (hne : L ≠ [])
    (hw : ∀ p ∈ L, 0 < w p) (hf : ∀ p ∈ L, K < f p) :
    K * (L.map w).sum < (L.map (fun p => w p * f p)).sum := by
  induction L with
  | nil => exact absurd rfl hne
  | cons a rest ih =>
      simp only [List.map_cons, List.sum_cons]
      have h2 : w a * K < w a * f a :=
        mul_lt_mul_of_pos_left (hf a (List.mem_cons_self _ _)) (hw a (List.mem_cons_self _ _))
      by_cases hr : rest = []
      · subst hr
        simp only [List.map_nil, List.sum_nil, add_zero]
        linarith
      · have h1 := ih hr (fun p hp => hw p (List.mem_cons_of_mem _ hp))
          (fun p hp => hf p (List.mem_cons_of_mem _ hp))
        linarith

/-- The total of positive weights over a non-empty list is positive. -/
theorem weight_sum_pos {α : Type} (L : List α) (w : α → F) (hne : L ≠ [])
    (hw : ∀ p ∈ L, 0 < w p) : 0 < (L.map w).sum := by
  have h := weighted_sum_gt L w (fun _ => (1 : F)) 0 hne hw (fun _ _ => zero_lt_one)
  simpa using h

/-- Weighted sum of the squared distances to `q`, split by coordinates. -/
theorem weighted_distSq_sum (L : List (Point F)) (w : Point F → F) (q : Point F) :
    (L.map (fun p => w p * distSq p q)).sum =
      (L.map (fun p => w p * p.X ^ 2)).sum - 2 * q.X * (L.map (fun p => w p * p.X)).sum
        + q.X ^ 2 * (L.map w).sum
      + ((L.map (fun p => w p * p.Y ^ 2)).sum - 2 * q.Y * (L.map (fun p => w p * p.Y)).sum
        + q.Y ^ 2 * (L.map w).sum) := by
  rw [← weighted_sq_sum_expand L w Point.X q.X, ← weighted_sq_sum_expand L w Point.Y q.Y]
  induction L with
  | nil => simp
  | cons a rest ih =>
      simp only [List.map_cons, List.sum_cons]
      rw [ih]
      simp only [distSq]
      ring

/-- Parallel-axis identity: the weighted sum of squared distances to `q` is the one to the
weighted centroid `c` plus the total weight times the squared distance from `c` to `q`. -/
theorem weighted_distSq_centroid (L : List (Point F)) (w : Point F → F)
    (hW : (L.map w).sum ≠ 0) (q : Point F) :
    (L.map (fun p => w p * distSq p q)).sum =
      (L.map (fun p => w p * distSq p
          ⟨(L.map (fun p => w p * p.X)).sum / (L.map w).sum,
           (L.map (fun p => w p * p.Y)).sum / (L.map w).sum⟩)).sum
        + (L.map w).sum * distSq
            ⟨(L.map (fun p => w p * p.X)).sum / (L.map w).sum,
             (L.map (fun p => w p * p.Y)).sum / (L.map w).sum⟩ q := by
  rw [weighted_distSq_sum L w q, weighted_distSq_sum L w _]
  simp only [distSq]
  field_simp
  ring

/-- A weighted sum of values that are all below `K`, with positive weights over a non-empty
list, is below `K` times the total weight. -/
theorem weighted_sum_lt {α : Type} (L : List α) (w f : α → F) (K : F) (hne : L ≠ [])
    (hw : ∀ p ∈ L, 0 < w p) (hf : ∀ p ∈ L, f p < K) :
    (L.map (fun p => w p * f p)).sum < K * (L.map w).sum := by
  induction L with
  | nil => exact absurd rfl hne
  | cons a rest ih =>
      simp only [List.map_cons, List.sum_cons]
      have h2 : w a * f a < w a * K :=
        mul_lt_mul_of_pos_left (hf a (List.mem_cons_self _ _)) (hw a (List.mem_cons_self _ _))
      by_cases hr : rest = []
      · subst hr
        simp only [List.map_nil, List.sum_nil, add_zero]
        linarith
      · have h1 := ih hr (fun p hp => hw p (List.mem_cons_of_mem _ hp))
          (fun p hp => hf p (List.mem_cons_of_mem _ hp))
        linarith

theorem distSq_nonneg (p q : Point F) : 0 ≤ distSq p q := by
  simp only [distSq]
  positivity

theorem distSq_comm (p q : Point F) : distSq p q = distSq q p := by
  simp only [distSq]
  ring

theorem distSq_self (p : Point F) : distSq p p = 0 := by
  simp only [distSq]
  ring

/-- Two points within squared distance `B` of a third are within `4 B` of each other. -/
theorem distSq_le_four (a b m : Point F) (B : F) (ha : distSq a m ≤ B) (hb : distSq b m ≤ B) :
    distSq a b ≤ 4 * B := by
  simp only [distSq] at *
  nlinarith [sq_nonneg (a.X - m.X + (b.X - m.X)), sq_nonneg (a.Y - m.Y + (b.Y - m.Y))]

/-- A weighted sum of squared distances is non-negative when the weights are positive. -/
theorem weighted_distSq_nonneg (L : List (Point F)) (w : Point F → F)
    (hw : ∀ p ∈ L, 0 < w p) (c : Point F) :
    0 ≤ (L.map (fun p => w p * distSq p c)).sum := by
  apply List.sum_nonneg
  intro x hx
  obtain ⟨p, hp, rfl⟩ := List.mem_map.mp hx
  exact mul_nonneg (hw p hp).le (distSq_nonneg p c)

/-- The weighted centroid of points that all lie within squared distance `B` of `m` stays
anchored to them: whatever `q`, some point of the list is within `B + distSq c q` of `q`. -/
theorem centroid_anchor (L : List (Point F)) (w : Point F → F) (hne : L ≠ [])
    (hw : ∀ p ∈ L, 0 < w p) (m : Point F) (B : F) (hB : ∀ p ∈ L, distSq p m ≤ B)
    (q : Point F) :
    ∃ p ∈ L, distSq p q ≤ B + distSq
      ⟨(L.map (fun p => w p * p.X)).sum / (L.map w).sum,
       (L.map (fun p => w p * p.Y)).sum / (L.map w).sum⟩ q := by
  by_contra hcon
  push_neg at hcon
  have hW := weight_sum_pos L w hne hw
  have hgt := weighted_sum_gt L w (fun p => distSq p q) _ hne hw hcon
  have hq := weighted_distSq_centroid L w hW.ne' q
  have hm := weighted_distSq_centroid L w hW.ne' m
  have hle := weighted_sum_le L w (fun p => distSq p m) B (fun p hp => (hw p hp).le) hB
  have hcm := mul_nonneg hW.le (distSq_nonneg
    (⟨(L.map (fun p => w p * p.X)).sum / (L.map w).sum,
      (L.map (fun p => w p * p.Y)).sum / (L.map w).sum⟩ : Point F) m)
  simp only at hgt hle
  nlinarith

/-- The weighted centroid of points that all lie in the open ball of squared radius `r`
about `q` lies in that ball. -/
theorem centroid_in_ball (L : List (Point F)) (w : Point F → F) (hne : L ≠ [])
    (hw : ∀ p ∈ L, 0 < w p) (q : Point F) (r : F) (hr : ∀ p ∈ L, distSq p q < r) :
    distSq
      ⟨(L.map (fun p => w p * p.X)).sum / (L.map w).sum,
       (L.map (fun p => w p * p.Y)).sum / (L.map w).sum⟩ q < r := by
  have hW := weight_sum_pos L w hne hw
  have hlt := weighted_sum_lt L w (fun p => distSq p q) r hne hw hr
  have hq := weighted_distSq_centroid L w hW.ne' q
  have hV := weighted_distSq_nonneg L w hw
    (⟨(L.map (fun p => w p * p.X)).sum / (L.map w).sum,
      (L.map (fun p => w p * p.Y)).sum / (L.map w).sum⟩ : Point F)
  simp only at hlt
  by_contra hcon
  push_neg at hcon
  have := mul_le_mul_of_nonneg_left hcon hW.le
  linarith

/-- Membership in the list of points that the inner loop of `Step` treats as within the
bandwidth of `m`. -/
theorem mem_near_iff (points : List (Point F)) (bandwidth : F) (m p : Point F) :
    p ∈ points.filter (fun p => decide
        ((p.X - m.X) * (p.X - m.X) + (p.Y - m.Y) * (p.Y - m.Y) ≤ bandwidth * bandwidth)) ↔
      p ∈ points ∧ distSq p m ≤ bandwidth ^ 2 := by
  simp only [List.mem_filter, decide_eq_true_eq, distSq, sq]

/-- The position that `Step` computes from a mode `m` with a dataset point within the
bandwidth stays anchored to the dataset points near `m`: whatever `q`, one of them, hence
a point with any property `S` that these all have, is within
`bandwidth² + distSq newMode q` of `q`. -/
theorem shifted_anchor (exp : F → F) (hexp : ∀ x, 0 < exp x) (points : List (Point F))
    (bandwidth : F) (m : Point F) (S : Point F → Prop)
    (hS : ∀ p ∈ points, distSq p m ≤ bandwidth ^ 2 → S p)
    (hnear : ∃ p ∈ points, distSq p m ≤ bandwidth ^ 2) (q : Point F) :
    ∃ a ∈ points, S a ∧ distSq a q ≤ bandwidth ^ 2 + distSq
      ⟨(shiftLoop exp m (bandwidth * bandwidth) points (0, 0, 0)).1
          / (shiftLoop exp m (bandwidth * bandwidth) points (0, 0, 0)).2.2,
       (shiftLoop exp m (bandwidth * bandwidth) points (0, 0, 0)).2.1
          / (shiftLoop exp m (bandwidth * bandwidth) points (0, 0, 0)).2.2⟩ q := by
  obtain ⟨p0, hp0, hp0near⟩ := hnear
  have hne : points.filter (fun p => decide
      ((p.X - m.X) * (p.X - m.X) + (p.Y - m.Y) * (p.Y - m.Y) ≤ bandwidth * bandwidth)) ≠ [] :=
    List.ne_nil_of_mem ((mem_near_iff points bandwidth m p0).mpr ⟨hp0, hp0near⟩)
  obtain ⟨a, ha, hle⟩ := centroid_anchor _
    (fun p => exp (-((p.X - m.X) * (p.X - m.X) + (p.Y - m.Y) * (p.Y - m.Y))
      / (2 * (bandwidth * bandwidth)))) hne (fun p _ => hexp _) m (bandwidth ^ 2)
    (fun p hp => ((mem_near_iff points bandwidth m p).mp hp).2) q
  have ha2 := (mem_near_iff points bandwidth m a).mp ha
  refine ⟨a, ha2.1, hS a ha2.1 ha2.2, ?_⟩
  simp only [shiftLoop_eq, zero_add]
  exact hle

/-- The position that `Step` computes from a mode `m` with a dataset point within the
bandwidth lies in every open ball that contains the dataset points near `m`. -/
theorem shifted_in_ball (exp : F → F) (hexp : ∀ x, 0 < exp x) (points : List (Point F))
    (bandwidth : F) (m : Point F) (q : Point F) (r : F)
    (hball : ∀ p ∈ points, distSq p m ≤ bandwidth ^ 2 → distSq p q < r)
    (hnear : ∃ p ∈ points, distSq p m ≤ bandwidth ^ 2) :
    distSq
      ⟨(shiftLoop exp m (bandwidth * bandwidth) points (0, 0, 0)).1
          / (shiftLoop exp m (bandwidth * bandwidth) points (0, 0, 0)).2.2,
       (shiftLoop exp m (bandwidth * bandwidth) points (0, 0, 0)).2.1
          / (shiftLoop exp m (bandwidth * bandwidth) points (0, 0, 0)).2.2⟩ q < r := by
  obtain ⟨p0, hp0, hp0near⟩ := hnear
  have hne : points.filter (fun p => decide
      ((p.X - m.X) * (p.X - m.X) + (p.Y - m.Y) * (p.Y - m.Y) ≤ bandwidth * bandwidth)) ≠ [] :=
    List.ne_nil_of_mem ((mem_near_iff points bandwidth m p0).mpr ⟨hp0, hp0near⟩)
  have h := centroid_in_ball _
    (fun p => exp (-((p.X - m.X) * (p.X - m.X) + (p.Y - m.Y) * (p.Y - m.Y))
      / (2 * (bandwidth * bandwidth)))) hne (fun p _ => hexp _) q r
    (fun p hp => hball p ((mem_near_iff points bandwidth m p).mp hp).1
      ((mem_near_iff points bandwidth m p).mp hp).2)
  simp only [shiftLoop_eq, zero_add]
  exact h

/-- The outer loop of `Step` keeps the number of modes. -/
theorem stepLoop_length (exp sqrt : F → F) (points : List (Point F)) (bwSq : F)
    (modes : List (Point F)) :
    ∀ conv : Bool, (stepLoop exp sqrt points bwSq modes conv).1.length = modes.length := by
  induction modes with
  | nil => intro conv; rfl
  | cons cm rest ih =>
      intro conv
      simp only [stepLoop]
      split_ifs <;> simp [ih]

/-- Fields that `Step` leaves alone, and the length of `modes`. -/
theorem iterStep_fields (exp sqrt : F → F) (ms : MeanShift F) (n : Nat) :
    (iterStep exp sqrt n ms).points = ms.points ∧
      (iterStep exp sqrt n ms).bandwidth = ms.bandwidth ∧
      (iterStep exp sqrt n ms).currentModes = ms.currentModes ∧
      (iterStep exp sqrt n ms).labels = ms.labels ∧
      (iterStep exp sqrt n ms).modes.length = ms.modes.length := by
  induction n with
  | zero => exact ⟨rfl, rfl, rfl, rfl, rfl⟩
  | succ n ih =>
      obtain ⟨h1, h2, h3, h4, h5⟩ := ih
      simp only [iterStep, Step, stepLoop_length]
      exact ⟨h1, h2, h3, h4, h5⟩

/-- Invariant of the runs of `Step` from `NewMeanShift`, for a dataset split in two sides
whose cross pairs are more than `2·bandwidth` apart (the split may be trivial).  The mode
of point `i` stays anchored to the side of point `i`: whatever `q`, some dataset point `a`
of that side has `distSq a q ≤ bandwidth² + distSq mode q`; and the mode lies in every open
ball that contains that side. -/
theorem iterStep_modes_anchored (exp sqrt : F → F) (hexp : ∀ x, 0 < exp x)
    (points : List (Point F)) (bandwidth : F) (side : Point F → Bool)
    (hsep : ∀ p ∈ points, ∀ q ∈ points, side p ≠ side q → 4 * bandwidth ^ 2 < distSq p q)
    (n : Nat) :
    ∀ (i : Nat) (p m : Point F), points[i]? = some p →
      (iterStep exp sqrt n (NewMeanShift points bandwidth)).modes[i]? = some m →
      (∀ q, ∃ a ∈ points, side a = side p ∧ distSq a q ≤ bandwidth ^ 2 + distSq m q) ∧
      (∀ q r, (∀ a ∈ points, side a = side p → distSq a q < r) → distSq m q < r) := by
  induction n with
  | zero =>
      intro i p m hp hm
      simp only [iterStep, NewMeanShift] at hm
      rw [hp] at hm
      have hpm : p = m := Option.some.inj hm
      subst hpm
      have hmem : p ∈ points := List.getElem?_mem hp
      refine ⟨fun q => ⟨p, hmem, rfl, ?_⟩, fun q r h => h p hmem rfl⟩
      have := sq_nonneg bandwidth
      linarith
  | succ n ih =>
      intro i p m2 hp hm2
      obtain ⟨hpts, hbw, _, _, hlen⟩ :=
        iterStep_fields exp sqrt (NewMeanShift points bandwidth) n
      have hpts2 : (iterStep exp sqrt n (NewMeanShift points bandwidth)).points = points := hpts
      have hbw2 : (iterStep exp sqrt n (NewMeanShift points bandwidth)).bandwidth = bandwidth :=
        hbw
      simp only [iterStep, Step, hpts2, hbw2] at hm2
      have hi : i < (iterStep exp sqrt n (NewMeanShift points bandwidth)).modes.length := by
        have h1 := (List.getElem?_eq_some_iff.mp hm2).1
        rw [stepLoop_length] at h1
        exact h1
      obtain ⟨m, hm⟩ : ∃ m, (iterStep exp sqrt n (NewMeanShift points bandwidth)).modes[i]?
          = some m := ⟨_, List.getElem?_eq_getElem hi⟩
      obtain ⟨hanch, hhull⟩ := ih i p m hp hm
      rcases stepLoop_getElem exp sqrt points (bandwidth * bandwidth) _ true i m hm with h | h
      · rw [h] at hm2
        have hmm : m = m2 := Option.some.inj hm2
        subst hmm
        exact ⟨hanch, hhull⟩
      · rw [h] at hm2
        have hmm := Option.some.inj hm2
        subst hmm
        obtain ⟨a, ha, hside, hnear⟩ := hanch m
        rw [distSq_self, add_zero] at hnear
        have hS : ∀ p2 ∈ points, distSq p2 m ≤ bandwidth ^ 2 → side p2 = side p := by
          intro p2 hp2 hnear2
          by_contra hne
          have hcross : side a ≠ side p2 := by
            rw [hside]
            exact fun h => hne h.symm
          have h4 := hsep a ha p2 hp2 hcross
          have h5 := distSq_le_four a p2 m (bandwidth ^ 2) hnear hnear2
          linarith
        refine ⟨fun q => ?_, fun q r hr => ?_⟩
        · exact shifted_anchor exp hexp points bandwidth m (fun x => side x = side p) hS
            ⟨a, ha, hnear⟩ q
        · exact shifted_in_ball exp hexp points bandwidth m q r
            (fun p2 hp2 hn2 => hr p2 hp2 (hS p2 hp2 hn2)) ⟨a, ha, hnear⟩

/-- In exact arithmetic, for a positive kernel, in the state after any number of `Step`
calls from `NewMeanShift` every mode has a dataset point at squared distance at most
`bandwidth²`, so the total weight that the next `Step` computes for it is strictly
positive. -/
theorem meanShift_modes_stay_near_data (exp sqrt : F → F) (hexp : ∀ x, 0 < exp x)
    (points : List (Point F)) (bandwidth : F) (_hne : points ≠ []) (_hbw : 0 < bandwidth)
    (n : Nat) :
    ∀ m ∈ (iterStep exp sqrt n (NewMeanShift points bandwidth)).modes,
      (∃ p ∈ points, distSq p m ≤ bandwidth ^ 2) ∧
      (shiftLoop exp m (bandwidth * bandwidth) points (0, 0, 0)).2.2 > 0 := by
  intro m hm
  obtain ⟨i, hi, hmi⟩ := List.getElem_of_mem hm
  obtain ⟨_, _, _, _, hlen⟩ := iterStep_fields exp sqrt (NewMeanShift points bandwidth) n
  have hip : i < points.length := by
    have : (NewMeanShift points bandwidth).modes.length = points.length := rfl
    omega
  have hanch := (iterStep_modes_anchored exp sqrt hexp points bandwidth (fun _ => true)
    (fun _ _ _ _ h => absurd rfl h) n i points[i] m (List.getElem?_eq_getElem hip)
    (by rw [List.getElem?_eq_getElem hi, hmi])).1
  obtain ⟨a, ha, _, hnear⟩ := hanch m
  rw [distSq_self, add_zero] at hnear
  have hex : ∃ p ∈ points, distSq p m ≤ bandwidth ^ 2 := ⟨a, ha, hnear⟩
  refine ⟨hex, (totalWeight_pos_iff exp hexp m bandwidth points).mpr ?_⟩
  simpa only [distSq] using hex

end MeanShiftInvariant

/-! ## Theorems: mean shift when `bandwidth * bandwidth` underflows -/

section MeanShiftUnderflow

open Main10

variable {F : Type} [LinearOrderedField F]

/-- C28 on the code: with the bandwidth `2^-600 > 0` the float64 product
`bandwidth * bandwidth` is 0.  For the one-point dataset `(0,0)` the mode has its own point
at squared distance 0, yet the weight is NaN: the total weight is not strictly positive,
`Step` takes the branch without a positive weight and leaves the mode alone. -/
theorem meanShift_underflow_takes_zero_weight_branch :
    (0 : ℝ) < 1 / 2 ^ 600 ∧
    distSq (⟨0, 0⟩ : Point ℝ) ⟨0, 0⟩ ≤ (1 / 2 ^ 600 : ℝ) ^ 2 ∧
    mulUnderflow (1 / 2 ^ 600 : ℝ) (1 / 2 ^ 600) = 0 ∧
    shiftLoopFloat Real.exp (⟨0, 0⟩ : Point ℝ) (mulUnderflow (1 / 2 ^ 600) (1 / 2 ^ 600))
      [⟨0, 0⟩] (some (0, 0, 0)) = none ∧
    StepFloat Real.exp Real.sqrt (NewMeanShift [(⟨0, 0⟩ : Point ℝ)] (1 / 2 ^ 600)) =
      ({ NewMeanShift [(⟨0, 0⟩ : Point ℝ)] (1 / 2 ^ 600) with iterations := 1 }, true) := by
  have hmul : mulUnderflow (1 / 2 ^ 600 : ℝ) (1 / 2 ^ 600) = 0 := by
    have h : |(1 / 2 ^ 600 : ℝ) * (1 / 2 ^ 600)| ≤ 1 / 2 ^ 1075 := by
      rw [abs_of_pos (by positivity)]
      norm_num
    simp only [mulUnderflow, h, if_true]
  refine ⟨by positivity, ?_, hmul, ?_, ?_⟩
  · simp only [distSq, sub_self]
    norm_num
  · rw [hmul]
    simp [shiftLoopFloat]
  · simp only [StepFloat, NewMeanShift, hmul]
    simp [stepLoopFloat, shiftLoopFloat]

/-- A product above `2^-1075` is not rounded to 0. -/
theorem mulUnderflow_eq (x y : F) (h : 1 / 2 ^ 1075 < x * y) : mulUnderflow x y = x * y := by
  have hpos : (0 : F) < 1 / 2 ^ 1075 := by positivity
  have hn : ¬ (|x * y| ≤ 1 / 2 ^ 1075) := by
    rw [abs_of_pos (lt_trans hpos h)]
    exact not_le.mpr h
  simp only [mulUnderflow, hn, if_false]

/-- With `2 * bandwidthSq ≠ 0` no weight is NaN and the inner loop is the exact one. -/
theorem shiftLoopFloat_eq (exp : F → F) (m : Point F) (bwSq : F) (hb : 2 * bwSq ≠ 0)
    (points : List (Point F)) :
    ∀ a : F × F × F, shiftLoopFloat exp m bwSq points (some a) =
      some (shiftLoop exp m bwSq points a) := by
  induction points with
  | nil => intro a; rfl
  | cons p rest ih =>
      intro a
      obtain ⟨sx, sy, tw⟩ := a
      by_cases h : (p.X - m.X) * (p.X - m.X) + (p.Y - m.Y) * (p.Y - m.Y) ≤ bwSq
      · simp only [shiftLoopFloat, shiftLoop, h, if_true, hb, if_false, Option.map_some', ih]
      · simp only [shiftLoopFloat, shiftLoop, h, if_false, ih]

/-- With `2 * bandwidthSq ≠ 0` the outer loop is the exact one. -/
theorem stepLoopFloat_eq (exp sqrt : F → F) (points : List (Point F)) (bwSq : F)
    (hb : 2 * bwSq ≠ 0) (modes : List (Point F)) :
    ∀ conv : Bool, stepLoopFloat exp sqrt points bwSq modes conv =
      stepLoop exp sqrt points bwSq modes conv := by
  induction modes with
  | nil => intro conv; rfl
  | cons cm rest ih =>
      intro conv
      simp only [stepLoopFloat, stepLoop, shiftLoopFloat_eq exp cm bwSq hb points, ih]

/-- When `bandwidth * bandwidth` does not underflow, `StepFloat` is `Step`. -/
theorem StepFloat_eq (exp sqrt : F → F) (ms : MeanShift F)
    (h : 1 / 2 ^ 1075 < ms.bandwidth * ms.bandwidth) :
    StepFloat exp sqrt ms = Step exp sqrt ms := by
  have hpos : (0 : F) < 1 / 2 ^ 1075 := by positivity
  have hb : 2 * (ms.bandwidth * ms.bandwidth) ≠ 0 := by
    have := lt_trans hpos h
    positivity
  simp only [StepFloat, Step, mulUnderflow_eq _ _ h, stepLoopFloat_eq exp sqrt _ _ hb]

/-- When `bandwidth * bandwidth` does not underflow, runs of `StepFloat` are runs of
`Step`. -/
theorem iterStepFloat_eq (exp sqrt : F → F) (ms : MeanShift F)
    (h : 1 / 2 ^ 1075 < ms.bandwidth * ms.bandwidth) :
    ∀ n : Nat, iterStepFloat exp sqrt n ms = iterStep exp sqrt n ms := by
  intro n
  induction n with
  | zero => rfl
  | succ n ih =>
      have hbw := (iterStep_fields exp sqrt ms n).2.1
      simp only [iterStepFloat, iterStep, ih]
      rw [StepFloat_eq exp sqrt _ (by rw [hbw]; exact h)]

/-- C28, amended: in exact arithmetic apart from the underflow of `bandwidth * bandwidth`
and the NaN weights it causes, for a non-empty dataset, a positive kernel and a bandwidth
above 0 whose square is above `2^-1075` (so that float64 does not round it to 0), in the
state after any number of `Step` calls from `NewMeanShift` every mode has a dataset point
at squared distance at most `bandwidth²`, and the total weight that the next `Step`
computes for it is a number (not NaN) that is strictly positive: the zero-weight branch is
not taken. -/
theorem meanShift_modes_stay_near_data_no_underflow (exp sqrt : F → F)
    (hexp : ∀ x, 0 < exp x) (points : List (Point F)) (bandwidth : F) (hne : points ≠ [])
    (hbw : 0 < bandwidth) (hno : 1 / 2 ^ 1075 < bandwidth * bandwidth) (n : Nat) :
    ∀ m ∈ (iterStepFloat exp sqrt n (NewMeanShift points bandwidth)).modes,
      (∃ p ∈ points, distSq p m ≤ bandwidth ^ 2) ∧
      ∃ acc, shiftLoopFloat exp m (mulUnderflow bandwidth bandwidth) points (some (0, 0, 0))
          = some acc ∧ acc.2.2 > 0 := by
  intro m hm
  rw [iterStepFloat_eq exp sqrt (NewMeanShift points bandwidth) hno n] at hm
  obtain ⟨hnear, hpos⟩ :=
    meanShift_modes_stay_near_data exp sqrt hexp points bandwidth hne hbw n m hm
  have hposb : (0 : F) < 1 / 2 ^ 1075 := by positivity
  have hb : 2 * (bandwidth * bandwidth) ≠ 0 := by
    have := lt_trans hposb hno
    positivity
  refine ⟨hnear, _, ?_, hpos⟩
  rw [mulUnderflow_eq _ _ hno, shiftLoopFloat_eq exp m _ hb]

theorem meanShift_modes_stay_near_data_no_underflow_witness :
    (∀ x, 0 < Real.exp x) ∧ [(⟨0, 0⟩ : Point ℝ), ⟨1, 0⟩, ⟨9, 0⟩] ≠ [] ∧ (0 : ℝ) < 2 ∧
      (1 / 2 ^ 1075 < (2 : ℝ) * 2) ∧
      ∀ m ∈ (iterStepFloat Real.exp Real.sqrt 3
          (NewMeanShift [(⟨0, 0⟩ : Point ℝ), ⟨1, 0⟩, ⟨9, 0⟩] 2)).modes,
        (∃ p ∈ [(⟨0, 0⟩ : Point ℝ), ⟨1, 0⟩, ⟨9, 0⟩], distSq p m ≤ (2 : ℝ) ^ 2) ∧
        ∃ acc, shiftLoopFloat Real.exp m (mulUnderflow 2 2)
            [(⟨0, 0⟩ : Point ℝ), ⟨1, 0⟩, ⟨9, 0⟩] (some (0, 0, 0)) = some acc ∧ acc.2.2 > 0 :=
  have h : (1 / 2 ^ 1075 < (2 : ℝ) * 2) := by
    have h1 : (1 : ℝ) / 2 ^ 1075 ≤ 1 := by
      rw [div_le_one (by positivity)]
      exact one_le_pow₀ (by norm_num)
    linarith
  ⟨Real.exp_pos, by simp, by norm_num, h,
    meanShift_modes_stay_near_data_no_underflow Real.exp Real.sqrt Real.exp_pos
      [(⟨0, 0⟩ : Point ℝ), ⟨1, 0⟩, ⟨9, 0⟩] 2 (by simp) (by norm_num) h 3⟩

end MeanShiftUnderflow

/-! ## Theorems: mean shift on two separated groups -/

section MeanShiftBlobs

open Main10

/-- C25 (as the code behaves): with bandwidth 1, the groups `(0,0), (100,0)` and
`(1000,0), (1100,0)` have every cross pair more than `2·bandwidth` apart; the first `Step`
returns `converged = true` and the merge then assigns the four ids 0, 1, 2, 3, so neither
group shares an id. -/
theorem meanShift_separated_groups_four_ids :
    (∀ p ∈ [(⟨0, 0⟩ : Point ℝ), ⟨100, 0⟩], ∀ q ∈ [(⟨1000, 0⟩ : Point ℝ), ⟨1100, 0⟩],
        distance Real.sqrt p q > 2 * 1) ∧
      (Step Real.exp Real.sqrt
        (NewMeanShift [(⟨0, 0⟩ : Point ℝ), ⟨100, 0⟩, ⟨1000, 0⟩, ⟨1100, 0⟩] 1)).2 = true ∧
      (UpdateAnimation Real.sqrt
        { (Step Real.exp Real.sqrt
            (NewMeanShift [(⟨0, 0⟩ : Point ℝ), ⟨100, 0⟩, ⟨1000, 0⟩, ⟨1100, 0⟩] 1)).1 with
          converged := true } 1).map (fun ms => ms.labels) = some [0, 1, 2, 3] := by
  have hstep : Step Real.exp Real.sqrt
      (NewMeanShift [(⟨0, 0⟩ : Point ℝ), ⟨100, 0⟩, ⟨1000, 0⟩, ⟨1100, 0⟩] 1) =
      ({ points := [⟨0, 0⟩, ⟨100, 0⟩, ⟨1000, 0⟩, ⟨1100, 0⟩]
         modes := [⟨0, 0⟩, ⟨100, 0⟩, ⟨1000, 0⟩, ⟨1100, 0⟩]
         currentModes := [⟨0, 0⟩, ⟨100, 0⟩, ⟨1000, 0⟩, ⟨1100, 0⟩]
         labels := [0, 0, 0, 0]
         bandwidth := 1
         iterations := 1
         currentStep := 0
         converged := false }, true) := by
    norm_num [Step, stepLoop, shiftLoop, distance, NewMeanShift, List.replicate]
  refine ⟨?_, ?_, ?_⟩
  · intro p hp q hq
    simp only [List.mem_cons, List.mem_singleton, List.not_mem_nil, or_false] at hp hq
    rcases hp with rfl | rfl <;> rcases hq with rfl | rfl <;>
      rw [distance_axis10] <;> norm_num
  · rw [hstep]
  · rw [hstep]
    norm_num [UpdateAnimation, animLoop, mergeLoop, findCenter, distance_axis10]

/-- Over the reals the distance of main10.go is the square root of the squared
distance. -/
theorem distance_eq_sqrt_distSq (p q : Point ℝ) :
    distance Real.sqrt p q = Real.sqrt (distSq p q) := by
  simp only [distance, distSq, sq]

/-- What the ordered merge returns, whatever the representatives it starts from: the
representatives it adds are modes, and the label of the mode at index `t` is the position,
in the final list of representatives, of a representative that is this mode itself or is
nearer to it than `bandwidth / 2`. -/
theorem mergeSpec_char {F : Type} [LinearOrderedField F] (sqrt : F → F) (bandwidth : F)
    (modes : List (Point F)) :
    ∀ reps : List (Point F), ∃ added : List (Point F), (∀ r ∈ added, r ∈ modes) ∧
      ∀ (t : Nat) (m : Point F), modes[t]? = some m →
        ∃ (j : Nat) (r : Point F),
          (mergeSpec sqrt bandwidth modes reps)[t]? = some ((j : Nat) : Int) ∧
          (reps ++ added)[j]? = some r ∧ (r = m ∨ distance sqrt m r < bandwidth / 2) := by
  induction modes with
  | nil =>
      intro reps
      exact ⟨[], by simp, by simp⟩
  | cons m0 rest ih =>
      intro reps
      cases hf : reps.findIdx? (fun r => decide (distance sqrt m0 r < bandwidth / 2)) with
      | some j =>
          obtain ⟨added, hadded, hlab⟩ := ih reps
          refine ⟨added, fun r hr => List.mem_cons_of_mem _ (hadded r hr), ?_⟩
          intro t m ht
          cases t with
          | zero =>
              simp only [List.getElem?_cons_zero, Option.some.injEq] at ht
              subst ht
              obtain ⟨hj, hp, _⟩ := List.findIdx?_eq_some_iff_getElem.mp hf
              refine ⟨j, reps[j], by simp [mergeSpec, hf], ?_, Or.inr (by simpa using hp)⟩
              rw [List.getElem?_append_left hj]
              exact List.getElem?_eq_getElem hj
          | succ t =>
              simp only [List.getElem?_cons_succ] at ht
              obtain ⟨j2, r, h1, h2, h3⟩ := hlab t m ht
              exact ⟨j2, r, by simp [mergeSpec, hf, h1], h2, h3⟩
      | none =>
          obtain ⟨added, hadded, hlab⟩ := ih (reps ++ [m0])
          refine ⟨m0 :: added, ?_, ?_⟩
          · intro r hr
            rcases List.mem_cons.mp hr with rfl | hr2
            · exact List.mem_cons_self _ _
            · exact List.mem_cons_of_mem _ (hadded r hr2)
          · intro t m ht
            cases t with
            | zero =>
                simp only [List.getElem?_cons_zero, Option.some.injEq] at ht
                subst ht
                refine ⟨reps.length, m0, by simp [mergeSpec, hf], ?_, Or.inl rfl⟩
                rw [List.getElem?_append_right (le_refl _)]
                simp
            | succ t =>
                simp only [List.getElem?_cons_succ] at ht
                obtain ⟨j2, r, h1, h2, h3⟩ := hlab t m ht
                refine ⟨j2, r, by simp [mergeSpec, hf, h1], ?_, h3⟩
                simpa using h2

/-- Two modes anchored to different sides of a dataset whose cross pairs are more than
`2·bandwidth` apart are more than `√2·bandwidth` apart. -/
theorem anchored_cross_far {F : Type} [LinearOrderedField F] (points : List (Point F))
    (bandwidth : F) (side : Point F → Bool)
    (hsep : ∀ p ∈ points, ∀ q ∈ points, side p ≠ side q → 4 * bandwidth ^ 2 < distSq p q)
    (g1 g2 : Bool) (hg : g1 ≠ g2) (m1 m2 : Point F)
    (h1 : ∀ q, ∃ a ∈ points, side a = g1 ∧ distSq a q ≤ bandwidth ^ 2 + distSq m1 q)
    (h2 : ∀ q, ∃ a ∈ points, side a = g2 ∧ distSq a q ≤ bandwidth ^ 2 + distSq m2 q) :
    2 * bandwidth ^ 2 < distSq m1 m2 := by
  obtain ⟨a, ha, hsa, hda⟩ := h1 m2
  obtain ⟨b, hb, hsb, hdb⟩ := h2 a
  have hcross : side b ≠ side a := by
    rw [hsa, hsb]
    exact fun h => hg h.symm
  have h4 := hsep b hb a ha hcross
  rw [distSq_comm m2 a] at hdb
  linarith

/-- The ordered merge of tagged modes against two representatives `r0`, `r1`, when the
modes tagged `g0` are near `r0` and the others are near `r1` and not near `r0`. -/
theorem mergeSpec_two_reps {F : Type} [LinearOrderedField F] (sqrt : F → F) (bandwidth : F)
    (r0 r1 : Point F) (g0 : Bool) :
    ∀ mt : List (Point F × Bool),
      (∀ x ∈ mt, (x.2 = g0 → distance sqrt x.1 r0 < bandwidth / 2) ∧
        (x.2 ≠ g0 → ¬ distance sqrt x.1 r0 < bandwidth / 2 ∧
          distance sqrt x.1 r1 < bandwidth / 2)) →
      mergeSpec sqrt bandwidth (mt.map Prod.fst) [r0, r1] =
        mt.map (fun x => if x.2 = g0 then (0 : Int) else 1) := by
  intro mt
  induction mt with
  | nil => intro _; rfl
  | cons x rest ih =>
      intro h
      have hrest := ih (fun y hy => h y (List.mem_cons_of_mem _ hy))
      obtain ⟨hx1, hx2⟩ := h x (List.mem_cons_self _ _)
      by_cases hg : x.2 = g0
      · have hd := hx1 hg
        simp [mergeSpec, List.findIdx?_cons, hd, hg, hrest]
      · obtain ⟨hd0, hd1⟩ := hx2 hg
        simp [mergeSpec, List.findIdx?_cons, hd0, hd1, hg, hrest]

/-- The ordered merge of tagged modes against one representative `r0`, when exactly the
modes tagged `g0` are near `r0` and the other modes are near each other. -/
theorem mergeSpec_one_rep {F : Type} [LinearOrderedField F] (sqrt : F → F) (bandwidth : F)
    (r0 : Point F) (g0 : Bool) :
    ∀ mt : List (Point F × Bool),
      (∀ x ∈ mt, (x.2 = g0 → distance sqrt x.1 r0 < bandwidth / 2) ∧
        (x.2 ≠ g0 → ¬ distance sqrt x.1 r0 < bandwidth / 2)) →
      (∀ x ∈ mt, ∀ y ∈ mt, x.2 ≠ g0 → y.2 ≠ g0 → distance sqrt y.1 x.1 < bandwidth / 2) →
      mergeSpec sqrt bandwidth (mt.map Prod.fst) [r0] =
        mt.map (fun x => if x.2 = g0 then (0 : Int) else 1) := by
  intro mt
  induction mt with
  | nil => intro _ _; rfl
  | cons x rest ih =>
      intro h hh
      obtain ⟨hx1, hx2⟩ := h x (List.mem_cons_self _ _)
      by_cases hg : x.2 = g0
      · have hrest := ih (fun y hy => h y (List.mem_cons_of_mem _ hy))
          (fun y hy z hz => hh y (List.mem_cons_of_mem _ hy) z (List.mem_cons_of_mem _ hz))
        have hd := hx1 hg
        simp [mergeSpec, List.findIdx?_cons, hd, hg, hrest]
      · have hd0 := hx2 hg
        have hrest := mergeSpec_two_reps sqrt bandwidth r0 x.1 g0 rest (fun y hy =>
          ⟨(h y (List.mem_cons_of_mem _ hy)).1, fun hyg =>
            ⟨(h y (List.mem_cons_of_mem _ hy)).2 hyg,
              hh x (List.mem_cons_self _ _) y (List.mem_cons_of_mem _ hy) hg hyg⟩⟩)
        simp [mergeSpec, List.findIdx?_cons, hd0, hg, hrest]

/-- The ordered merge of tagged modes from no representative, when two modes are nearer
than `bandwidth / 2` exactly when they carry the same tag: the modes tagged like the first
one get the id 0, the others the id 1. -/
theorem mergeSpec_two_sides {F : Type} [LinearOrderedField F] (sqrt : F → F) (bandwidth : F)
    (x0 : Point F × Bool) (rest : List (Point F × Bool))
    (h : ∀ x ∈ x0 :: rest, ∀ y ∈ x0 :: rest,
      (x.2 = y.2 → distance sqrt x.1 y.1 < bandwidth / 2) ∧
      (x.2 ≠ y.2 → ¬ distance sqrt x.1 y.1 < bandwidth / 2)) :
    mergeSpec sqrt bandwidth ((x0 :: rest).map Prod.fst) [] =
      (x0 :: rest).map (fun x => if x.2 = x0.2 then (0 : Int) else 1) := by
  have h0 := List.mem_cons_self x0 rest
  have hrest := mergeSpec_one_rep sqrt bandwidth x0.1 x0.2 rest
    (fun y hy => ⟨(h y (List.mem_cons_of_mem _ hy) x0 h0).1,
      (h y (List.mem_cons_of_mem _ hy) x0 h0).2⟩)
    (fun x hx y hy hxg hyg => (h y (List.mem_cons_of_mem _ hy) x
      (List.mem_cons_of_mem _ hx)).1 (by
        cases hy2 : y.2 <;> cases hx2 : x.2 <;> cases h02 : x0.2 <;> simp_all))
  simp [mergeSpec, hrest]

/-- Over the reals: being nearer than a positive `c` is a bound on the squared distance. -/
theorem distance_lt_iff (p q : Point ℝ) (c : ℝ) (hc : 0 < c) :
    distance Real.sqrt p q < c ↔ distSq p q < c ^ 2 := by
  rw [distance_eq_sqrt_distSq, Real.sqrt_lt' hc]

/-- Cross pairs more than `2·bandwidth` apart, in squared form and for both orders of the
pair. -/
theorem cross_sep_sq (points : List (Point ℝ)) (bandwidth : ℝ) (hbw : 0 < bandwidth)
    (side : Point ℝ → Bool)
    (hsep : ∀ p ∈ points, ∀ q ∈ points, side p = true → side q = false →
      distance Real.sqrt p q > 2 * bandwidth) :
    ∀ p ∈ points, ∀ q ∈ points, side p ≠ side q → 4 * bandwidth ^ 2 < distSq p q := by
  have key : ∀ p ∈ points, ∀ q ∈ points, side p = true → side q = false →
      4 * bandwidth ^ 2 < distSq p q := by
    intro p hp q hq h1 h2
    have h := hsep p hp q hq h1 h2
    rw [distance_eq_sqrt_distSq, gt_iff_lt, Real.lt_sqrt (by linarith)] at h
    linarith [h, mul_pow 2 bandwidth 2]
  intro p hp q hq hne
  cases h1 : side p <;> cases h2 : side q
  · exact absurd (h1.trans h2.symm) hne
  · rw [distSq_comm]
    exact key q hq p hp h2 h1
  · exact key p hp q hq h1 h2
  · exact absurd (h1.trans h2.symm) hne

/-- The modes of two points, in a state reached by `Step` calls on a dataset of two sides
whose cross pairs are more than `2·bandwidth` apart: modes of different sides are distinct
and not nearer than `bandwidth / 2`; when every two points of a side are nearer than
`bandwidth / 2`, so are the modes of that side. -/
theorem blob_modes_pairwise (exp : ℝ → ℝ) (hexp : ∀ x, 0 < exp x) (points : List (Point ℝ))
    (bandwidth : ℝ) (hbw : 0 < bandwidth) (side : Point ℝ → Bool)
    (hsep : ∀ p ∈ points, ∀ q ∈ points, side p = true → side q = false →
      distance Real.sqrt p q > 2 * bandwidth) (n : Nat)
    (i j : Nat) (p q m1 m2 : Point ℝ) (hp : points[i]? = some p) (hq : points[j]? = some q)
    (hm1 : (iterStep exp Real.sqrt n (NewMeanShift points bandwidth)).modes[i]? = some m1)
    (hm2 : (iterStep exp Real.sqrt n (NewMeanShift points bandwidth)).modes[j]? = some m2) :
    (side p ≠ side q → m1 ≠ m2 ∧ ¬ distance Real.sqrt m1 m2 < bandwidth / 2) ∧
      ((∀ a ∈ points, ∀ b ∈ points, side a = side b →
          distance Real.sqrt a b < bandwidth / 2) →
        side p = side q → distance Real.sqrt m1 m2 < bandwidth / 2) := by
  have hsq := cross_sep_sq points bandwidth hbw side hsep
  obtain ⟨ha1, hh1⟩ := iterStep_modes_anchored exp Real.sqrt hexp points bandwidth side hsq n
    i p m1 hp hm1
  obtain ⟨ha2, hh2⟩ := iterStep_modes_anchored exp Real.sqrt hexp points bandwidth side hsq n
    j q m2 hq hm2
  have hb2 : 0 < bandwidth ^ 2 := by positivity
  constructor
  · intro hne
    have hfar := anchored_cross_far points bandwidth side hsq (side p) (side q) hne m1 m2 ha1 ha2
    constructor
    · intro heq
      rw [heq, distSq_self] at hfar
      linarith
    · intro hlt
      rw [distance_lt_iff _ _ _ (half_pos hbw)] at hlt
      have : (bandwidth / 2) ^ 2 = bandwidth ^ 2 / 4 := by ring
      linarith
  · intro hdiam hsame
    rw [distance_lt_iff _ _ _ (half_pos hbw)]
    apply hh1 m2
    intro a ha hsa
    rw [distSq_comm]
    apply hh2 a
    intro b hb hsb
    have := hdiam b hb a ha (by rw [hsb, hsa, hsame])
    rwa [distance_lt_iff _ _ _ (half_pos hbw)] at this

/-- The ordered merge when the modes of two points are nearer than `bandwidth / 2` exactly
when the points are on the same side: the points on the side of the first point get the
id 0, the others the id 1. -/
theorem mergeSpec_by_side {F : Type} [LinearOrderedField F] (sqrt : F → F) (bandwidth : F)
    (side : Point F → Bool) (points modes : List (Point F))
    (hlen : modes.length = points.length)
    (h : ∀ (i j : Nat) (p q m1 m2 : Point F), points[i]? = some p → points[j]? = some q →
      modes[i]? = some m1 → modes[j]? = some m2 →
      (side p = side q → distance sqrt m1 m2 < bandwidth / 2) ∧
      (side p ≠ side q → ¬ distance sqrt m1 m2 < bandwidth / 2)) :
    ∃ g0 : Bool, mergeSpec sqrt bandwidth modes [] =
      points.map (fun p => if side p = g0 then (0 : Int) else 1) := by
  have hfst : (modes.zip (points.map side)).map Prod.fst = modes :=
    List.map_fst_zip _ _ (by simp [hlen])
  have hsnd : (modes.zip (points.map side)).map Prod.snd = points.map side :=
    List.map_snd_zip _ _ (by simp [hlen])
  have hmem : ∀ x ∈ modes.zip (points.map side), ∃ (i : Nat) (p : Point F),
      points[i]? = some p ∧ modes[i]? = some x.1 ∧ side p = x.2 := by
    intro x hx
    obtain ⟨i, hi⟩ := List.mem_iff_getElem?.mp hx
    obtain ⟨h1, h2⟩ := List.getElem?_zip_eq_some.mp hi
    rw [List.getElem?_map] at h2
    obtain ⟨p, hp, hsp⟩ := Option.map_eq_some'.mp h2
    exact ⟨i, p, hp, h1, hsp⟩
  cases hmt : modes.zip (points.map side) with
  | nil =>
      rw [hmt] at hfst hsnd
      simp only [List.map_nil] at hfst hsnd
      have hp : points = [] := by
        cases points with
        | nil => rfl
        | cons a l => simp at hsnd
      refine ⟨true, ?_⟩
      rw [← hfst, hp]
      rfl
  | cons x0 rest =>
      refine ⟨x0.2, ?_⟩
      have hpair : ∀ x ∈ x0 :: rest, ∀ y ∈ x0 :: rest,
          (x.2 = y.2 → distance sqrt x.1 y.1 < bandwidth / 2) ∧
          (x.2 ≠ y.2 → ¬ distance sqrt x.1 y.1 < bandwidth / 2) := by
        intro x hx y hy
        rw [← hmt] at hx hy
        obtain ⟨i, p, hp, hm1, hsp⟩ := hmem x hx
        obtain ⟨j, q, hq, hm2, hsq⟩ := hmem y hy
        have := h i j p q x.1 y.1 hp hq hm1 hm2
        rw [hsp, hsq] at this
        exact this
      have hmerge := mergeSpec_two_sides sqrt bandwidth x0 rest hpair
      rw [← hmt, hfst] at hmerge
      rw [hmerge]
      have hcomp : (modes.zip (points.map side)).map
          (fun x => if x.2 = x0.2 then (0 : Int) else 1) =
          ((modes.zip (points.map side)).map Prod.snd).map
            (fun g => if g = x0.2 then (0 : Int) else 1) := by
        rw [List.map_map]
        rfl
      rw [hcomp, hsnd, List.map_map]
      rfl

/-- C25 (amended): for a dataset split in two non-empty groups (`side p = true` and
`side p = false`) whose cross pairs are all more than `2·bandwidth` apart, in the state
after any number of `Step` calls from `NewMeanShift` the merge of `UpdateAnimation` returns
one label per point, never gives two points of different groups the same id, and so
assigns at least two distinct ids.  When moreover every two points of a group are nearer
than `bandwidth/2`, the only ids are 0 and 1 and all points of a group share their id. -/
theorem meanShift_separated_groups_merge (exp : ℝ → ℝ) (hexp : ∀ x, 0 < exp x)
    (points : List (Point ℝ)) (bandwidth progress : ℝ) (side : Point ℝ → Bool)
    (hbw : 0 < bandwidth)
    (hA : ∃ p ∈ points, side p = true) (hB : ∃ p ∈ points, side p = false)
    (hsep : ∀ p ∈ points, ∀ q ∈ points, side p = true → side q = false →
      distance Real.sqrt p q > 2 * bandwidth) (n : Nat) :
    ∃ ms2, UpdateAnimation Real.sqrt
        { iterStep exp Real.sqrt n (NewMeanShift points bandwidth) with converged := true }
        progress = some ms2 ∧
      ms2.labels.length = points.length ∧
      (∀ (i j : Nat) (p q : Point ℝ), points[i]? = some p → points[j]? = some q →
        side p ≠ side q → ms2.labels[i]? ≠ ms2.labels[j]?) ∧
      (∃ a ∈ ms2.labels, ∃ b ∈ ms2.labels, a ≠ b) ∧
      ((∀ p ∈ points, ∀ q ∈ points, side p = side q →
          distance Real.sqrt p q < bandwidth / 2) →
        (∀ l ∈ ms2.labels, l = 0 ∨ l = 1) ∧
        ∀ (i j : Nat) (p q : Point ℝ), points[i]? = some p → points[j]? = some q →
          side p = side q → ms2.labels[i]? = ms2.labels[j]?) := by
  obtain ⟨hpts, hbwf, hcur, hlabf, hlen⟩ :=
    iterStep_fields exp Real.sqrt (NewMeanShift points bandwidth) n
  have hpts2 : (iterStep exp Real.sqrt n (NewMeanShift points bandwidth)).points = points := hpts
  have hbw2 : (iterStep exp Real.sqrt n (NewMeanShift points bandwidth)).bandwidth = bandwidth :=
    hbwf
  have hcur2 : (iterStep exp Real.sqrt n (NewMeanShift points bandwidth)).currentModes = points :=
    hcur
  have hlab2 : (iterStep exp Real.sqrt n (NewMeanShift points bandwidth)).labels =
      List.replicate points.length 0 := hlabf
  have hlen2 : (iterStep exp Real.sqrt n (NewMeanShift points bandwidth)).modes.length =
      points.length := hlen
  obtain ⟨ms2, hrun, hlab⟩ := updateAnimation_converged_run Real.sqrt
    { iterStep exp Real.sqrt n (NewMeanShift points bandwidth) with converged := true }
    progress rfl (by simp only [hlen2, hpts2]) (by simp only [hcur2, hpts2])
    (by simp only [hlab2, hpts2, List.length_replicate])
  simp only [hbw2] at hlab
  have hlablen : ms2.labels.length = points.length := by
    rw [hlab, mergeSpec_length, hlen2]
  have hpair := blob_modes_pairwise exp hexp points bandwidth hbw side hsep n
  -- points of different groups get different ids
  have hcross : ∀ (i j : Nat) (p q : Point ℝ), points[i]? = some p → points[j]? = some q →
      side p ≠ side q → ms2.labels[i]? ≠ ms2.labels[j]? := by
    intro i j p q hp hq hne heq
    have hi : i < points.length := (List.getElem?_eq_some_iff.mp hp).1
    have hj : j < points.length := (List.getElem?_eq_some_iff.mp hq).1
    obtain ⟨m1, hm1⟩ : ∃ m, (iterStep exp Real.sqrt n
        (NewMeanShift points bandwidth)).modes[i]? = some m :=
      ⟨_, List.getElem?_eq_getElem (by omega)⟩
    obtain ⟨m2, hm2⟩ : ∃ m, (iterStep exp Real.sqrt n
        (NewMeanShift points bandwidth)).modes[j]? = some m :=
      ⟨_, List.getElem?_eq_getElem (by omega)⟩
    obtain ⟨added, hadded, hchar⟩ := mergeSpec_char Real.sqrt bandwidth
      (iterStep exp Real.sqrt n (NewMeanShift points bandwidth)).modes []
    obtain ⟨j1, r1, hl1, hr1, hn1⟩ := hchar i m1 hm1
    obtain ⟨j2, r2, hl2, hr2, hn2⟩ := hchar j m2 hm2
    rw [hlab, hl1, hl2] at heq
    have hjj : j1 = j2 := by
      have := Option.some.inj heq
      exact_mod_cast this
    subst hjj
    rw [hr1] at hr2
    have hrr : r1 = r2 := Option.some.inj hr2
    subst hrr
    rw [List.nil_append] at hr1
    have hrmem : r1 ∈ (iterStep exp Real.sqrt n (NewMeanShift points bandwidth)).modes :=
      hadded r1 (List.getElem?_mem hr1)
    obtain ⟨s, hs⟩ := List.mem_iff_getElem?.mp hrmem
    have hslt : s < points.length := by
      have := (List.getElem?_eq_some_iff.mp hs).1
      omega
    have hps : points[s]? = some points[s] := List.getElem?_eq_getElem hslt
    by_cases hside : side p = side points[s]
    · have hqs : side q ≠ side points[s] := fun h => hne (hside.trans h.symm)
      obtain ⟨hneq, hfar⟩ := (hpair j s q points[s] m2 r1 hq hps hm2 hs).1 hqs
      rcases hn2 with h | h
      · exact hneq h.symm
      · exact hfar h
    · obtain ⟨hneq, hfar⟩ := (hpair i s p points[s] m1 r1 hp hps hm1 hs).1 hside
      rcases hn1 with h | h
      · exact hneq h.symm
      · exact hfar h
  refine ⟨ms2, hrun, hlablen, hcross, ?_, ?_⟩
  · obtain ⟨p, hp, hsp⟩ := hA
    obtain ⟨q, hq, hsq⟩ := hB
    obtain ⟨i, hi⟩ := List.mem_iff_getElem?.mp hp
    obtain ⟨j, hj⟩ := List.mem_iff_getElem?.mp hq
    have hil : i < ms2.labels.length := by
      have := (List.getElem?_eq_some_iff.mp hi).1
      omega
    have hjl : j < ms2.labels.length := by
      have := (List.getElem?_eq_some_iff.mp hj).1
      omega
    refine ⟨ms2.labels[i], List.getElem_mem hil, ms2.labels[j], List.getElem_mem hjl, ?_⟩
    intro heq
    apply hcross i j p q hi hj (by rw [hsp, hsq]; decide)
    rw [List.getElem?_eq_getElem hil, List.getElem?_eq_getElem hjl, heq]
  · intro hdiam
    obtain ⟨g0, hg0⟩ := mergeSpec_by_side Real.sqrt bandwidth side points
      (iterStep exp Real.sqrt n (NewMeanShift points bandwidth)).modes hlen2
      (fun i j p q m1 m2 hp hq hm1 hm2 =>
        ⟨(hpair i j p q m1 m2 hp hq hm1 hm2).2 hdiam,
          fun hne => ((hpair i j p q m1 m2 hp hq hm1 hm2).1 hne).2⟩)
    rw [hg0] at hlab
    constructor
    · intro l hl
      rw [hlab] at hl
      obtain ⟨p, _, rfl⟩ := List.mem_map.mp hl
      by_cases h : side p = g0
      · left; simp [h]
      · right; simp [h]
    · intro i j p q hp hq hsame
      rw [hlab, List.getElem?_map, List.getElem?_map, hp, hq]
      simp [hsame]

theorem meanShift_separated_groups_merge_witness :
    (∀ x, 0 < Real.exp x) ∧ (0 : ℝ) < 1 ∧
      (∃ p ∈ [(⟨0, 0⟩ : Point ℝ), ⟨10, 0⟩], decide (p.X < 5) = true) ∧
      (∃ p ∈ [(⟨0, 0⟩ : Point ℝ), ⟨10, 0⟩], decide (p.X < 5) = false) ∧
      (∀ p ∈ [(⟨0, 0⟩ : Point ℝ), ⟨10, 0⟩], ∀ q ∈ [(⟨0, 0⟩ : Point ℝ), ⟨10, 0⟩],
        decide (p.X < 5) = true → decide (q.X < 5) = false →
        distance Real.sqrt p q > 2 * 1) ∧
      ∃ ms2, UpdateAnimation Real.sqrt
          { iterStep Real.exp Real.sqrt 2 (NewMeanShift [(⟨0, 0⟩ : Point ℝ), ⟨10, 0⟩] 1) with
            converged := true } 1 = some ms2 ∧
        ms2.labels.length = [(⟨0, 0⟩ : Point ℝ), ⟨10, 0⟩].length ∧
        (∀ (i j : Nat) (p q : Point ℝ), [(⟨0, 0⟩ : Point ℝ), ⟨10, 0⟩][i]? = some p →
          [(⟨0, 0⟩ : Point ℝ), ⟨10, 0⟩][j]? = some q →
          decide (p.X < 5) ≠ decide (q.X < 5) → ms2.labels[i]? ≠ ms2.labels[j]?) ∧
        (∃ a ∈ ms2.labels, ∃ b ∈ ms2.labels, a ≠ b) ∧
        ((∀ p ∈ [(⟨0, 0⟩ : Point ℝ), ⟨10, 0⟩], ∀ q ∈ [(⟨0, 0⟩ : Point ℝ), ⟨10, 0⟩],
            decide (p.X < 5) = decide (q.X < 5) → distance Real.sqrt p q < 1 / 2) →
          (∀ l ∈ ms2.labels, l = 0 ∨ l = 1) ∧
          ∀ (i j : Nat) (p q : Point ℝ), [(⟨0, 0⟩ : Point ℝ), ⟨10, 0⟩][i]? = some p →
            [(⟨0, 0⟩ : Point ℝ), ⟨10, 0⟩][j]? = some q →
            decide (p.X < 5) = decide (q.X < 5) → ms2.labels[i]? = ms2.labels[j]?) := by
  have hA : ∃ p ∈ [(⟨0, 0⟩ : Point ℝ), ⟨10, 0⟩], decide (p.X < 5) = true :=
    ⟨⟨0, 0⟩, by simp, by norm_num⟩
  have hB : ∃ p ∈ [(⟨0, 0⟩ : Point ℝ), ⟨10, 0⟩], decide (p.X < 5) = false :=
    ⟨⟨10, 0⟩, by simp, by norm_num⟩
  have hsep : ∀ p ∈ [(⟨0, 0⟩ : Point ℝ), ⟨10, 0⟩], ∀ q ∈ [(⟨0, 0⟩ : Point ℝ), ⟨10, 0⟩],
      decide (p.X < 5) = true → decide (q.X < 5) = false →
      distance Real.sqrt p q > 2 * 1 := by
    intro p hp q hq h1 h2
    simp only [List.mem_cons, List.mem_singleton, List.not_mem_nil, or_false] at hp hq
    rcases hp with rfl | rfl <;> rcases hq with rfl | rfl
    · norm_num at h2
    · rw [distance_axis10]; norm_num
    · norm_num at h1
    · norm_num at h1
  exact ⟨Real.exp_pos, one_pos, hA, hB, hsep,
    meanShift_separated_groups_merge Real.exp Real.exp_pos [(⟨0, 0⟩ : Point ℝ), ⟨10, 0⟩] 1 1
      (fun p => decide (p.X < 5)) one_pos hA hB hsep 2⟩

end MeanShiftBlobs

/-! ## Theorems: the k-means objective -/

section KMeansObjective

open Main9

variable {F : Type} [LinearOrderedField F]

/-- Expansion of a sum of squared deviations from `q`. -/
theorem sq_sum_expand {α : Type} (L : List α) (x : α → F) (q : F) :
    (L.map (fun p => (x p - q) ^ 2)).sum =
      (L.map (fun p => x p ^ 2)).sum - 2 * q * (L.map x).sum + q ^ 2 * (L.length : F) := by
  induction L with
  | nil => simp
  | cons a rest ih =>
      simp only [List.map_cons, List.sum_cons, ih, List.length_cons, Nat.cast_succ]
      ring

/-- The mean of a non-empty list minimises the sum of squared deviations. -/
theorem sq_sum_mean_le {α : Type} (L : List α) (x : α → F) (hne : L ≠ []) (q : F) :
    (L.map (fun p => (x p - (L.map x).sum / (L.length : F)) ^ 2)).sum ≤
      (L.map (fun p => (x p - q) ^ 2)).sum := by
  have hn : (0 : F) < (L.length : F) := by
    exact_mod_cast List.length_pos.mpr hne
  rw [sq_sum_expand L x q, sq_sum_expand L x _]
  have key := mul_nonneg hn.le (sq_nonneg (q - (L.map x).sum / (L.length : F)))
  have hdiff : (L.map (fun p => x p ^ 2)).sum - 2 * q * (L.map x).sum + q ^ 2 * (L.length : F)
      - ((L.map (fun p => x p ^ 2)).sum
          - 2 * ((L.map x).sum / (L.length : F)) * (L.map x).sum
          + ((L.map x).sum / (L.length : F)) ^ 2 * (L.length : F)) =
      (L.length : F) * (q - (L.map x).sum / (L.length : F)) ^ 2 := by
    field_simp
    ring
  linarith

/-- The sum of the squared distances to `q`, split by coordinates. -/
theorem distSq_sum_split (M : List (Point F)) (q : Point F) :
    (M.map (fun p => distSq p q)).sum =
      (M.map (fun p => (p.X - q.X) ^ 2)).sum + (M.map (fun p => (p.Y - q.Y) ^ 2)).sum := by
  induction M with
  | nil => simp
  | cons a rest ih =>
      simp only [List.map_cons, List.sum_cons]
      rw [ih]
      simp only [distSq]
      ring

/-- The coordinate-wise mean of a non-empty list of points minimises the sum of the
squared distances to the points. -/
theorem distSq_sum_mean_le (M : List (Point F)) (hne : M ≠ []) (q : Point F) :
    (M.map (fun p => distSq p
        ⟨(M.map Point.X).sum / (M.length : F), (M.map Point.Y).sum / (M.length : F)⟩)).sum ≤
      (M.map (fun p => distSq p q)).sum := by
  rw [distSq_sum_split, distSq_sum_split]
  exact add_le_add (sq_sum_mean_le M Point.X hne q.X) (sq_sum_mean_le M Point.Y hne q.Y)

omit [LinearOrderedField F] in
theorem members_of_no_points (cl : List Int) (j : Nat) :
    members ([] : List (Point F)) cl j = [] := by
  simp [members]

/-- A sum over the points of a cost that depends on the cluster index of the point is the
sum over the clusters of the cost summed over the members of the cluster. -/
theorem sum_by_cluster (k : Nat) (G : Nat → Point F → F) :
    ∀ (cl : List Int) (points : List (Point F)), (∀ c ∈ cl, 0 ≤ c ∧ c < (k : Int)) →
      ((cl.zip points).map (fun cp => G cp.1.toNat cp.2)).sum =
        ∑ j in Finset.range k, ((members points cl j).map (G j)).sum := by
  intro cl
  induction cl with
  | nil =>
      intro points _
      simp [members_nil]
  | cons c rest ih =>
      intro points hrange
      cases points with
      | nil => simp [members_of_no_points]
      | cons p ps =>
          have hc := hrange c (List.mem_cons_self c rest)
          have hrest : ∀ c2 ∈ rest, 0 ≤ c2 ∧ c2 < (k : Int) :=
            fun c2 h2 => hrange c2 (List.mem_cons_of_mem c h2)
          have hone : ∑ j in Finset.range k, (if c = (j : Int) then G j p else 0) =
              G c.toNat p := by
            rw [Finset.sum_eq_single c.toNat]
            · rw [if_pos (by omega)]
            · intro j _ hj
              rw [if_neg (by omega)]
            · intro hnot
              exact absurd (Finset.mem_range.mpr (by omega)) hnot
          have hmem : ∀ j : Nat, ((members (p :: ps) (c :: rest) j).map (G j)).sum =
              (if c = (j : Int) then G j p else 0) + ((members ps rest j).map (G j)).sum := by
            intro j
            rw [members_cons]
            by_cases h : c = (j : Int) <;> simp [h]
          simp only [hmem, Finset.sum_add_distrib, hone, List.zip_cons_cons, List.map_cons,
            List.sum_cons, ih ps hrest]

/-- Changing the cluster index of each point to one that costs no more does not increase
the objective. -/
theorem wcss_le_of_pointwise (centroids : List (Point F)) :
    ∀ (points : List (Point F)) (cl cl2 : List Int), cl.length = points.length →
      cl2.length = points.length →
      (∀ (i : Nat) (p : Point F) (a b : Int), points[i]? = some p → cl[i]? = some a →
        cl2[i]? = some b → costAt centroids b.toNat p ≤ costAt centroids a.toNat p) →
      wcss points cl2 centroids ≤ wcss points cl centroids := by
  intro points
  induction points with
  | nil =>
      intro cl cl2 _ _ _
      simp [wcss]
  | cons p ps ih =>
      intro cl cl2 h1 h2 h
      cases cl with
      | nil => simp at h1
      | cons a rest =>
          cases cl2 with
          | nil => simp at h2
          | cons b rest2 =>
              simp only [List.length_cons, Nat.add_right_cancel_iff] at h1 h2
              have hhead := h 0 p a b (List.getElem?_cons_zero ..) (List.getElem?_cons_zero ..)
                (List.getElem?_cons_zero ..)
              have htail := ih rest rest2 h1 h2
                (fun i q a2 b2 hq ha hb => h (i + 1) q a2 b2
                  (by rw [List.getElem?_cons_succ]; exact hq)
                  (by rw [List.getElem?_cons_succ]; exact ha)
                  (by rw [List.getElem?_cons_succ]; exact hb))
              simp only [wcss, List.zip_cons_cons, List.map_cons, List.sum_cons] at htail ⊢
              exact add_le_add hhead htail

theorem kmeans_distSq_nonneg (p q : Point F) : 0 ≤ distSq p q := by
  simp only [distSq]
  positivity

/-- C27: on a well-shaped k-means state (`k ≥ 1`, `k` centroids, one cluster index in
`[0, k)` per point) `stepKmeans` returns and does not increase the within-cluster sum of
squares `Σ_i ‖points[i] − centroids[clusters[i]]‖²`, also when a cluster is left empty
(its centroid enters no term of the sum).  Of `math.Sqrt` only its strict monotonicity on
the non-negative numbers is used. -/
theorem stepKmeans_wcss_nonincreasing (sqrt : F → F)
    (hsqrt : ∀ a b : F, 0 ≤ a → a < b → sqrt a < sqrt b) (g : Game F) (hwf : g.WF)
    (_hk : 1 ≤ g.k) :
    ∃ g2 ch, stepKmeans sqrt g = some (g2, ch) ∧
      wcss g2.points g2.clusters g2.centroids ≤ wcss g.points g.clusters g.centroids := by
  obtain ⟨g2, ch, hrun, hpts, _, hlen2, hassign, _, _, hcen2, hrange2⟩ :=
    stepKmeans_spec sqrt g hwf
  obtain ⟨hk0, hcen, hlen, hrange⟩ := hwf
  refine ⟨g2, ch, hrun, ?_⟩
  rw [hpts]
  -- the assignment phase
  have hA : wcss g.points g2.clusters g.centroids ≤ wcss g.points g.clusters g.centroids := by
    apply wcss_le_of_pointwise g.centroids g.points g.clusters g2.clusters hlen hlen2
    intro i p a b hp ha hb
    have hb2 := hassign i p a hp ha
    rw [hb] at hb2
    have hbeq : b = closestOf sqrt g.centroids p a := Option.some.inj hb2
    have harange := hrange a (List.getElem?_mem ha)
    have hat : a.toNat < g.centroids.length := by omega
    rcases closestOf_cases sqrt g.centroids p a with ⟨hkeep, _⟩ | ⟨n, c, hn, hidx, hmin, _, _⟩
    · rw [hbeq, hkeep]
    · rw [hbeq, hidx]
      have hca : g.centroids[a.toNat]? = some g.centroids[a.toNat] :=
        List.getElem?_eq_getElem hat
      have hle := hmin g.centroids[a.toNat] (List.getElem_mem hat)
      simp only [costAt, Int.toNat_ofNat, hn, hca]
      by_contra hcon
      have hlt := hsqrt _ _ (kmeans_distSq_nonneg p g.centroids[a.toNat]) (not_le.mp hcon)
      have h1 : distance sqrt p c = sqrt (distSq p c) := rfl
      have h2 : distance sqrt p g.centroids[a.toNat] = sqrt (distSq p g.centroids[a.toNat]) :=
        rfl
      rw [h1, h2] at hle
      exact absurd hlt (not_lt.mpr hle)
  -- the update phase
  have hktoNat : ((g.k.toNat : Nat) : Int) = g.k := Int.toNat_of_nonneg hk0
  have hrange3 : ∀ c ∈ g2.clusters, 0 ≤ c ∧ c < ((g.k.toNat : Nat) : Int) := by
    intro c hc
    rw [hktoNat]
    exact hrange2 c hc
  have hB : wcss g.points g2.clusters g2.centroids ≤ wcss g.points g2.clusters g.centroids := by
    simp only [wcss]
    rw [sum_by_cluster g.k.toNat (costAt g2.centroids) g2.clusters g.points hrange3,
      sum_by_cluster g.k.toNat (costAt g.centroids) g2.clusters g.points hrange3]
    apply Finset.sum_le_sum
    intro j hj
    have hjk : j < g.k.toNat := Finset.mem_range.mp hj
    by_cases hM : members g.points g2.clusters j = []
    · rw [hM]
      simp
    · have hpos : 0 < (members g.points g2.clusters j).length := List.length_pos.mpr hM
      have hposZ : ((members g.points g2.clusters j).length : Int) > 0 := by
        exact_mod_cast hpos
      have hjc : j < g.centroids.length := by omega
      have hnew : costAt g2.centroids j = fun p => distSq p
          ⟨((members g.points g2.clusters j).map Point.X).sum
              / ((members g.points g2.clusters j).length : F),
           ((members g.points g2.clusters j).map Point.Y).sum
              / ((members g.points g2.clusters j).length : F)⟩ := by
        funext p
        simp [costAt, hcen2 j hjk, divideOne, hposZ]
      have hold : costAt g.centroids j = fun p => distSq p g.centroids[j] := by
        funext p
        simp [costAt, List.getElem?_eq_getElem hjc]
      rw [hnew, hold]
      exact distSq_sum_mean_le _ hM _
  exact le_trans hB hA

theorem stepKmeans_wcss_nonincreasing_witness :
    (∀ a b : ℝ, 0 ≤ a → a < b → Real.sqrt a < Real.sqrt b) ∧
    (mkGame [(⟨0, 0⟩ : Point ℝ), ⟨10, 0⟩, ⟨7, 0⟩] [0, 0, 0] [⟨1, 0⟩, ⟨9, 0⟩]).WF ∧
    1 ≤ (mkGame [(⟨0, 0⟩ : Point ℝ), ⟨10, 0⟩, ⟨7, 0⟩] [0, 0, 0] [⟨1, 0⟩, ⟨9, 0⟩]).k ∧
    ∃ g2 ch, stepKmeans Real.sqrt
        (mkGame [(⟨0, 0⟩ : Point ℝ), ⟨10, 0⟩, ⟨7, 0⟩] [0, 0, 0] [⟨1, 0⟩, ⟨9, 0⟩]) = some (g2, ch) ∧
      wcss g2.points g2.clusters g2.centroids ≤
        wcss (mkGame [(⟨0, 0⟩ : Point ℝ), ⟨10, 0⟩, ⟨7, 0⟩] [0, 0, 0] [⟨1, 0⟩, ⟨9, 0⟩]).points
          (mkGame [(⟨0, 0⟩ : Point ℝ), ⟨10, 0⟩, ⟨7, 0⟩] [0, 0, 0] [⟨1, 0⟩, ⟨9, 0⟩]).clusters
          (mkGame [(⟨0, 0⟩ : Point ℝ), ⟨10, 0⟩, ⟨7, 0⟩] [0, 0, 0] [⟨1, 0⟩, ⟨9, 0⟩]).centroids :=
  ⟨fun _ _ ha hab => Real.sqrt_lt_sqrt ha hab, by simp [Game.WF, mkGame], by simp [mkGame],
   stepKmeans_wcss_nonincreasing Real.sqrt (fun _ _ ha hab => Real.sqrt_lt_sqrt ha hab)
    (mkGame [(⟨0, 0⟩ : Point ℝ), ⟨10, 0⟩, ⟨7, 0⟩] [0, 0, 0] [⟨1, 0⟩, ⟨9, 0⟩])
    (by simp [Game.WF, mkGame]) (by simp [mkGame])⟩

end KMeansObjective
